import Mathlib

/-!
Verification of the SCL ↔ RDF round-trip converter
(`template-webapp/backend/app/scl_converter.py` and the round-trip
validation step of `template-webapp/backend/app/api/scl_files.py`).

Modelling conventions (shallow embedding)

* Python strings are modelled as byte sequences (`Bytes := List Nat`,
  each entry `< 256`).  All the string primitives the converter uses —
  `urllib.parse.quote` / `unquote` with `safe=''`, `str.strip`,
  `str.replace`, `int(...)`, decimal `repr` of the order counter, and
  `base64.b64encode` / `b64decode` — operate on bytes in Python as well
  (after UTF-8 encoding), so the byte-level model is faithful.
* `lxml` element trees are modelled by the inductive `XNode`.  Tags are
  stored as local names (the converter always works with
  `etree.QName(tag).localname`).  A `comment` node stands for any lxml
  node whose `.tag` is not a string (comments and processing
  instructions): `etree.QName` stringifies such a tag and then rejects
  it with `ValueError("Invalid tag name ...")`, which the embedding
  reflects as an encoder error.
* `rdflib.Graph` is modelled as a list of triples kept in insertion
  order (the in-memory store iterates subject/predicate keys in
  insertion order; `Graph.value` returns the first match).  A
  `Literal` with `datatype=XSD.integer` is `Obj.litNat`, every other
  literal is `Obj.lit`, a `URIRef` is `Obj.uri`.  Literals are never
  subjects, so subject-position lookups on a literal return nothing,
  exactly as in rdflib.
* The external collaborators `etree.tostring` / `etree.fromstring`
  (used only for opaque `Private` subtrees and for the round-trip
  validation re-parse) are modelled by a concrete XML printer
  `serializeXml` and a matching parser `parseXml`; the spec treats the
  pair as a black box satisfying parse ∘ serialize = id, which is
  proved here for the printer/parser pair.
* Unbounded recursion over a graph (`_build_element`) is modelled with
  explicit fuel; the top-level decoder supplies more fuel than any
  terminating run of the Python code can consume, and cyclic graphs
  (on which the Python code would not terminate) yield a fuel error.
* `list.sort(key=...)` is Python's stable Timsort; it is modelled by
  `List.insertionSort` on the key order, which is also stable and
  therefore extensionally identical on every input.
* `int(...)` on a decimal string is modelled without Python's
  underscore-grouping extension, which is unreachable for the literals
  the converter writes.
-/

namespace SclRdf

/-- Byte strings standing for Python `str` values (UTF-8 bytes). -/
abbrev Bytes := List Nat

/-- ASCII byte list of a Lean string literal (used only for ASCII literals). -/
def S (s : String) : Bytes := s.toList.map Char.toNat

/-- Python `str.strip()` whitespace set: space, \t, \n, \r, \v, \f. -/
def isSpaceB (b : Nat) : Bool := b = 32 || b = 9 || b = 10 || b = 13 || b = 11 || b = 12

/-- Python `str.strip()`. -/
def pyStrip (s : Bytes) : Bytes := ((s.dropWhile isSpaceB).reverse.dropWhile isSpaceB).reverse

/-- ASCII decimal digit test. -/
def isDigitB (b : Nat) : Bool := 48 ≤ b && b ≤ 57

/-- Parse a nonempty all-digit byte string as a natural number. -/
def parseDigits (s : Bytes) : Option Nat :=
  if s = [] then none
  else if s.all isDigitB then some (s.foldl (fun a b => a * 10 + (b - 48)) 0) else none

/-- Python `int(str)`: strip whitespace, optional sign, decimal digits. -/
def pyInt (s : Bytes) : Option Int :=
  match pyStrip s with
  | 43 :: r => (parseDigits r).map (fun n => (n : Int))
  | 45 :: r => (parseDigits r).map (fun n => -(n : Int))
  | r => (parseDigits r).map (fun n => (n : Int))

/-- Little-endian ASCII digits of `n` (`fuel ≥ n` suffices). -/
def digitsAux : Nat → Nat → Bytes
  | 0, _ => []
  | _ + 1, 0 => []
  | fuel + 1, n + 1 => ((n + 1) % 10 + 48) :: digitsAux fuel ((n + 1) / 10)

/-- Python decimal `repr` of a natural number, as bytes. -/
def natRepr (n : Nat) : Bytes := if n = 0 then [48] else (digitsAux n n).reverse

theorem digitsAux_val : ∀ fuel n, n ≤ fuel →
    (digitsAux fuel n).foldr (fun x y => y * 10 + (x - 48)) 0 = n
  | 0, n, h => by
      interval_cases n
      simp [digitsAux]
  | fuel + 1, 0, _ => by simp [digitsAux]
  | fuel + 1, n + 1, h => by
      have hlt : (n + 1) / 10 ≤ fuel := by
        have := Nat.div_le_self (n + 1) 10
        have h10 : (n + 1) / 10 < n + 1 := Nat.div_lt_self (Nat.succ_pos n) (by norm_num)
        omega
      simp only [digitsAux, List.foldr_cons, digitsAux_val fuel ((n + 1) / 10) hlt]
      omega

theorem digitsAux_digits : ∀ fuel n, ∀ d ∈ digitsAux fuel n, 48 ≤ d ∧ d ≤ 57
  | 0, n, d, h => by simp [digitsAux] at h
  | fuel + 1, 0, d, h => by simp [digitsAux] at h
  | fuel + 1, n + 1, d, h => by
      simp only [digitsAux, List.mem_cons] at h
      rcases h with h | h
      · have : (n + 1) % 10 < 10 := Nat.mod_lt _ (by norm_num)
        omega
      · exact digitsAux_digits fuel ((n + 1) / 10) d h

theorem digitsAux_ne_nil (fuel n : Nat) (h1 : 1 ≤ n) (h2 : 1 ≤ fuel) :
    digitsAux fuel n ≠ [] := by
  match fuel, n with
  | fuel + 1, n + 1 => simp [digitsAux]

theorem natRepr_digits (n : Nat) : ∀ d ∈ natRepr n, 48 ≤ d ∧ d ≤ 57 := by
  intro d hd
  by_cases h : n = 0
  · subst h; simp [natRepr] at hd; omega
  · simp only [natRepr, if_neg h, List.mem_reverse] at hd
    exact digitsAux_digits n n d hd

theorem natRepr_ne_nil (n : Nat) : natRepr n ≠ [] := by
  by_cases h : n = 0
  · simp [natRepr, h]
  · simp only [natRepr, if_neg h, ne_eq, List.reverse_eq_nil_iff]
    exact digitsAux_ne_nil n n (by omega) (by omega)

theorem parseDigits_natRepr (n : Nat) : parseDigits (natRepr n) = some n := by
  by_cases h : n = 0
  · subst h; decide
  · have hne : natRepr n ≠ [] := natRepr_ne_nil n
    have hdig : (natRepr n).all isDigitB = true := by
      rw [List.all_eq_true]
      intro d hd
      have := natRepr_digits n d hd
      simp [isDigitB]; omega
    rw [parseDigits, if_neg hne, if_pos hdig]
    simp only [natRepr, if_neg h, List.foldl_reverse]
    rw [digitsAux_val n n (le_refl n)]

theorem natRepr_inj {a b : Nat} (h : natRepr a = natRepr b) : a = b := by
  have ha := parseDigits_natRepr a
  have hb := parseDigits_natRepr b
  rw [h, hb] at ha
  exact (Option.some_inj.mp ha).symm

/-- Uppercase hex digit byte for a value `< 16` (as `urllib.parse.quote` emits). -/
def hexDigit (n : Nat) : Nat := if n < 10 then 48 + n else 55 + n

/-- Hex digit value of a byte; `unquote` accepts both cases. -/
def hexVal (b : Nat) : Option Nat :=
  if 48 ≤ b ∧ b ≤ 57 then some (b - 48)
  else if 65 ≤ b ∧ b ≤ 70 then some (b - 55)
  else if 97 ≤ b ∧ b ≤ 102 then some (b - 87)
  else none

/-- The bytes `urllib.parse.quote` never escapes: ALPHA, DIGIT, `_`, `.`, `-`, `~`. -/
def isUnreservedByte (b : Nat) : Bool :=
  (65 ≤ b && b ≤ 90) || (97 ≤ b && b ≤ 122) || (48 ≤ b && b ≤ 57) ||
  b = 95 || b = 46 || b = 45 || b = 126

/-- `urllib.parse.quote(s, safe='')` at the byte level. -/
def quote : Bytes → Bytes
  | [] => []
  | b :: rest =>
      (if isUnreservedByte b then [b] else [37, hexDigit (b / 16), hexDigit (b % 16)]) ++
        quote rest

/-- `urllib.parse.unquote` at the byte level (invalid escapes keep the `%`). -/
def unquote : Bytes → Bytes
  | [] => []
  | [b] => [b]
  | [b, c] => [b, c]
  | b :: h :: l :: rest =>
      if b = 37 then
        match hexVal h, hexVal l with
        | some hv, some lv => (hv * 16 + lv) :: unquote rest
        | _, _ => 37 :: unquote (h :: l :: rest)
      else b :: unquote (h :: l :: rest)

theorem hexVal_hexDigit {n : Nat} (h : n < 16) : hexVal (hexDigit n) = some n := by
  interval_cases n <;> decide

theorem unquote_cons_of_ne (b : Nat) (t : Bytes) (hb : b ≠ 37) :
    unquote (b :: t) = b :: unquote t := by
  match t with
  | [] => rfl
  | [c] => rfl
  | h :: l :: rest => simp [unquote, hb]

theorem unquote_quote : ∀ s : Bytes, (∀ b ∈ s, b < 256) → unquote (quote s) = s
  | [], _ => rfl
  | b :: rest, h => by
      have hb : b < 256 := h b (List.mem_cons_self b rest)
      have hrest : ∀ x ∈ rest, x < 256 := fun x hx => h x (List.mem_cons_of_mem b hx)
      by_cases hu : isUnreservedByte b
      · have hb37 : b ≠ 37 := by
          intro he; subst he; simp [isUnreservedByte] at hu
        simp only [quote, if_pos hu, List.singleton_append]
        rw [unquote_cons_of_ne b _ hb37, unquote_quote rest hrest]
      · have h16 : b / 16 < 16 := by omega
        have hm : b % 16 < 16 := by omega
        simp only [quote, if_neg hu, List.cons_append, List.nil_append]
        rw [show unquote (37 :: hexDigit (b / 16) :: hexDigit (b % 16) :: quote rest) =
              (b / 16 * 16 + b % 16) :: unquote (quote rest) from ?_,
          unquote_quote rest hrest]
        · congr 1; omega
        · simp only [unquote, if_pos rfl]
          rw [hexVal_hexDigit h16, hexVal_hexDigit hm]
          simp

/-- Python `str.replace(pat, rep)` (all occurrences), fuel-driven. -/
def pyReplaceAux : Nat → Bytes → Bytes → Bytes → Bytes
  | 0, s, _, _ => s
  | fuel + 1, s, pat, rep =>
      match s with
      | [] => []
      | b :: rest =>
          if pat ≠ [] ∧ pat.isPrefixOf (b :: rest) then
            rep ++ pyReplaceAux fuel ((b :: rest).drop pat.length) pat rep
          else b :: pyReplaceAux fuel rest pat rep

/-- Python `str.replace(pat, rep)` (all occurrences). -/
def pyReplace (s pat rep : Bytes) : Bytes := pyReplaceAux s.length s pat rep

/-- Base64 alphabet char for a 6-bit value. -/
def b64char (n : Nat) : Nat :=
  if n < 26 then 65 + n
  else if n < 52 then 97 + (n - 26)
  else if n < 62 then 48 + (n - 52)
  else if n = 62 then 43 else 47

/-- Base64 value of an alphabet byte. -/
def b64val (c : Nat) : Option Nat :=
  if 65 ≤ c ∧ c ≤ 90 then some (c - 65)
  else if 97 ≤ c ∧ c ≤ 122 then some (c - 97 + 26)
  else if 48 ≤ c ∧ c ≤ 57 then some (c - 48 + 52)
  else if c = 43 then some 62
  else if c = 47 then some 63
  else none

/-- `base64.b64encode` on bytes. -/
def b64encode : Bytes → Bytes
  | [] => []
  | [a] => [b64char (a / 4), b64char (a % 4 * 16), 61, 61]
  | [a, b] => [b64char (a / 4), b64char (a % 4 * 16 + b / 16), b64char (b % 16 * 4), 61]
  | a :: b :: c :: rest =>
      [b64char (a / 4), b64char (a % 4 * 16 + b / 16), b64char (b % 16 * 4 + c / 64),
        b64char (c % 64)] ++ b64encode rest

/-- Decode one full base64 quad into three bytes. -/
def b64decodeQuad (c1 c2 c3 c4 : Nat) : Option Bytes := do
  let v1 ← b64val c1
  let v2 ← b64val c2
  let v3 ← b64val c3
  let v4 ← b64val c4
  some [v1 * 4 + v2 / 16, v2 % 16 * 16 + v3 / 4, v3 % 4 * 64 + v4]

/-- `base64.b64decode` on bytes (valid padded input). -/
def b64decode : Bytes → Option Bytes
  | [] => some []
  | [c1, c2, c3, c4] =>
      if c3 = 61 ∧ c4 = 61 then do
        let v1 ← b64val c1
        let v2 ← b64val c2
        some [v1 * 4 + v2 / 16]
      else if c4 = 61 then do
        let v1 ← b64val c1
        let v2 ← b64val c2
        let v3 ← b64val c3
        some [v1 * 4 + v2 / 16, v2 % 16 * 16 + v3 / 4]
      else b64decodeQuad c1 c2 c3 c4
  | c1 :: c2 :: c3 :: c4 :: rest => do
      let q ← b64decodeQuad c1 c2 c3 c4
      let tail ← b64decode rest
      some (q ++ tail)
  | _ => none

theorem b64val_b64char {n : Nat} (h : n < 64) : b64val (b64char n) = some n := by
  interval_cases n <;> decide

theorem b64char_ne_61 {n : Nat} (h : n < 64) : b64char n ≠ 61 := by
  interval_cases n <;> decide

theorem b64decodeQuad_chars {a b c : Nat} (ha : a < 256) (hb : b < 256) (hc : c < 256) :
    b64decodeQuad (b64char (a / 4)) (b64char (a % 4 * 16 + b / 16))
      (b64char (b % 16 * 4 + c / 64)) (b64char (c % 64)) = some [a, b, c] := by
  rw [b64decodeQuad, b64val_b64char (by omega), b64val_b64char (by omega),
    b64val_b64char (by omega), b64val_b64char (by omega)]
  simp only [Option.bind_eq_bind, Option.some_bind, Option.some_inj]
  congr 1
  · omega
  · congr 1
    · omega
    · congr 1 <;> omega

theorem b64encode_cons_shape (x : Nat) (xs : Bytes) :
    ∃ e es, b64encode (x :: xs) = e :: es := by
  match xs with
  | [] => exact ⟨_, _, rfl⟩
  | [y] => exact ⟨_, _, rfl⟩
  | y :: z :: r => exact ⟨_, _, rfl⟩

theorem b64decode_b64encode : ∀ bs : Bytes, (∀ b ∈ bs, b < 256) →
    b64decode (b64encode bs) = some bs
  | [], _ => rfl
  | [a], h => by
      have ha : a < 256 := h a (by simp)
      rw [b64encode, b64decode, if_pos ⟨rfl, rfl⟩,
        b64val_b64char (by omega : a / 4 < 64), b64val_b64char (by omega : a % 4 * 16 < 64)]
      simp only [Option.bind_eq_bind, Option.some_bind, Option.some_inj]
      congr 1
      omega
  | [a, b], h => by
      have ha : a < 256 := h a (by simp)
      have hb : b < 256 := h b (by simp)
      rw [b64encode, b64decode,
        if_neg (by intro hcontra; exact b64char_ne_61 (by omega) hcontra.1), if_pos rfl,
        b64val_b64char (by omega : a / 4 < 64),
        b64val_b64char (by omega : a % 4 * 16 + b / 16 < 64),
        b64val_b64char (by omega : b % 16 * 4 < 64)]
      simp only [Option.bind_eq_bind, Option.some_bind, Option.some_inj]
      congr 1 <;> [skip; congr 1] <;> omega
  | a :: b :: c :: rest, h => by
      have ha : a < 256 := h a (by simp)
      have hb : b < 256 := h b (by simp)
      have hc : c < 256 := h c (by simp)
      have hrest : ∀ x ∈ rest, x < 256 := by
        intro x hx; exact h x (by simp [hx])
      match rest with
      | [] =>
          rw [b64encode, b64encode]
          show b64decode [_, _, _, _] = _
          rw [b64decode,
            if_neg (by intro hcontra; exact b64char_ne_61 (by omega) hcontra.1),
            if_neg (by intro hcontra; exact b64char_ne_61 (by omega) hcontra),
            b64decodeQuad_chars ha hb hc]
      | r :: rs =>
          obtain ⟨e, es, hE⟩ := b64encode_cons_shape r rs
          rw [b64encode, hE]
          show b64decode (_ :: _ :: _ :: _ :: (e :: es)) = _
          rw [b64decode, ← hE, b64decodeQuad_chars ha hb hc,
            b64decode_b64encode (r :: rs) hrest]
          all_goals simp

/-! XML element trees (`lxml.etree` elements).

A node is either a proper element (tag stored as its local name,
attribute list in document order, direct text, children in document
order) or a `comment` node standing for any lxml child whose `.tag` is
not a string (XML comments and processing instructions). -/

inductive XNode where
  | elem (tag : Bytes) (attrs : List (Bytes × Bytes)) (text : Bytes) (children : List XNode)
  | comment (content : Bytes)

mutual
def beqX : XNode → XNode → Bool
  | .comment a, .comment b => decide (a = b)
  | .elem t1 a1 x1 c1, .elem t2 a2 x2 c2 =>
      decide (t1 = t2) && decide (a1 = a2) && decide (x1 = x2) && beqXL c1 c2
  | _, _ => false
def beqXL : List XNode → List XNode → Bool
  | [], [] => true
  | x :: xs, y :: ys => beqX x y && beqXL xs ys
  | _, _ => false
end

mutual
theorem beqX_eq : ∀ a b, beqX a b = true → a = b
  | .comment a, .comment b, h => by
      simp only [beqX, decide_eq_true_eq] at h; rw [h]
  | .elem t1 a1 x1 c1, .elem t2 a2 x2 c2, h => by
      simp only [beqX, Bool.and_eq_true, decide_eq_true_eq] at h
      obtain ⟨⟨⟨h1, h2⟩, h3⟩, h4⟩ := h
      rw [h1, h2, h3, beqXL_eq c1 c2 h4]
  | .comment _, .elem _ _ _ _, h => by simp [beqX] at h
  | .elem _ _ _ _, .comment _, h => by simp [beqX] at h
theorem beqXL_eq : ∀ a b, beqXL a b = true → a = b
  | [], [], _ => rfl
  | x :: xs, y :: ys, h => by
      simp only [beqXL, Bool.and_eq_true] at h
      rw [beqX_eq x y h.1, beqXL_eq xs ys h.2]
  | [], _ :: _, h => by simp [beqXL] at h
  | _ :: _, [], h => by simp [beqXL] at h
end

mutual
theorem beqX_refl : ∀ a, beqX a a = true
  | .comment a => by simp [beqX]
  | .elem t1 a1 x1 c1 => by simp [beqX, beqXL_refl c1]
theorem beqXL_refl : ∀ a, beqXL a a = true
  | [] => rfl
  | x :: xs => by simp [beqXL, beqX_refl x, beqXL_refl xs]
end

instance : DecidableEq XNode := fun a b =>
  if h : beqX a b = true then .isTrue (beqX_eq a b h)
  else .isFalse (fun he => h (he ▸ beqX_refl a))

/- Number of nodes, for parser fuel accounting. -/
mutual
def xsize : XNode → Nat
  | .comment _ => 1
  | .elem _ _ _ cs => 1 + xsizeL cs
def xsizeL : List XNode → Nat
  | [] => 0
  | n :: rest => xsize n + xsizeL rest
end

/-! Concrete XML printer/parser pair modelling the external collaborators
`etree.tostring` / `etree.fromstring` (spec §6 treats them as a black box
with parse ∘ serialize = id, proved below for well-formed trees). -/

/-- XML text escaping (`&`, `<`, `>`). -/
def escText : Bytes → Bytes
  | [] => []
  | b :: rest =>
      (if b = 38 then S ("&amp;")
       else if b = 60 then S ("&lt;")
       else if b = 62 then S ("&gt;") else [b]) ++ escText rest

/-- XML attribute-value escaping (`&`, `<`, `>`, `"`). -/
def escAttr : Bytes → Bytes
  | [] => []
  | b :: rest =>
      (if b = 38 then S ("&amp;")
       else if b = 60 then S ("&lt;")
       else if b = 62 then S ("&gt;")
       else if b = 34 then S ("&quot;") else [b]) ++ escAttr rest

/-- XML entity unescaping (the four entities the printer emits). -/
def unesc : Bytes → Option Bytes
  | [] => some []
  | b :: rest =>
      if b = 38 then
        match rest with
        | 97 :: 109 :: 112 :: 59 :: rest2 => (unesc rest2).map (fun t => 38 :: t)
        | 108 :: 116 :: 59 :: rest2 => (unesc rest2).map (fun t => 60 :: t)
        | 103 :: 116 :: 59 :: rest2 => (unesc rest2).map (fun t => 62 :: t)
        | 113 :: 117 :: 111 :: 116 :: 59 :: rest2 => (unesc rest2).map (fun t => 34 :: t)
        | _ => none
      else (unesc rest).map (fun t => b :: t)

mutual
def serializeXml : XNode → Bytes
  | .comment c => S ("<!--") ++ c ++ S ("-->")
  | .elem tag attrs text children =>
      60 :: (tag ++ serAttrs attrs ++
        (if text = [] ∧ children = [] then S ("/>")
         else (62 :: (escText text ++ serChildren children)) ++ (60 :: 47 :: (tag ++ [62]))))
def serAttrs : List (Bytes × Bytes) → Bytes
  | [] => []
  | (k, v) :: rest => (32 :: (k ++ (61 :: 34 :: (escAttr v ++ [34])))) ++ serAttrs rest
def serChildren : List XNode → Bytes
  | [] => []
  | n :: rest => serializeXml n ++ serChildren rest
end

/-- Bytes allowed in a tag name for the printer/parser pair. -/
def tagCharB (b : Nat) : Bool :=
  !(b = 32 || b = 9 || b = 10 || b = 13 || b = 61 || b = 62 || b = 60 ||
    b = 34 || b = 38 || b = 39 || b = 47)

/-- Bytes allowed in an attribute name (additionally allows `/`, so that
namespace-qualified names `\x7buri\x7dlocal` survive). -/
def attrNameCharB (b : Nat) : Bool := tagCharB b || b = 47

def parseAttrs : Nat → Bytes → Option (List (Bytes × Bytes) × Bytes)
  | 0, _ => none
  | _ + 1, [] => some ([], [])
  | fuel + 1, b :: rest =>
      if b = 32 then
        let k := rest.takeWhile attrNameCharB
        if k = [] then none else
        match rest.drop k.length with
        | 61 :: 34 :: rest2 =>
            let rawv := rest2.takeWhile (fun x => decide (x ≠ 34))
            match unesc rawv, rest2.drop rawv.length with
            | some v, 34 :: rest3 =>
                (parseAttrs fuel rest3).map (fun p => ((k, v) :: p.1, p.2))
            | _, _ => none
        | _ => none
      else some ([], b :: rest)

mutual
def parseNode : Nat → Bytes → Option (XNode × Bytes)
  | 0, _ => none
  | fuel + 1, s =>
      match s with
      | 60 :: rest =>
          let tag := rest.takeWhile tagCharB
          if tag = [] then none else
          match parseAttrs ((rest.drop tag.length).length + 1) (rest.drop tag.length) with
          | some (attrs, 47 :: 62 :: rest2) => some (.elem tag attrs [] [], rest2)
          | some (attrs, 62 :: rest2) =>
              let raw := rest2.takeWhile (fun x => decide (x ≠ 60))
              match unesc raw with
              | some text =>
                  match parseChildren fuel (rest2.drop raw.length) with
                  | some (cs, 60 :: 47 :: rest3) =>
                      if tag.isPrefixOf rest3 then
                        match rest3.drop tag.length with
                        | 62 :: rest4 => some (.elem tag attrs text cs, rest4)
                        | _ => none
                      else none
                  | _ => none
              | none => none
          | _ => none
      | _ => none
def parseChildren : Nat → Bytes → Option (List XNode × Bytes)
  | 0, _ => none
  | fuel + 1, s =>
      match s with
      | 60 :: b :: rest =>
          if b = 47 then some ([], 60 :: 47 :: rest)
          else
            match parseNode fuel (60 :: b :: rest) with
            | some (n, r) =>
                match parseChildren fuel r with
                | some (cs, r2) => some (n :: cs, r2)
                | none => none
            | none => none
      | _ => none
end

/-- `etree.fromstring` model: parse a complete document. -/
def parseXml (s : Bytes) : Option XNode :=
  match parseNode (s.length + 1) s with
  | some (n, []) => some n
  | _ => none

/- Well-formedness needed for the printer/parser roundtrip: nonempty
tag of tag-safe bytes, nonempty attribute names of name-safe bytes, all
bytes `< 256`, and no comment/PI nodes. -/
mutual
def svalid : XNode → Bool
  | .comment _ => false
  | .elem tag attrs text children =>
      decide (tag ≠ []) && tag.all (fun b => tagCharB b && decide (b < 256)) &&
      attrs.all (fun kv =>
        decide (kv.1 ≠ []) && kv.1.all (fun b => attrNameCharB b && decide (b < 256)) &&
        kv.2.all (fun b => decide (b < 256))) &&
      text.all (fun b => decide (b < 256)) && svalidL children
def svalidL : List XNode → Bool
  | [] => true
  | n :: rest => svalid n && svalidL rest
end

/-! RDF triples (`rdflib.Graph` as an insertion-ordered triple list). -/

inductive Obj where
  | uri (u : Bytes)
  | lit (s : Bytes)
  | litNat (n : Nat)
deriving DecidableEq

abbrev Triple := Bytes × Bytes × Obj

abbrev Graph := List Triple

def iecNS : Bytes := S ("http://iec61850.com/SCL#")

def privNS : Bytes := S ("http://iec61850.com/private#")

def rdfTypeP : Bytes := S ("http://www.w3.org/1999/02/22-rdf-syntax-ns#type")

def iecOrderP : Bytes := iecNS ++ S ("order")

def iecTextContentP : Bytes := iecNS ++ S ("textContent")

def privOrderP : Bytes := privNS ++ S ("order")

def privHasPrivateP : Bytes := privNS ++ S ("hasPrivate")

def privXmlContentP : Bytes := privNS ++ S ("xmlContent")

def privTypeP : Bytes := privNS ++ S ("type")

def privPrivateSectionU : Bytes := privNS ++ S ("PrivateSection")

def iecSCLU : Bytes := iecNS ++ S ("SCL")

/-- Python `str(obj)` of an RDF term (URI string / lexical form). -/
def objStr : Obj → Bytes
  | .uri u => u
  | .lit s => s
  | .litNat n => natRepr n

/-- Python truthiness of an RDF term (`URIRef` is a `str`; a `Literal`
is truthy iff its value is). -/
def truthyO : Obj → Bool
  | .uri u => decide (u ≠ [])
  | .lit s => decide (s ≠ [])
  | .litNat n => decide (n ≠ 0)

/-- `graph.objects(node, p)` in insertion order; a literal subject
matches nothing, as in rdflib. -/
def objectsOf (g : Graph) (node : Obj) (p : Bytes) : List Obj :=
  match node with
  | .uri s => (g.filter (fun t => decide (t.1 = s ∧ t.2.1 = p))).map (fun t => t.2.2)
  | _ => []

/-- `graph.value(node, p)`: first matching object. -/
def valueOf (g : Graph) (node : Obj) (p : Bytes) : Option Obj := (objectsOf g node p).head?

/-- `graph.predicate_objects(node)` in insertion order. -/
def predObjsOf (g : Graph) (node : Obj) : List (Bytes × Obj) :=
  match node with
  | .uri s => (g.filter (fun t => decide (t.1 = s))).map (fun t => t.2)
  | _ => []

/-- `graph.subjects(p, o)` in insertion order. -/
def subjectsOf (g : Graph) (p : Bytes) (o : Obj) : List Bytes :=
  (g.filter (fun t => decide (t.2.1 = p ∧ t.2.2 = o))).map (fun t => t.1)

/-! Encoder: `SCLToRDFConverter` of `scl_converter.py`. -/

/-- Converter state: the global order counter and the output graph. -/
structure EncState where
  counter : Nat
  graph : Graph
deriving DecidableEq

/-- `_get_next_order`. -/
def getNextOrder (st : EncState) : EncState × Nat :=
  (⟨st.counter + 1, st.graph⟩, st.counter + 1)

/-- `_serialize_private_element`: base64 of the serialized subtree. -/
def serializePrivateElement (e : XNode) : Bytes := b64encode (serializeXml e)

/-- `element.attrib.get(k)`. -/
def pyGet (attrs : List (Bytes × Bytes)) (k : Bytes) : Option Bytes :=
  (attrs.find? (fun a => decide (a.1 = k))).map (fun a => a.2)

/-- Python `x or y` on optional strings (empty string is falsy). -/
def pyOrStr : Option Bytes → Option Bytes → Option Bytes
  | some s, b => if s = [] then b else some s
  | none, b => b

/-- `element.get('id') or element.get('name')`. -/
def elemIdOf (attrs : List (Bytes × Bytes)) : Option Bytes :=
  pyOrStr (pyGet attrs (S ("id"))) (pyGet attrs (S ("name")))

/-- Truthiness of an optional string. -/
def truthyS : Option Bytes → Bool
  | none => false
  | some s => decide (s ≠ [])

/-- `_create_element_uri` (consumes one order value). -/
def createElementUri (tag : Bytes) (attrs : List (Bytes × Bytes)) (parentUri : Option Bytes)
    (st : EncState) : EncState × Bytes :=
  let (st1, order) := getNextOrder st
  let elemId := elemIdOf attrs
  if truthyS elemId then
    match parentUri with
    | some p => (st1, p ++ 47 :: (quote (elemId.getD []) ++ 95 :: natRepr order))
    | none => (st1, iecNS ++ tag ++ 47 :: quote (elemId.getD []))
  else
    match parentUri with
    | some p => (st1, p ++ 47 :: (tag ++ 95 :: natRepr order))
    | none => (st1, iecNS ++ tag ++ 95 :: natRepr order)

/-- Predicate used for one attribute (`attr_`-escape for namespaced names). -/
def attrPredOf (k : Bytes) : Bytes :=
  if k.head? = some 123 then iecNS ++ S ("attr_") ++ quote k else iecNS ++ k

inductive EncErr where
  | qnameValueError
deriving DecidableEq

mutual
/-- `_process_element`.  A comment/PI node makes `etree.QName(element.tag)`
on line 83 raise `ValueError` before the line-86 skip check is reached. -/
def processElement : XNode → Option Bytes → EncState → Except EncErr (EncState × Option Bytes)
  | .comment _, _, _ => .error .qnameValueError
  | .elem tag attrs text children, parentUri, st =>
      if tag = S ("Private") then
        let (st1, puri) := createElementUri tag attrs parentUri st
        let (st2, order) := getNextOrder st1
        let g1 := st2.graph ++
          [(puri, rdfTypeP, Obj.uri privPrivateSectionU), (puri, privOrderP, Obj.litNat order)]
        let g2 := g1 ++ (match parentUri with
          | some p => [(p, privHasPrivateP, Obj.uri puri)]
          | none => [])
        let serialized := serializePrivateElement (.elem tag attrs text children)
        let g3 := g2 ++ [(puri, privXmlContentP, Obj.lit serialized)]
        let g4 := g3 ++ (match pyGet attrs (S ("type")) with
          | some t => if t = [] then [] else [(puri, privTypeP, Obj.lit t)]
          | none => [])
        .ok (⟨st2.counter, g4⟩, some puri)
      else
        let (st1, eu) := createElementUri tag attrs parentUri st
        let (st2, order) := getNextOrder st1
        let g1 := st2.graph ++
          [(eu, iecOrderP, Obj.litNat order), (eu, rdfTypeP, Obj.uri (iecNS ++ tag))]
        let g2 := g1 ++ (match parentUri with
          | some p => [(p, iecNS ++ S ("has") ++ tag, Obj.uri eu)]
          | none => [])
        let g3 := g2 ++ attrs.map (fun kv => (eu, attrPredOf kv.1, Obj.lit kv.2))
        let g4 := g3 ++ (if text ≠ [] ∧ pyStrip text ≠ [] then
            [(eu, iecTextContentP, Obj.lit (pyStrip text))] else [])
        do
          let st3 ← processChildren children eu ⟨st2.counter, g4⟩
          .ok (st3, some eu)
def processChildren : List XNode → Bytes → EncState → Except EncErr EncState
  | [], _, st => .ok st
  | c :: cs, pu, st => do
      let r ← processElement c (some pu) st
      processChildren cs pu r.1
end

/-- A parsed document: root element plus the root's namespace map
(`None` key = default namespace). -/
structure SCLDoc where
  root : XNode
  nsmap : List (Option Bytes × Bytes)

/-- Namespace triples written by `SCLToRDFConverter.convert`. -/
def nsTriples (nsmap : List (Option Bytes × Bytes)) : Graph :=
  nsmap.map (fun pu =>
    match pu.1 with
    | none => (iecSCLU, iecNS ++ S ("defaultNamespace"), Obj.lit pu.2)
    | some pfx => (iecSCLU, iecNS ++ S ("namespace_") ++ pfx, Obj.lit pu.2))

/-- `SCLToRDFConverter.convert`: namespace metadata, then the root walk. -/
def sclToRdf (d : SCLDoc) : Except EncErr Graph := do
  let st0 : EncState := ⟨0, nsTriples d.nsmap⟩
  let r ← processElement d.root none st0
  .ok r.1.graph

/-! Decoder: `RDFToSCLConverter` of `scl_converter.py`. -/

inductive DecErr where
  | rootNotFound
  | intParseError
  | b64Error
  | xmlParseError
  | outOfFuel
deriving DecidableEq

/-- `_deserialize_private_element`: base64-decode, then re-parse. -/
def deserializePrivateElement (content : Bytes) : Except DecErr XNode :=
  match b64decode content with
  | none => .error .b64Error
  | some bs =>
      match parseXml bs with
      | none => .error .xmlParseError
      | some el => .ok el

/-- Python `int(...)` on an RDF term. -/
def pyIntObj : Obj → Except DecErr Int
  | .litNat n => .ok (n : Int)
  | o => match pyInt (objStr o) with
         | some i => .ok i
         | none => .error .intParseError

/-- `_get_element_order`: first truthy of `iec:order`, `private:order`, else 0. -/
def getElementOrder (g : Graph) (node : Obj) : Except DecErr Int :=
  match valueOf g node iecOrderP with
  | some v =>
      if truthyO v then pyIntObj v
      else
        match valueOf g node privOrderP with
        | some v2 => if truthyO v2 then pyIntObj v2 else .ok 0
        | none => .ok 0
  | none =>
      match valueOf g node privOrderP with
      | some v2 => if truthyO v2 then pyIntObj v2 else .ok 0
      | none => .ok 0

/-- The decoder's `skip_predicates` set. -/
def skipPreds : List Bytes := [rdfTypeP, iecOrderP, iecTextContentP, privOrderP, privHasPrivateP]

/-- `element.set(k, v)`: overwrite in place or append. -/
def pySetAttr (attrs : List (Bytes × Bytes)) (k v : Bytes) : List (Bytes × Bytes) :=
  if attrs.any (fun a => decide (a.1 = k)) then
    attrs.map (fun a => if a.1 = k then (k, v) else a)
  else attrs ++ [(k, v)]

/-- The attribute-restoration loop of `_build_element`. -/
def collectAttrs (g : Graph) (node : Obj) : List (Bytes × Bytes) :=
  (predObjsOf g node).foldl (fun acc po =>
    if (iecNS ++ S ("has")).isPrefixOf po.1 then acc
    else if po.1 ∈ skipPreds ∨ privNS.isPrefixOf po.1 then acc
    else
      let an := pyReplace po.1 iecNS []
      let an2 := if (S ("attr_")).isPrefixOf an then unquote (an.drop 5) else an
      pySetAttr acc an2 (objStr po.2)) []

/-- The element-text restoration of `_build_element`. -/
def buildText (g : Graph) (node : Obj) : Bytes :=
  match valueOf g node iecTextContentP with
  | some tc => if truthyO tc then objStr tc else []
  | none => []

/-- The regular (non-Private) child predicates of `_build_element`. -/
def hasPairsOf (g : Graph) (node : Obj) : List (Bytes × Obj) :=
  (predObjsOf g node).filter (fun po =>
    (iecNS ++ S ("has")).isPrefixOf po.1 && decide (po.1 ≠ iecNS ++ S ("hasPrivate")))

/-- The child-collection loops of `_build_element`: regular children by
`has*` predicates, then private children, each tagged with its order. -/
def childPairs (g : Graph) (node : Obj) : Except DecErr (List (Int × Obj)) := do
  let rpairs ← (hasPairsOf g node).mapM (fun po => do
    let o ← getElementOrder g po.2
    pure (o, po.2))
  let ppairs ← (objectsOf g node privHasPrivateP).mapM (fun c => do
    let o ← getElementOrder g c
    pure (o, c))
  pure (rpairs ++ ppairs)

/-- `_build_element`, with explicit recursion fuel. -/
def buildElement (g : Graph) : Nat → Obj → Except DecErr (Option XNode)
  | 0, _ => .error .outOfFuel
  | fuel + 1, node =>
      if (Obj.uri privPrivateSectionU) ∈ objectsOf g node rdfTypeP then
        match valueOf g node privXmlContentP with
        | some xc =>
            if truthyO xc then do
              let el ← deserializePrivateElement (objStr xc)
              pure (some el)
            else pure none
        | none => pure none
      else
        match (objectsOf g node rdfTypeP).find? (fun o => iecNS.isPrefixOf (objStr o)) with
        | none => pure none
        | some t =>
            if pyReplace (objStr t) iecNS [] = [] then pure none
            else do
              let pairs ← childPairs g node
              let builtOpt ← (List.insertionSort (fun a b => a.1 ≤ b.1) pairs).mapM
                (fun oc => buildElement g fuel oc.2)
              pure (some (.elem (pyReplace (objStr t) iecNS []) (collectAttrs g node)
                (buildText g node) (builtOpt.filterMap id)))

/-- `RDFToSCLConverter.convert`: find the root by the `iec:SCL` type
marker (first match in graph order) and rebuild; no root is a
`ValueError`.  The fuel bound exceeds the recursion depth of any
terminating run of the Python code on this graph. -/
def rdfToScl (g : Graph) : Except DecErr (Option XNode) :=
  match subjectsOf g rdfTypeP (Obj.uri iecSCLU) with
  | [] => .error .rootNotFound
  | r :: _ => buildElement g (g.length + 1) (Obj.uri r)

/-! Round-trip validation verdict (`process_scl_file`, `scl_files.py`
lines 142-168).  The SHA-256 comparison of the two files is modelled as
byte equality (the hash is the spec §6(c) byte-equality collaborator). -/

inductive Verdict where
  | identicalPass
  | structurePass
  | parseFail
deriving DecidableEq

/-- The verdict the code computes: byte-equal, else "both re-parse",
else failure. -/
def processVerdict (orig validated : Bytes) : Verdict :=
  if orig = validated then .identicalPass
  else if (parseXml orig).isSome && (parseXml validated).isSome then .structurePass
  else .parseFail

/- Canonical form: equality after normalizing insignificant formatting
(whitespace) but not content or order (spec glossary). -/
mutual
def canonXml : XNode → XNode
  | .comment c => .comment c
  | .elem tag attrs text children => .elem tag attrs (pyStrip text) (canonXmlL children)
def canonXmlL : List XNode → List XNode
  | [] => []
  | n :: rest => canonXml n :: canonXmlL rest
end

inductive SpecVerdict where
  | identicalV
  | equivalentV
  | divergedV
deriving DecidableEq

/-- Modelled from the spec (§4.3): *identical* iff byte-exact,
*equivalent* iff the canonical forms agree, *diverged* on a genuine
content/order/attribute difference. -/
def specVerdict (orig validated : Bytes) : SpecVerdict :=
  if orig = validated then .identicalV
  else
    match parseXml orig, parseXml validated with
    | some a, some b => if canonXml a = canonXml b then .equivalentV else .divergedV
    | _, _ => .divergedV

/-- Modelled from the spec (§4.1): the four-case URI construction rule. -/
def specElementUri (parentUri : Option Bytes) (tag : Bytes) (idOrName : Option Bytes)
    (order : Nat) : Bytes :=
  match idOrName, parentUri with
  | some i, some p => p ++ 47 :: (quote i ++ 95 :: natRepr order)
  | some i, none => iecNS ++ tag ++ 47 :: quote i
  | none, some p => p ++ 47 :: (tag ++ 95 :: natRepr order)
  | none, none => iecNS ++ tag ++ 95 :: natRepr order

/-! Roundtrip of the printer/parser pair on well-formed trees. -/

theorem takeWhile_append_all (p : Nat → Bool) (a b : Bytes)
    (ha : ∀ x ∈ a, p x = true)
    (hb : b = [] ∨ ∃ c cs, b = c :: cs ∧ p c = false) :
    (a ++ b).takeWhile p = a := by
  have hta : a.takeWhile p = a := List.takeWhile_eq_self_iff.mpr ha
  rw [List.takeWhile_append, hta, if_pos rfl]
  rcases hb with rfl | ⟨c, cs, rfl, hc⟩
  · simp
  · rw [List.takeWhile_cons_of_neg (by simp [hc])]
    simp

theorem escText_ne_60 : ∀ t : Bytes, ∀ x ∈ escText t, decide (x ≠ 60) = true := by
  intro t
  induction t with
  | nil => simp [escText]
  | cons b rest ih =>
      intro x hx
      rw [escText, List.mem_append] at hx
      rcases hx with h | h
      · by_cases h38 : b = 38
        · rw [if_pos h38, show S ("&amp;") = [38, 97, 109, 112, 59] from rfl] at h
          simp at h ⊢
          omega
        · rw [if_neg h38] at h
          by_cases h60 : b = 60
          · rw [if_pos h60, show S ("&lt;") = [38, 108, 116, 59] from rfl] at h
            simp at h ⊢
            omega
          · rw [if_neg h60] at h
            by_cases h62 : b = 62
            · rw [if_pos h62, show S ("&gt;") = [38, 103, 116, 59] from rfl] at h
              simp at h ⊢
              omega
            · rw [if_neg h62] at h
              simp at h
              subst h
              simpa using h60
      · exact ih x h

theorem escAttr_ne_34 : ∀ t : Bytes, ∀ x ∈ escAttr t, decide (x ≠ 34) = true := by
  intro t
  induction t with
  | nil => simp [escAttr]
  | cons b rest ih =>
      intro x hx
      rw [escAttr, List.mem_append] at hx
      rcases hx with h | h
      · by_cases h38 : b = 38
        · rw [if_pos h38, show S ("&amp;") = [38, 97, 109, 112, 59] from rfl] at h
          simp at h ⊢
          omega
        · rw [if_neg h38] at h
          by_cases h60 : b = 60
          · rw [if_pos h60, show S ("&lt;") = [38, 108, 116, 59] from rfl] at h
            simp at h ⊢
            omega
          · rw [if_neg h60] at h
            by_cases h62 : b = 62
            · rw [if_pos h62, show S ("&gt;") = [38, 103, 116, 59] from rfl] at h
              simp at h ⊢
              omega
            · rw [if_neg h62] at h
              by_cases h34 : b = 34
              · rw [if_pos h34, show S ("&quot;") = [38, 113, 117, 111, 116, 59] from rfl] at h
                simp at h ⊢
                omega
              · rw [if_neg h34] at h
                simp at h
                subst h
                simpa using h34
      · exact ih x h

theorem unesc_cons_ne (b : Nat) (t : Bytes) (hb : b ≠ 38) :
    unesc (b :: t) = (unesc t).map (fun r => b :: r) := by
  rw [unesc.eq_def]
  simp only [if_neg hb]

theorem unesc_escText : ∀ t : Bytes, unesc (escText t) = some t := by
  intro t
  induction t with
  | nil => rfl
  | cons b rest ih =>
      rw [escText]
      by_cases h38 : b = 38
      · subst h38
        show unesc (38 :: (97 :: 109 :: 112 :: 59 :: escText rest)) = _
        rw [unesc, if_pos rfl]
        simp [ih]
      · by_cases h60 : b = 60
        · subst h60
          rw [if_neg (by decide), if_pos rfl]
          show unesc (38 :: (108 :: 116 :: 59 :: escText rest)) = _
          rw [unesc, if_pos rfl]
          simp [ih]
        · by_cases h62 : b = 62
          · subst h62
            rw [if_neg (by decide), if_neg (by decide), if_pos rfl]
            show unesc (38 :: (103 :: 116 :: 59 :: escText rest)) = _
            rw [unesc, if_pos rfl]
            simp [ih]
          · rw [if_neg h38, if_neg h60, if_neg h62, List.singleton_append,
              unesc_cons_ne b _ h38, ih]
            rfl

theorem unesc_escAttr : ∀ t : Bytes, unesc (escAttr t) = some t := by
  intro t
  induction t with
  | nil => rfl
  | cons b rest ih =>
      rw [escAttr]
      by_cases h38 : b = 38
      · subst h38
        show unesc (38 :: (97 :: 109 :: 112 :: 59 :: escAttr rest)) = _
        rw [unesc, if_pos rfl]
        simp [ih]
      · by_cases h60 : b = 60
        · subst h60
          rw [if_neg (by decide), if_pos rfl]
          show unesc (38 :: (108 :: 116 :: 59 :: escAttr rest)) = _
          rw [unesc, if_pos rfl]
          simp [ih]
        · by_cases h62 : b = 62
          · subst h62
            rw [if_neg (by decide), if_neg (by decide), if_pos rfl]
            show unesc (38 :: (103 :: 116 :: 59 :: escAttr rest)) = _
            rw [unesc, if_pos rfl]
            simp [ih]
          · by_cases h34 : b = 34
            · subst h34
              rw [if_neg (by decide), if_neg (by decide), if_neg (by decide), if_pos rfl]
              show unesc (38 :: (113 :: 117 :: 111 :: 116 :: 59 :: escAttr rest)) = _
              rw [unesc, if_pos rfl]
              simp [ih]
            · rw [if_neg h38, if_neg h60, if_neg h62, if_neg h34, List.singleton_append,
                unesc_cons_ne b _ h38, ih]
              rfl

theorem serAttrs_length_ge : ∀ attrs : List (Bytes × Bytes),
    attrs.length ≤ (serAttrs attrs).length
  | [] => Nat.le_refl 0
  | (k, v) :: rest => by
      rw [serAttrs]
      simp only [List.length_append, List.length_cons]
      have := serAttrs_length_ge rest
      omega

/-- Attribute-list well-formedness as `svalid` requires it. -/
def attrsOKb (attrs : List (Bytes × Bytes)) : Bool :=
  attrs.all (fun kv =>
    decide (kv.1 ≠ []) && kv.1.all (fun b => attrNameCharB b && decide (b < 256)) &&
    kv.2.all (fun b => decide (b < 256)))

theorem parseAttrs_serAttrs : ∀ (attrs : List (Bytes × Bytes)) (fuel b : Nat) (r : Bytes),
    attrsOKb attrs = true → attrs.length + 1 ≤ fuel → b ≠ 32 →
    parseAttrs fuel (serAttrs attrs ++ b :: r) = some (attrs, b :: r)
  | [], fuel, b, r, _, hf, hb => by
      match fuel, hf with
      | f + 1, _ =>
        show parseAttrs (f + 1) (b :: r) = _
        simp [parseAttrs, hb]
  | (k, v) :: as, fuel, b, r, h, hf, hb => by
      match fuel, hf with
      | f + 1, hf =>
        simp only [attrsOKb, List.all_cons, Bool.and_eq_true, decide_eq_true_eq] at h
        obtain ⟨⟨⟨hk, hkchars⟩, hvchars⟩, has⟩ := h
        have hkc : ∀ x ∈ k, attrNameCharB x = true := by
          intro x hx
          have := List.all_eq_true.mp hkchars x hx
          simp only [Bool.and_eq_true] at this
          exact this.1
        have hshape : serAttrs ((k, v) :: as) ++ b :: r =
            32 :: (k ++ (61 :: 34 :: (escAttr v ++ (34 :: (serAttrs as ++ b :: r))))) := by
          rw [serAttrs]
          simp [List.append_assoc]
        rw [hshape]
        rw [show parseAttrs (f + 1) (32 :: (k ++ (61 :: 34 :: (escAttr v ++
              (34 :: (serAttrs as ++ b :: r)))))) =
            (parseAttrs f (serAttrs as ++ b :: r)).map (fun p => ((k, v) :: p.1, p.2))
          from ?_]
        · rw [parseAttrs_serAttrs as f b r (by simpa [attrsOKb] using has)
            (by simp at hf; omega) hb]
          rfl
        · have htw : (k ++ (61 :: 34 :: (escAttr v ++ (34 :: (serAttrs as ++
              b :: r))))).takeWhile attrNameCharB = k :=
            takeWhile_append_all _ k _ hkc (Or.inr ⟨61, _, rfl, by decide⟩)
          have hdr : (k ++ (61 :: 34 :: (escAttr v ++ (34 :: (serAttrs as ++
              b :: r))))).drop k.length = 61 :: 34 :: (escAttr v ++ (34 :: (serAttrs as ++
              b :: r))) := List.drop_left k _
          have hraw : (escAttr v ++ (34 :: (serAttrs as ++ b :: r))).takeWhile
              (fun x => decide (x ≠ 34)) = escAttr v :=
            takeWhile_append_all _ (escAttr v) _ (escAttr_ne_34 v)
              (Or.inr ⟨34, _, rfl, by decide⟩)
          have hdrw : (escAttr v ++ (34 :: (serAttrs as ++ b :: r))).drop
              (escAttr v).length = 34 :: (serAttrs as ++ b :: r) :=
            List.drop_left (escAttr v) _
          rw [parseAttrs, if_pos rfl]
          simp only [htw, hdr, if_neg hk, hraw, hdrw, unesc_escAttr]

theorem svalidL_iff : ∀ cs : List XNode, svalidL cs = true ↔ ∀ c ∈ cs, svalid c = true
  | [] => by simp [svalidL]
  | c :: rest => by
      rw [svalidL, Bool.and_eq_true, svalidL_iff rest]
      simp

theorem svalid_elem_parts {tag : Bytes} {attrs : List (Bytes × Bytes)} {text : Bytes}
    {cs : List XNode} (h : svalid (.elem tag attrs text cs) = true) :
    tag ≠ [] ∧ (∀ x ∈ tag, tagCharB x = true) ∧ attrsOKb attrs = true ∧
      svalidL cs = true := by
  simp only [svalid, Bool.and_eq_true, decide_eq_true_eq] at h
  obtain ⟨⟨⟨⟨h1, h2⟩, h3⟩, h4⟩, h5⟩ := h
  refine ⟨h1, ?_, ?_, h5⟩
  · intro x hx
    have := List.all_eq_true.mp h2 x hx
    simp only [Bool.and_eq_true] at this
    exact this.1
  · simpa [attrsOKb] using h3

theorem xsize_pos : ∀ n : XNode, 1 ≤ xsize n
  | .comment _ => le_refl 1
  | .elem _ _ _ cs => by rw [xsize]; omega

theorem serializeXml_shape {n : XNode} (h : svalid n = true) :
    ∃ th t', serializeXml n = 60 :: th :: t' ∧ tagCharB th = true := by
  match n with
  | .comment c => simp [svalid] at h
  | .elem tag attrs text cs =>
      obtain ⟨h1, h2, _, _⟩ := svalid_elem_parts h
      match tag, h1 with
      | th :: tg, _ =>
          refine ⟨th, (tg ++ serAttrs attrs) ++ (if text = [] ∧ cs = [] then S ("/>")
            else (62 :: (escText text ++ serChildren cs)) ++
              (60 :: 47 :: ((th :: tg) ++ [62]))), ?_, h2 th (by simp)⟩
          rw [serializeXml]
          simp [List.cons_append, List.append_assoc]

theorem serChildren_close_shape (cs : List XNode) (z : Bytes)
    (h : svalidL cs = true) :
    ∃ t', serChildren cs ++ (60 :: z) = 60 :: t' := by
  match cs with
  | [] => exact ⟨z, rfl⟩
  | c :: rest =>
      have hc : svalid c = true := ((svalidL_iff (c :: rest)).mp h) c (by simp)
      obtain ⟨th, t', hs, _⟩ := serializeXml_shape hc
      rw [serChildren, hs]
      exact ⟨_, rfl⟩

theorem serAttrs_shape : ∀ attrs : List (Bytes × Bytes),
    serAttrs attrs = [] ∨ ∃ t, serAttrs attrs = 32 :: t
  | [] => Or.inl rfl
  | (k, v) :: as => Or.inr ⟨_, rfl⟩

mutual
theorem parseNode_ser : ∀ (n : XNode) (fuel : Nat) (rest : Bytes),
    svalid n = true → 2 * xsize n ≤ fuel →
    parseNode fuel (serializeXml n ++ rest) = some (n, rest)
  | .comment c, fuel, rest, h, _ => by simp [svalid] at h
  | .elem tag attrs text cs, fuel, rest, h, hfuel => by
      obtain ⟨h1, h2, h3, h4⟩ := svalid_elem_parts h
      have hx : 1 + xsizeL cs = xsize (.elem tag attrs text cs) := (xsize.eq_def _).symm ▸ rfl
      match fuel, (by have := xsize_pos (XNode.elem tag attrs text cs); omega :
          1 ≤ fuel) with
      | f + 1, _ =>
        by_cases hsc : text = [] ∧ cs = []
        · have hser : serializeXml (.elem tag attrs text cs) ++ rest =
              60 :: (tag ++ (serAttrs attrs ++ (47 :: 62 :: rest))) := by
            rw [serializeXml, if_pos hsc]
            simp [List.append_assoc]
            rfl
          rw [hser, parseNode]
          have htw : (tag ++ (serAttrs attrs ++ (47 :: 62 :: rest))).takeWhile tagCharB
              = tag := by
            refine takeWhile_append_all _ tag _ h2 ?_
            rcases serAttrs_shape attrs with hA | ⟨t, hA⟩
            · rw [hA]
              exact Or.inr ⟨47, _, rfl, by decide⟩
            · rw [hA]
              exact Or.inr ⟨32, _, rfl, by decide⟩
          have hdr : (tag ++ (serAttrs attrs ++ (47 :: 62 :: rest))).drop tag.length =
              serAttrs attrs ++ (47 :: 62 :: rest) := List.drop_left tag _
          have hpa : parseAttrs ((serAttrs attrs ++ (47 :: 62 :: rest)).length + 1)
              (serAttrs attrs ++ (47 :: 62 :: rest)) = some (attrs, 47 :: 62 :: rest) := by
            refine parseAttrs_serAttrs attrs _ 47 (62 :: rest) h3 ?_ (by decide)
            have := serAttrs_length_ge attrs
            simp only [List.length_append]
            omega
          simp only [htw, hdr, if_neg h1, hpa]
          rw [hsc.1, hsc.2]
        · have hser : serializeXml (.elem tag attrs text cs) ++ rest =
              60 :: (tag ++ (serAttrs attrs ++ (62 :: (escText text ++ (serChildren cs ++
                (60 :: 47 :: (tag ++ (62 :: rest)))))))) := by
            rw [serializeXml, if_neg hsc]
            simp [List.append_assoc]
          rw [hser, parseNode]
          have htw : (tag ++ (serAttrs attrs ++ (62 :: (escText text ++ (serChildren cs ++
              (60 :: 47 :: (tag ++ (62 :: rest)))))))).takeWhile tagCharB = tag := by
            refine takeWhile_append_all _ tag _ h2 ?_
            rcases serAttrs_shape attrs with hA | ⟨t, hA⟩
            · rw [hA]
              exact Or.inr ⟨62, _, rfl, by decide⟩
            · rw [hA]
              exact Or.inr ⟨32, _, rfl, by decide⟩
          have hdr : (tag ++ (serAttrs attrs ++ (62 :: (escText text ++ (serChildren cs ++
              (60 :: 47 :: (tag ++ (62 :: rest)))))))).drop tag.length =
              serAttrs attrs ++ (62 :: (escText text ++ (serChildren cs ++
                (60 :: 47 :: (tag ++ (62 :: rest)))))) := List.drop_left tag _
          have hpa : parseAttrs ((serAttrs attrs ++ (62 :: (escText text ++
              (serChildren cs ++ (60 :: 47 :: (tag ++ (62 :: rest))))))).length + 1)
              (serAttrs attrs ++ (62 :: (escText text ++ (serChildren cs ++
                (60 :: 47 :: (tag ++ (62 :: rest))))))) =
              some (attrs, 62 :: (escText text ++ (serChildren cs ++
                (60 :: 47 :: (tag ++ (62 :: rest)))))) := by
            refine parseAttrs_serAttrs attrs _ 62 _ h3 ?_ (by decide)
            have := serAttrs_length_ge attrs
            simp only [List.length_append]
            omega
          have hclose : ∃ t', serChildren cs ++ (60 :: 47 :: (tag ++ (62 :: rest))) =
              60 :: t' := serChildren_close_shape cs _ h4
          have hraw : (escText text ++ (serChildren cs ++
              (60 :: 47 :: (tag ++ (62 :: rest))))).takeWhile
              (fun x => decide (x ≠ 60)) = escText text := by
            refine takeWhile_append_all _ (escText text) _ (escText_ne_60 text) ?_
            obtain ⟨t', ht'⟩ := hclose
            rw [ht']
            exact Or.inr ⟨60, _, rfl, by decide⟩
          have hdrw : (escText text ++ (serChildren cs ++
              (60 :: 47 :: (tag ++ (62 :: rest))))).drop (escText text).length =
              serChildren cs ++ (60 :: 47 :: (tag ++ (62 :: rest))) :=
            List.drop_left (escText text) _
          have hpc : parseChildren f (serChildren cs ++ (60 :: 47 :: (tag ++ (62 :: rest))))
              = some (cs, 60 :: 47 :: (tag ++ (62 :: rest))) := by
            refine parseChildren_ser cs f _ h4 ?_ ⟨_, rfl⟩
            rw [← hx] at hfuel
            omega
          have hpre : tag.isPrefixOf (tag ++ (62 :: rest)) = true :=
            List.isPrefixOf_iff_prefix.mpr (List.prefix_append tag _)
          have hdr2 : (tag ++ (62 :: rest)).drop tag.length = 62 :: rest :=
            List.drop_left tag _
          simp only [htw, hdr, if_neg h1, hpa, hraw, hdrw, unesc_escText, hpc,
            if_pos hpre, hdr2]
theorem parseChildren_ser : ∀ (cs : List XNode) (fuel : Nat) (rest : Bytes),
    svalidL cs = true → 2 * xsizeL cs + 1 ≤ fuel →
    (∃ r', rest = 60 :: 47 :: r') →
    parseChildren fuel (serChildren cs ++ rest) = some (cs, rest)
  | [], fuel, rest, _, hfuel, ⟨r', hr⟩ => by
      match fuel, hfuel with
      | f + 1, _ =>
        subst hr
        show parseChildren (f + 1) (60 :: 47 :: r') = _
        simp [parseChildren]
  | c :: cs', fuel, rest, h, hfuel, hr => by
      have hc : svalid c = true := ((svalidL_iff (c :: cs')).mp h) c (by simp)
      have hcs' : svalidL cs' = true :=
        (svalidL_iff cs').mpr (fun x hx => ((svalidL_iff (c :: cs')).mp h) x (by simp [hx]))
      have hxL : xsizeL (c :: cs') = xsize c + xsizeL cs' := rfl
      match fuel, hfuel with
      | f + 1, hfuel =>
        obtain ⟨th, t', hs, hth⟩ := serializeXml_shape hc
        have hshape : serChildren (c :: cs') ++ rest =
            60 :: th :: (t' ++ (serChildren cs' ++ rest)) := by
          rw [serChildren, hs]
          simp [List.append_assoc]
        rw [hshape, parseChildren]
        have hth47 : th ≠ 47 := by
          intro he
          rw [he] at hth
          simp [tagCharB] at hth
        have hpn : parseNode f (60 :: th :: (t' ++ (serChildren cs' ++ rest))) =
            some (c, serChildren cs' ++ rest) := by
          have := parseNode_ser c f (serChildren cs' ++ rest) hc
            (by
              have := xsize_pos c
              rw [hxL] at hfuel
              omega)
          rw [hs] at this
          simpa using this
        have hpc : parseChildren f (serChildren cs' ++ rest) = some (cs', rest) := by
          refine parseChildren_ser cs' f rest hcs' ?_ hr
          have := xsize_pos c
          rw [hxL] at hfuel
          omega
        simp only [if_neg hth47, hpn, hpc]
end

mutual
theorem serializeXml_length_ge : ∀ n : XNode, svalid n = true →
    2 * xsize n + 1 ≤ (serializeXml n).length
  | .comment c, h => by simp [svalid] at h
  | .elem tag attrs text cs, h => by
      obtain ⟨h1, _, _, h4⟩ := svalid_elem_parts h
      have htag : 1 ≤ tag.length := by
        cases tag
        · exact absurd rfl h1
        · simp
      rw [serializeXml, xsize]
      by_cases hsc : text = [] ∧ cs = []
      · rw [if_pos hsc, hsc.2]
        simp only [List.length_cons, List.length_append]
        rw [show xsizeL [] = 0 from rfl]
        have : (S ("/>")).length = 2 := rfl
        omega
      · rw [if_neg hsc]
        have hch := serChildren_length_ge cs h4
        simp only [List.length_cons, List.length_append]
        omega
theorem serChildren_length_ge : ∀ cs : List XNode, svalidL cs = true →
    2 * xsizeL cs ≤ (serChildren cs).length
  | [], _ => by simp [serChildren, xsizeL]
  | c :: rest, h => by
      rw [svalidL, Bool.and_eq_true] at h
      have h1 := serializeXml_length_ge c h.1
      have h2 := serChildren_length_ge rest h.2
      rw [serChildren, xsizeL]
      simp only [List.length_append]
      omega
end

theorem parseXml_serializeXml {n : XNode} (h : svalid n = true) :
    parseXml (serializeXml n) = some n := by
  rw [parseXml]
  have hps := parseNode_ser n ((serializeXml n).length + 1) [] h
    (by have := serializeXml_length_ge n h; omega)
  rw [List.append_nil] at hps
  rw [hps]

/- Comment/PI-free trees (the encoder's intended domain). -/
mutual
def commentFree : XNode → Bool
  | .comment _ => false
  | .elem _ _ _ cs => commentFreeL cs
def commentFreeL : List XNode → Bool
  | [] => true
  | c :: rest => commentFree c && commentFreeL rest
end

theorem escText_lt (t : Bytes) (h : ∀ b ∈ t, b < 256) : ∀ x ∈ escText t, x < 256 := by
  induction t with
  | nil => simp [escText]
  | cons b rest ih =>
      intro x hx
      have hb : b < 256 := h b (by simp)
      have hr : ∀ y ∈ rest, y < 256 := fun y hy => h y (by simp [hy])
      rw [escText, List.mem_append] at hx
      rcases hx with hx | hx
      · by_cases h38 : b = 38
        · rw [if_pos h38, show S ("&amp;") = [38, 97, 109, 112, 59] from rfl] at hx
          simp at hx
          omega
        · rw [if_neg h38] at hx
          by_cases h60 : b = 60
          · rw [if_pos h60, show S ("&lt;") = [38, 108, 116, 59] from rfl] at hx
            simp at hx
            omega
          · rw [if_neg h60] at hx
            by_cases h62 : b = 62
            · rw [if_pos h62, show S ("&gt;") = [38, 103, 116, 59] from rfl] at hx
              simp at hx
              omega
            · rw [if_neg h62] at hx
              simp at hx
              omega
      · exact ih hr x hx

theorem escAttr_lt (t : Bytes) (h : ∀ b ∈ t, b < 256) : ∀ x ∈ escAttr t, x < 256 := by
  induction t with
  | nil => simp [escAttr]
  | cons b rest ih =>
      intro x hx
      have hb : b < 256 := h b (by simp)
      have hr : ∀ y ∈ rest, y < 256 := fun y hy => h y (by simp [hy])
      rw [escAttr, List.mem_append] at hx
      rcases hx with hx | hx
      · by_cases h38 : b = 38
        · rw [if_pos h38, show S ("&amp;") = [38, 97, 109, 112, 59] from rfl] at hx
          simp at hx
          omega
        · rw [if_neg h38] at hx
          by_cases h60 : b = 60
          · rw [if_pos h60, show S ("&lt;") = [38, 108, 116, 59] from rfl] at hx
            simp at hx
            omega
          · rw [if_neg h60] at hx
            by_cases h62 : b = 62
            · rw [if_pos h62, show S ("&gt;") = [38, 103, 116, 59] from rfl] at hx
              simp at hx
              omega
            · rw [if_neg h62] at hx
              by_cases h34 : b = 34
              · rw [if_pos h34, show S ("&quot;") = [38, 113, 117, 111, 116, 59] from rfl] at hx
                simp at hx
                omega
              · rw [if_neg h34] at hx
                simp at hx
                omega
      · exact ih hr x hx

theorem serAttrs_lt (attrs : List (Bytes × Bytes)) (h : attrsOKb attrs = true) :
    ∀ x ∈ serAttrs attrs, x < 256 := by
  induction attrs with
  | nil => simp [serAttrs]
  | cons kv rest ih =>
      obtain ⟨k, v⟩ := kv
      simp only [attrsOKb, List.all_cons, Bool.and_eq_true, decide_eq_true_eq] at h
      obtain ⟨⟨⟨hk, hkchars⟩, hvchars⟩, hrest⟩ := h
      intro x hx
      rw [serAttrs] at hx
      have hsplit : x = 32 ∨ x ∈ k ∨ x = 61 ∨ x = 34 ∨ x ∈ escAttr v ∨
          x ∈ serAttrs rest := by
        simp only [List.cons_append, List.mem_cons, List.mem_append,
          List.mem_singleton, List.not_mem_nil, or_false] at hx
        tauto
      rcases hsplit with rfl | hx2 | rfl | rfl | hx2 | hx2
      · omega
      · have := List.all_eq_true.mp hkchars x hx2
        simp only [Bool.and_eq_true, decide_eq_true_eq] at this
        exact this.2
      · omega
      · omega
      · exact escAttr_lt v (fun b hb => by
          have := List.all_eq_true.mp hvchars b hb
          simpa using this) x hx2
      · exact ih (by simpa [attrsOKb] using hrest) x hx2

theorem svalid_elem_bytes {tag : Bytes} {attrs : List (Bytes × Bytes)} {text : Bytes}
    {cs : List XNode} (h : svalid (.elem tag attrs text cs) = true) :
    (∀ x ∈ tag, x < 256) ∧ (∀ x ∈ text, x < 256) := by
  simp only [svalid, Bool.and_eq_true, decide_eq_true_eq] at h
  obtain ⟨⟨⟨⟨h1, h2⟩, h3⟩, h4⟩, h5⟩ := h
  constructor
  · intro x hx
    have := List.all_eq_true.mp h2 x hx
    simp only [Bool.and_eq_true, decide_eq_true_eq] at this
    exact this.2
  · intro x hx
    have := List.all_eq_true.mp h4 x hx
    simpa using this

mutual
theorem serializeXml_lt : ∀ n : XNode, svalid n = true → ∀ x ∈ serializeXml n, x < 256
  | .comment c, h => by simp [svalid] at h
  | .elem tag attrs text cs, h => by
      obtain ⟨h1, _, h3, h4⟩ := svalid_elem_parts h
      obtain ⟨htag, htext⟩ := svalid_elem_bytes h
      intro x hx
      rw [serializeXml] at hx
      simp only [List.mem_cons, List.mem_append] at hx
      rcases hx with rfl | hx
      · omega
      · rcases hx with hx | hx
        · rcases hx with hx | hx
          · exact htag x hx
          · exact serAttrs_lt attrs h3 x hx
        · by_cases hsc : text = [] ∧ cs = []
          · rw [if_pos hsc, show S ("/>") = [47, 62] from rfl] at hx
            simp at hx
            omega
          · rw [if_neg hsc] at hx
            have hsplit : x = 62 ∨ x ∈ escText text ∨ x ∈ serChildren cs ∨
                x = 60 ∨ x = 47 ∨ x ∈ tag := by
              simp only [List.cons_append, List.mem_cons, List.mem_append,
                List.mem_singleton, List.not_mem_nil, or_false] at hx
              tauto
            rcases hsplit with rfl | hx2 | hx2 | rfl | rfl | hx2
            · omega
            · exact escText_lt text htext x hx2
            · exact serChildren_lt cs h4 x hx2
            · omega
            · omega
            · exact htag x hx2
theorem serChildren_lt : ∀ cs : List XNode, svalidL cs = true →
    ∀ x ∈ serChildren cs, x < 256
  | [], _ => by simp [serChildren]
  | c :: rest, h => by
      rw [svalidL, Bool.and_eq_true] at h
      intro x hx
      rw [serChildren, List.mem_append] at hx
      rcases hx with hx | hx
      · exact serializeXml_lt c h.1 x hx
      · exact serChildren_lt rest h.2 x hx
end

theorem exists_ok_bind {e a b : Type} {x : Except e a} {f : a → Except e b}
    (hx : ∃ v, x = .ok v) (hf : ∀ v, ∃ w, f v = .ok w) : ∃ w, (x >>= f) = .ok w := by
  obtain ⟨v, hv⟩ := hx
  obtain ⟨w, hw⟩ := hf v
  refine ⟨w, ?_⟩
  rw [hv]
  simpa [Except.bind] using hw

/- The encoder is total on comment-free trees. -/
mutual
theorem processElement_total : ∀ (n : XNode) (pu : Option Bytes) (st : EncState),
    commentFree n = true → ∃ r, processElement n pu st = .ok r
  | .comment _, _, _, h => by simp [commentFree] at h
  | .elem tag attrs text cs, pu, st, h => by
      rw [processElement]
      by_cases hp : tag = S ("Private")
      · rw [if_pos hp]
        exact ⟨_, rfl⟩
      · rw [if_neg hp]
        rw [commentFree] at h
        rcases hcu : createElementUri tag attrs pu st with ⟨st1, eu⟩
        simp only [hcu, getNextOrder]
        exact exists_ok_bind (processChildren_total cs eu _ h) (fun a => ⟨_, rfl⟩)
theorem processChildren_total : ∀ (cs : List XNode) (pu : Bytes) (st : EncState),
    commentFreeL cs = true → ∃ st2, processChildren cs pu st = .ok st2
  | [], _, st, _ => ⟨st, rfl⟩
  | c :: rest, pu, st, h => by
      rw [commentFreeL, Bool.and_eq_true] at h
      obtain ⟨r, hr⟩ := processElement_total c (some pu) st h.1
      obtain ⟨st2, h2⟩ := processChildren_total rest pu r.1 h.2
      rw [processChildren, hr]
      exact ⟨st2, h2⟩
end

/- Error classification for the decoder (used to show the root-not-found
error can only come from the root lookup). -/

theorem except_bind_error {e a b : Type} {x : Except e a} {f : a → Except e b} {err : e}
    (h : (x >>= f) = .error err) : x = .error err ∨ ∃ v, x = .ok v ∧ f v = .error err := by
  cases x with
  | error e2 =>
      left
      have h2 : (Except.error e2 : Except e b) = .error err := h
      injection h2 with h3
      rw [h3]
  | ok v =>
      right
      exact ⟨v, rfl, h⟩

theorem pyIntObj_error {o : Obj} {err : DecErr} (h : pyIntObj o = .error err) :
    err = .intParseError := by
  cases o with
  | litNat n => simp [pyIntObj] at h
  | lit s =>
      have hred : pyIntObj (Obj.lit s) = (match pyInt (objStr (Obj.lit s)) with
        | some i => .ok i
        | none => .error .intParseError) := rfl
      rw [hred] at h
      rcases hp : pyInt (objStr (Obj.lit s)) with _ | i <;> rw [hp] at h
      · injection h with h2
        exact h2.symm
      · cases h
  | uri u =>
      have hred : pyIntObj (Obj.uri u) = (match pyInt (objStr (Obj.uri u)) with
        | some i => .ok i
        | none => .error .intParseError) := rfl
      rw [hred] at h
      rcases hp : pyInt (objStr (Obj.uri u)) with _ | i <;> rw [hp] at h
      · injection h with h2
        exact h2.symm
      · cases h

theorem getElementOrder_error {g : Graph} {node : Obj} {err : DecErr}
    (h : getElementOrder g node = .error err) : err = .intParseError := by
  rw [getElementOrder] at h
  split at h
  · split at h
    · exact pyIntObj_error h
    · split at h
      · split at h
        · exact pyIntObj_error h
        · cases h
      · cases h
  · split at h
    · split at h
      · exact pyIntObj_error h
      · cases h
    · cases h

theorem deserializePrivateElement_error {c : Bytes} {err : DecErr}
    (h : deserializePrivateElement c = .error err) :
    err = .b64Error ∨ err = .xmlParseError := by
  rw [deserializePrivateElement] at h
  split at h
  · injection h with h2
    exact Or.inl h2.symm
  · split at h
    · injection h with h2
      exact Or.inr h2.symm
    · cases h

theorem mapM_error {a b : Type} (f : a → Except DecErr b) :
    ∀ (l : List a) {err : DecErr}, l.mapM f = .error err → ∃ x ∈ l, f x = .error err
  | [], err, h => by simp [List.mapM_nil] at h; cases h
  | x :: xs, err, h => by
      rw [List.mapM_cons] at h
      rcases except_bind_error h with h1 | ⟨v, hv, h2⟩
      · exact ⟨x, by simp, h1⟩
      · rcases except_bind_error h2 with h3 | ⟨w, hw, h4⟩
        · obtain ⟨y, hy, hfy⟩ := mapM_error f xs h3
          exact ⟨y, by simp [hy], hfy⟩
        · cases h4

theorem childPairs_ne_root {g : Graph} {node : Obj} {err : DecErr}
    (h : childPairs g node = .error err) : err ≠ .rootNotFound := by
  rw [childPairs] at h
  rcases except_bind_error h with h1 | ⟨rpairs, hr, h2⟩
  · obtain ⟨x, hx, hfx⟩ := mapM_error _ _ h1
    rcases except_bind_error hfx with h3 | ⟨v, hv, h4⟩
    · rw [getElementOrder_error h3]
      decide
    · cases h4
  · rcases except_bind_error h2 with h3 | ⟨ppairs, hp, h4⟩
    · obtain ⟨x, hx, hfx⟩ := mapM_error _ _ h3
      rcases except_bind_error hfx with h5 | ⟨v, hv, h6⟩
      · rw [getElementOrder_error h5]
        decide
      · cases h6
    · cases h4

theorem buildElement_ne_root (g : Graph) : ∀ (fuel : Nat) (node : Obj) {err : DecErr},
    buildElement g fuel node = .error err → err ≠ .rootNotFound
  | 0, node, err, h => by
      rw [buildElement] at h
      injection h with h2
      rw [← h2]
      decide
  | fuel + 1, node, err, h => by
      rw [buildElement] at h
      split at h
      · split at h
        · split at h
          · rcases except_bind_error h with h1 | ⟨v, hv, h2⟩
            · rcases deserializePrivateElement_error h1 with rfl | rfl <;> decide
            · cases h2
          · cases h
        · cases h
      · split at h
        · cases h
        · split at h
          · cases h
          · rcases except_bind_error h with h1 | ⟨pairs, hpr, h2⟩
            · exact childPairs_ne_root h1
            · rcases except_bind_error h2 with h3 | ⟨built, hb, h4⟩
              · obtain ⟨x, hx, hfx⟩ := mapM_error _ _ h3
                exact buildElement_ne_root g fuel x.2 hfx
              · cases h4

/-- C5 counterexample: a triple set holding two distinct document-root-typed
entities decodes without error — the decoder silently picks the first one
instead of failing. -/
theorem claim5_two_roots_counterexample :
    rdfToScl [(S ("u1"), rdfTypeP, Obj.uri iecSCLU),
        (S ("u2"), rdfTypeP, Obj.uri iecSCLU)] =
      .ok (some (.elem (S ("SCL")) [] [] [])) ∧
    S ("u1") ≠ S ("u2") := by
  constructor
  · rfl
  · decide

/-- C5 amended: decoding fails with the root-not-found error exactly when
the triple set holds no document-root-typed entity; when one or more
exist, the decoder proceeds with the first in graph order rather than
failing. -/
theorem claim5_root_error_iff (g : Graph) :
    (rdfToScl g = .error .rootNotFound ↔ ∀ s, (s, rdfTypeP, Obj.uri iecSCLU) ∉ g) ∧
    (∀ r rs, subjectsOf g rdfTypeP (Obj.uri iecSCLU) = r :: rs →
      rdfToScl g = buildElement g (g.length + 1) (Obj.uri r)) := by
  constructor
  · constructor
    · intro h s hs
      rw [rdfToScl] at h
      split at h
      · rename_i hsub
        have hmem : s ∈ subjectsOf g rdfTypeP (Obj.uri iecSCLU) := by
          rw [subjectsOf]
          simp only [List.mem_map, List.mem_filter]
          exact ⟨(s, rdfTypeP, Obj.uri iecSCLU), ⟨hs, by simp⟩, rfl⟩
        rw [hsub] at hmem
        simp at hmem
      · exact absurd rfl (buildElement_ne_root g _ _ h)
    · intro hno
      rw [rdfToScl]
      have hsub : subjectsOf g rdfTypeP (Obj.uri iecSCLU) = [] := by
        rw [subjectsOf]
        rw [List.map_eq_nil_iff, List.filter_eq_nil_iff]
        intro t ht
        simp only [decide_eq_true_eq, not_and]
        intro hp ho
        have : (t.1, rdfTypeP, Obj.uri iecSCLU) ∈ g := by
          have ht2 : t = (t.1, rdfTypeP, Obj.uri iecSCLU) := by
            obtain ⟨s1, p1, o1⟩ := t
            simp only at hp ho
            rw [hp, ho]
          rw [← ht2]
          exact ht
        exact hno t.1 this
      rw [hsub]
  · intro r rs hsub
    rw [rdfToScl, hsub]

/-- C3: the encoder builds each element URI by exactly the spec's
four-case rule — parent and id/name give parent/quoted-id_order; id/name
alone gives namespace + tag/quoted-id; parent alone gives
parent/tag_order; neither gives namespace + tag_order.  "Has an id/name
attribute" is the source's Python-truthiness test, which coincides with
attribute presence whenever present id/name values are nonempty, as
hypothesised. -/
theorem claim3_uri_four_case_rule (tag : Bytes) (attrs : List (Bytes × Bytes))
    (parentUri : Option Bytes) (st : EncState)
    (hid : pyGet attrs (S ("id")) ≠ some [])
    (hname : pyGet attrs (S ("name")) ≠ some []) :
    createElementUri tag attrs parentUri st =
      (⟨st.counter + 1, st.graph⟩,
        specElementUri parentUri tag
          ((pyGet attrs (S ("id"))).orElse (fun u => pyGet attrs (S ("name"))))
          (st.counter + 1)) := by
  rw [createElementUri, getNextOrder]
  rcases hI : pyGet attrs (S ("id")) with _ | s
  · rcases hN : pyGet attrs (S ("name")) with _ | t
    · simp only [elemIdOf, hI, hN, pyOrStr, truthyS, Option.orElse]
      cases parentUri <;> simp [specElementUri]
    · have ht : t ≠ [] := by
        intro he
        rw [he] at hN
        exact hname hN
      simp only [elemIdOf, hI, hN, pyOrStr, truthyS, Option.orElse]
      rw [if_pos (by simpa using ht)]
      cases parentUri <;> simp [specElementUri]
  · have hs : s ≠ [] := by
      intro he
      rw [he] at hI
      exact hid hI
    simp only [elemIdOf, hI, pyOrStr, truthyS, Option.orElse]
    rw [if_neg hs, if_pos (by simpa using hs)]
    cases parentUri <;> simp [specElementUri]

/-- C3 witness: the rule evaluated at a concrete element that has a
name attribute and a parent. -/
theorem claim3_uri_four_case_rule_witness :
    (pyGet [(S ("name"), S ("x"))] (S ("id")) ≠ some [] ∧
      pyGet [(S ("name"), S ("x"))] (S ("name")) ≠ some []) ∧
    createElementUri (S ("A")) [(S ("name"), S ("x"))] (some (S ("http://p"))) ⟨4, []⟩ =
      (⟨5, []⟩,
        specElementUri (some (S ("http://p"))) (S ("A"))
          ((pyGet [(S ("name"), S ("x"))] (S ("id"))).orElse
            (fun u => pyGet [(S ("name"), S ("x"))] (S ("name")))) 5) :=
  ⟨⟨by decide, by decide⟩,
    claim3_uri_four_case_rule (S ("A")) [(S ("name"), S ("x"))]
      (some (S ("http://p"))) ⟨4, []⟩ (by decide) (by decide)⟩

/-- C8 counterexample: two different documents that both re-parse — the
code reports a passing round-trip verdict where the spec's three-way rule
requires *diverged* (the canonical forms differ). -/
theorem claim8_verdict_counterexample :
    processVerdict (S ("<A/>")) (S ("<B/>")) = .structurePass ∧
    specVerdict (S ("<A/>")) (S ("<B/>")) = .divergedV ∧
    S ("<A/>") ≠ S ("<B/>") := by
  refine ⟨by rfl, by rfl, by decide⟩

/-- C8 amended: the validator reports *identical* iff the files are
byte-equal; otherwise it reports a passing verdict iff both files merely
re-parse as XML — no canonical-form comparison happens — and a failing
verdict iff one of them does not parse. -/
theorem claim8_verdict_rule (orig validated : Bytes) :
    (processVerdict orig validated = .identicalPass ↔ orig = validated) ∧
    (processVerdict orig validated = .structurePass ↔
      orig ≠ validated ∧ ((parseXml orig).isSome ∧ (parseXml validated).isSome)) ∧
    (processVerdict orig validated = .parseFail ↔
      orig ≠ validated ∧ ¬((parseXml orig).isSome ∧ (parseXml validated).isSome)) := by
  unfold processVerdict
  split_ifs with h1 h2 <;>
    simp_all [Bool.and_eq_true]

/-- C9: a child entity carrying no type triple in the element namespace
and not marked as an opaque block is silently dropped: building it
returns nothing with no error, and the parent's child-assembly step
contributes no element for it. -/
theorem claim9_unknown_child_dropped (g : Graph) (fuel : Nat) (node : Obj)
    (hpriv : (Obj.uri privPrivateSectionU) ∉ objectsOf g node rdfTypeP)
    (htype : ∀ o ∈ objectsOf g node rdfTypeP, ¬ iecNS.isPrefixOf (objStr o) = true) :
    buildElement g (fuel + 1) node = .ok none ∧
    ∀ k : Int, (([(k, node)].mapM (fun oc => buildElement g (fuel + 1) oc.2)).map
      (fun l => l.filterMap id)) = .ok ([] : List XNode) := by
  have hmain : buildElement g (fuel + 1) node = .ok none := by
    rw [buildElement]
    rw [if_neg hpriv]
    have hfind : (objectsOf g node rdfTypeP).find?
        (fun o => iecNS.isPrefixOf (objStr o)) = none := by
      rw [List.find?_eq_none]
      intro o ho
      simpa using htype o ho
    rw [hfind]
    rfl
  refine ⟨hmain, fun k => ?_⟩
  have hsingle : ([((k : Int), node)].mapM (fun oc => buildElement g (fuel + 1) oc.2)) =
      .ok [none] := by
    rw [List.mapM_cons, hmain]
    rfl
  rw [hsingle]
  rfl

/-- C9 witness: a dangling child reference whose target has only a type
triple outside the element namespace. -/
theorem claim9_unknown_child_dropped_witness :
    buildElement [(S ("c"), rdfTypeP, Obj.lit (S ("junk")))] 1 (Obj.uri (S ("c"))) =
      .ok none :=
  (claim9_unknown_child_dropped [(S ("c"), rdfTypeP, Obj.lit (S ("junk")))] 0
    (Obj.uri (S ("c"))) (by decide) (by decide)).1

/-- C7: the encoder is not total over parsed trees containing comment or
processing-instruction nodes: on such a child, `etree.QName(element.tag)`
at line 83 raises `ValueError` before the line-86 skip check runs, so the
concrete document below fails to encode; on comment-free trees the
encoder always succeeds, confirming that totality was the intent. -/
theorem claim7_comment_crash :
    sclToRdf ⟨.elem (S ("SCL")) [] [] [.comment (S (" note "))], []⟩ =
      .error .qnameValueError ∧
    ∀ d : SCLDoc, commentFree d.root = true → ∃ g, sclToRdf d = .ok g := by
  constructor
  · rfl
  · intro d h
    rw [sclToRdf]
    exact exists_ok_bind (processElement_total d.root none _ h) (fun a => ⟨_, rfl⟩)

/-- C7 witness: a comment-free document encodes successfully. -/
theorem claim7_comment_crash_witness :
    ∃ g, sclToRdf ⟨.elem (S ("SCL")) [] [] [.elem (S ("A")) [] [] []], []⟩ = .ok g :=
  claim7_comment_crash.2 ⟨.elem (S ("SCL")) [] [] [.elem (S ("A")) [] [] []], []⟩
    (by decide)

theorem createElementUri_fst (tag : Bytes) (attrs : List (Bytes × Bytes))
    (pu : Option Bytes) (st : EncState) :
    (createElementUri tag attrs pu st).1 = ⟨st.counter + 1, st.graph⟩ := by
  by_cases h : truthyS (elemIdOf attrs) = true
  · cases pu <;> simp [createElementUri, getNextOrder, h]
  · cases pu <;> simp [createElementUri, getNextOrder, h]

/-- C6: a Private element is never recursed into: encoding it extends the
graph by exactly the leaf triples (opaque type marker, order value,
parent back-link, base64 payload, and the declared type attribute when
present and nonempty) — no triple for any descendant — and the payload
round-trips byte-identically: base64-decoding it returns exactly the
serialized bytes of the subtree, and deserializing reproduces the
subtree. -/
theorem claim6_private_leaf (attrs : List (Bytes × Bytes)) (text : Bytes)
    (children : List XNode) (p : Bytes) (st : EncState)
    (hs : svalid (.elem (S ("Private")) attrs text children) = true) :
    processElement (.elem (S ("Private")) attrs text children) (some p) st =
      .ok (⟨st.counter + 2, st.graph ++
        ([((createElementUri (S ("Private")) attrs (some p) st).2, rdfTypeP,
            Obj.uri privPrivateSectionU),
          ((createElementUri (S ("Private")) attrs (some p) st).2, privOrderP,
            Obj.litNat (st.counter + 2)),
          (p, privHasPrivateP,
            Obj.uri (createElementUri (S ("Private")) attrs (some p) st).2),
          ((createElementUri (S ("Private")) attrs (some p) st).2, privXmlContentP,
            Obj.lit (serializePrivateElement (.elem (S ("Private")) attrs text children)))] ++
          (match pyGet attrs (S ("type")) with
           | some t => if t = [] then [] else
               [((createElementUri (S ("Private")) attrs (some p) st).2, privTypeP,
                 Obj.lit t)]
           | none => []))⟩,
        some (createElementUri (S ("Private")) attrs (some p) st).2) ∧
    b64decode (serializePrivateElement (.elem (S ("Private")) attrs text children)) =
      some (serializeXml (.elem (S ("Private")) attrs text children)) ∧
    deserializePrivateElement
        (serializePrivateElement (.elem (S ("Private")) attrs text children)) =
      .ok (.elem (S ("Private")) attrs text children) := by
  have hb64 : b64decode (serializePrivateElement (.elem (S ("Private")) attrs text children))
      = some (serializeXml (.elem (S ("Private")) attrs text children)) := by
    rw [serializePrivateElement]
    exact b64decode_b64encode _ (serializeXml_lt _ hs)
  refine ⟨?_, hb64, ?_⟩
  · rw [processElement, if_pos rfl]
    rcases hcu : createElementUri (S ("Private")) attrs (some p) st with ⟨st1, puri⟩
    have hc1 : st1 = ⟨st.counter + 1, st.graph⟩ := by
      rw [← createElementUri_fst (S ("Private")) attrs (some p) st, hcu]
    simp only [hcu, getNextOrder, hc1]
    simp [List.append_assoc]
  · rw [deserializePrivateElement, hb64]
    simp only [parseXml_serializeXml hs]

/-- C6 witness: a concrete Private element with a vendor subtree. -/
theorem claim6_private_leaf_witness :
    svalid (.elem (S ("Private")) [(S ("type"), S ("vendor-x"))] []
      [.elem (S ("custom:blob")) [(S ("attr"), S ("1"))] [] []]) = true ∧
    deserializePrivateElement
        (serializePrivateElement (.elem (S ("Private")) [(S ("type"), S ("vendor-x"))] []
          [.elem (S ("custom:blob")) [(S ("attr"), S ("1"))] [] []])) =
      .ok (.elem (S ("Private")) [(S ("type"), S ("vendor-x"))] []
        [.elem (S ("custom:blob")) [(S ("attr"), S ("1"))] [] []]) :=
  ⟨by decide,
    (claim6_private_leaf [(S ("type"), S ("vendor-x"))] []
      [.elem (S ("custom:blob")) [(S ("attr"), S ("1"))] [] []]
      (S ("parent")) ⟨0, []⟩ (by decide)).2.2⟩

/-! Shadow description of the encoder output: counter weight, node URI,
emitted triples.  All are tied to `processElement` by the bridge theorem
`processElement_emit` and used to reason about the decoder. -/

/- Counter consumption of one `_process_element` call. -/
mutual
def w : XNode → Nat
  | .comment _ => 0
  | .elem tag _ _ cs => if tag = S ("Private") then 2 else 2 + wL cs
def wL : List XNode → Nat
  | [] => 0
  | c :: cs => w c + wL cs
end

/-- The URI assigned to a node processed at counter value `c`. -/
def nodeUri (n : XNode) (pu : Option Bytes) (c : Nat) : Bytes :=
  match n with
  | .comment _ => []
  | .elem tag attrs _ _ => (createElementUri tag attrs pu ⟨c, []⟩).2

/- The triples one `_process_element` call appends, in insertion order. -/
mutual
def emit : XNode → Option Bytes → Nat → List Triple
  | .comment _, _, _ => []
  | .elem tag attrs text cs, pu, c =>
      if tag = S ("Private") then
        [(nodeUri (.elem tag attrs text cs) pu c, rdfTypeP, Obj.uri privPrivateSectionU),
         (nodeUri (.elem tag attrs text cs) pu c, privOrderP, Obj.litNat (c + 2))] ++
        (match pu with
          | some p => [(p, privHasPrivateP, Obj.uri (nodeUri (.elem tag attrs text cs) pu c))]
          | none => []) ++
        [(nodeUri (.elem tag attrs text cs) pu c, privXmlContentP,
          Obj.lit (serializePrivateElement (.elem tag attrs text cs)))] ++
        (match pyGet attrs (S ("type")) with
          | some t => if t = [] then [] else
              [(nodeUri (.elem tag attrs text cs) pu c, privTypeP, Obj.lit t)]
          | none => [])
      else
        [(nodeUri (.elem tag attrs text cs) pu c, iecOrderP, Obj.litNat (c + 2)),
         (nodeUri (.elem tag attrs text cs) pu c, rdfTypeP, Obj.uri (iecNS ++ tag))] ++
        (match pu with
          | some p => [(p, iecNS ++ S ("has") ++ tag,
              Obj.uri (nodeUri (.elem tag attrs text cs) pu c))]
          | none => []) ++
        attrs.map (fun kv =>
          (nodeUri (.elem tag attrs text cs) pu c, attrPredOf kv.1, Obj.lit kv.2)) ++
        (if text ≠ [] ∧ pyStrip text ≠ [] then
          [(nodeUri (.elem tag attrs text cs) pu c, iecTextContentP,
            Obj.lit (pyStrip text))] else []) ++
        emitL cs (nodeUri (.elem tag attrs text cs) pu c) (c + 2)
def emitL : List XNode → Bytes → Nat → List Triple
  | [], _, _ => []
  | n :: cs, pu, c => emit n (some pu) c ++ emitL cs pu (c + w n)
end

theorem createElementUri_snd (tag : Bytes) (attrs : List (Bytes × Bytes))
    (pu : Option Bytes) (st : EncState) :
    (createElementUri tag attrs pu st).2 =
      nodeUri (.elem tag attrs [] []) pu st.counter := by
  rw [nodeUri]
  by_cases h : truthyS (elemIdOf attrs) = true
  · cases pu <;> simp [createElementUri, getNextOrder, h]
  · cases pu <;> simp [createElementUri, getNextOrder, h]

theorem nodeUri_tag_irrel (tag : Bytes) (attrs : List (Bytes × Bytes))
    (text1 text2 : Bytes) (cs1 cs2 : List XNode) (pu : Option Bytes) (c : Nat) :
    nodeUri (.elem tag attrs text1 cs1) pu c = nodeUri (.elem tag attrs text2 cs2) pu c := rfl

/- The bridge: the real encoder equals the shadow description on
comment-free trees. -/
mutual
theorem processElement_emit : ∀ (n : XNode) (pu : Option Bytes) (st : EncState),
    commentFree n = true →
    processElement n pu st =
      .ok (⟨st.counter + w n, st.graph ++ emit n pu st.counter⟩, some (nodeUri n pu st.counter))
  | .comment _, _, _, h => by simp [commentFree] at h
  | .elem tag attrs text cs, pu, st, h => by
      rw [processElement]
      by_cases hp : tag = S ("Private")
      · rw [if_pos hp]
        rcases hcu : createElementUri tag attrs pu st with ⟨st1, puri⟩
        have hc1 : st1 = ⟨st.counter + 1, st.graph⟩ := by
          rw [← createElementUri_fst tag attrs pu st, hcu]
        have hpuri : puri = nodeUri (.elem tag attrs text cs) pu st.counter := by
          have := createElementUri_snd tag attrs pu st
          rw [hcu] at this
          exact this
        simp only [hcu, getNextOrder, hc1]
        rw [emit.eq_def, w.eq_def]
        simp only [if_pos hp]
        rw [hpuri]
        simp [List.append_assoc]
      · rw [if_neg hp]
        rw [commentFree] at h
        rcases hcu : createElementUri tag attrs pu st with ⟨st1, eu⟩
        have hc1 : st1 = ⟨st.counter + 1, st.graph⟩ := by
          rw [← createElementUri_fst tag attrs pu st, hcu]
        have heu : eu = nodeUri (.elem tag attrs text cs) pu st.counter := by
          have := createElementUri_snd tag attrs pu st
          rw [hcu] at this
          exact this
        simp only [hcu, getNextOrder, hc1]
        rw [processChildren_emit cs eu _ h]
        rw [emit.eq_def, w.eq_def]
        simp only [if_neg hp]
        rw [heu]
        simp only [List.append_assoc, List.cons_append, List.nil_append]
        have h3 : st.counter + 1 + 1 + wL cs = st.counter + (2 + wL cs) := by omega
        have h2 : st.counter + 1 + 1 = st.counter + 2 := by omega
        rw [h3, h2]
        rfl
theorem processChildren_emit : ∀ (cs : List XNode) (pu : Bytes) (st : EncState),
    commentFreeL cs = true →
    processChildren cs pu st = .ok ⟨st.counter + wL cs, st.graph ++ emitL cs pu st.counter⟩
  | [], pu, st, _ => by
      rw [processChildren, wL.eq_def, emitL.eq_def]
      simp
  | c :: cs, pu, st, h => by
      rw [commentFreeL, Bool.and_eq_true] at h
      rw [processChildren, processElement_emit c (some pu) st h.1]
      show processChildren cs pu _ = _
      rw [processChildren_emit cs pu _ h.2]
      have hw : wL (c :: cs) = w c + wL cs := rfl
      have he : emitL (c :: cs) pu st.counter =
          emit c (some pu) st.counter ++ emitL cs pu (st.counter + w c) := rfl
      rw [hw, he]
      simp [List.append_assoc]
      omega
end

/-! URI distinctness: every non-root URI ends in `_<order>` with a fresh
order value, so subtree URI lists have no duplicates. -/

/- The URIs assigned inside one subtree, in pre-order. -/
mutual
def subUris : XNode → Option Bytes → Nat → List Bytes
  | .comment _, _, _ => []
  | .elem tag attrs text cs, pu, c =>
      nodeUri (.elem tag attrs text cs) pu c ::
        (if tag = S ("Private") then []
         else subUrisL cs (nodeUri (.elem tag attrs text cs) pu c) (c + 2))
def subUrisL : List XNode → Bytes → Nat → List Bytes
  | [], _, _ => []
  | n :: cs, u, c => subUris n (some u) c ++ subUrisL cs u (c + w n)
end

/-- The trailing decimal-digit run of a URI, parsed as a number. -/
def stampOf (u : Bytes) : Option Nat :=
  parseDigits ((u.reverse.takeWhile isDigitB).reverse)

/- Nesting depth (Private subtrees count as leaves, as for the decoder). -/
mutual
def depth : XNode → Nat
  | .comment _ => 0
  | .elem tag _ _ cs => if tag = S ("Private") then 1 else 1 + depthL cs
def depthL : List XNode → Nat
  | [] => 0
  | n :: cs => max (depth n) (depthL cs)
end

/-- All triples of `g` whose subject is `s`, in graph order. -/
def subjView (g : Graph) (s : Bytes) : List Triple :=
  g.filter (fun t => decide (t.1 = s))

theorem two_le_w (tag : Bytes) (attrs : List (Bytes × Bytes)) (text : Bytes)
    (cs : List XNode) : 2 ≤ w (.elem tag attrs text cs) := by
  have h : w (.elem tag attrs text cs) = if tag = S ("Private") then 2 else 2 + wL cs := rfl
  rw [h]
  split <;> omega

theorem w_elem_not_private (tag : Bytes) (attrs : List (Bytes × Bytes)) (text : Bytes)
    (cs : List XNode) (hp : tag ≠ S ("Private")) :
    w (.elem tag attrs text cs) = 2 + wL cs := by
  have h : w (.elem tag attrs text cs) = if tag = S ("Private") then 2 else 2 + wL cs := rfl
  rw [h, if_neg hp]

theorem wL_cons (n : XNode) (cs : List XNode) : wL (n :: cs) = w n + wL cs := rfl

theorem stamp_mk (pfx : Bytes) (k : Nat) : stampOf (pfx ++ 95 :: natRepr k) = some k := by
  rw [stampOf]
  have h1 : (pfx ++ 95 :: natRepr k).reverse = (natRepr k).reverse ++ 95 :: pfx.reverse := by
    simp
  rw [h1, takeWhile_append_all isDigitB _ _ ?digits ?stop]
  · rw [List.reverse_reverse]; exact parseDigits_natRepr k
  case digits =>
    intro x hx
    have := natRepr_digits k x (List.mem_reverse.mp hx)
    simp [isDigitB]; omega
  case stop => exact Or.inr ⟨95, pfx.reverse, rfl, by decide⟩

theorem nodeUri_stamp (tag : Bytes) (attrs : List (Bytes × Bytes)) (text : Bytes)
    (cs : List XNode) (p : Bytes) (c : Nat) :
    stampOf (nodeUri (.elem tag attrs text cs) (some p) c) = some (c + 1) := by
  rw [nodeUri]
  by_cases h : truthyS (elemIdOf attrs) = true
  · simp only [createElementUri, getNextOrder, if_pos h]
    have e : p ++ 47 :: (quote ((elemIdOf attrs).getD []) ++ 95 :: natRepr (c + 1)) =
        (p ++ 47 :: quote ((elemIdOf attrs).getD [])) ++ 95 :: natRepr (c + 1) := by simp
    rw [e]
    exact stamp_mk _ _
  · simp only [createElementUri, getNextOrder, if_neg h]
    have e : p ++ 47 :: (tag ++ 95 :: natRepr (c + 1)) =
        (p ++ 47 :: tag) ++ 95 :: natRepr (c + 1) := by simp
    rw [e]
    exact stamp_mk _ _

theorem nodeUri_length (tag : Bytes) (attrs : List (Bytes × Bytes)) (text : Bytes)
    (cs : List XNode) (p : Bytes) (c : Nat) :
    p.length + 2 ≤ (nodeUri (.elem tag attrs text cs) (some p) c).length := by
  rw [nodeUri]
  by_cases h : truthyS (elemIdOf attrs) = true
  · simp only [createElementUri, getNextOrder, if_pos h]
    simp
    omega
  · simp only [createElementUri, getNextOrder, if_neg h]
    simp
    omega

mutual
theorem subUris_length : ∀ (n : XNode) (p : Bytes) (c : Nat),
    ∀ u ∈ subUris n (some p) c, p.length + 2 ≤ u.length
  | .comment _, p, c, u, h => by simp [subUris] at h
  | .elem tag attrs text cs, p, c, u, h => by
      rw [subUris] at h
      rcases List.mem_cons.mp h with rfl | h2
      · exact nodeUri_length tag attrs text cs p c
      · by_cases hp : tag = S ("Private")
        · rw [if_pos hp] at h2; simp at h2
        · rw [if_neg hp] at h2
          have := subUrisL_length cs (nodeUri (.elem tag attrs text cs) (some p) c) (c + 2) u h2
          have := nodeUri_length tag attrs text cs p c
          omega
theorem subUrisL_length : ∀ (cs : List XNode) (pu : Bytes) (c : Nat),
    ∀ v ∈ subUrisL cs pu c, pu.length + 2 ≤ v.length
  | [], pu, c, v, h => by simp [subUrisL] at h
  | n :: cs, pu, c, v, h => by
      rw [subUrisL] at h
      rcases List.mem_append.mp h with h1 | h1
      · exact subUris_length n pu c v h1
      · exact subUrisL_length cs pu (c + w n) v h1
end

theorem parent_not_mem_subUris (n : XNode) (p : Bytes) (c : Nat) :
    p ∉ subUris n (some p) c := by
  intro h
  have := subUris_length n p c p h
  omega

theorem parent_not_mem_subUrisL (cs : List XNode) (u : Bytes) (c : Nat) :
    u ∉ subUrisL cs u c := by
  intro h
  have := subUrisL_length cs u c u h
  omega

mutual
theorem subUris_stamps : ∀ (n : XNode) (p : Bytes) (c : Nat),
    ∀ u ∈ subUris n (some p) c, ∃ k, c < k ∧ k ≤ c + w n ∧ stampOf u = some k
  | .comment _, p, c, u, h => by simp [subUris] at h
  | .elem tag attrs text cs, p, c, u, h => by
      rw [subUris] at h
      rcases List.mem_cons.mp h with rfl | h2
      · refine ⟨c + 1, by omega, ?bnd, nodeUri_stamp tag attrs text cs p c⟩
        have := two_le_w tag attrs text cs
        omega
      · by_cases hp : tag = S ("Private")
        · rw [if_pos hp] at h2; simp at h2
        · rw [if_neg hp] at h2
          obtain ⟨k, hk1, hk2, hk3⟩ :=
            subUrisL_stamps cs (nodeUri (.elem tag attrs text cs) (some p) c) (c + 2) u h2
          refine ⟨k, by omega, ?bnd2, hk3⟩
          rw [w_elem_not_private tag attrs text cs hp]
          omega
theorem subUrisL_stamps : ∀ (cs : List XNode) (pu : Bytes) (c : Nat),
    ∀ v ∈ subUrisL cs pu c, ∃ k, c < k ∧ k ≤ c + wL cs ∧ stampOf v = some k
  | [], pu, c, v, h => by simp [subUrisL] at h
  | n :: cs, pu, c, v, h => by
      rw [subUrisL] at h
      rcases List.mem_append.mp h with h1 | h1
      · obtain ⟨k, hk1, hk2, hk3⟩ := subUris_stamps n pu c v h1
        exact ⟨k, hk1, by rw [wL_cons]; omega, hk3⟩
      · obtain ⟨k, hk1, hk2, hk3⟩ := subUrisL_stamps cs pu (c + w n) v h1
        exact ⟨k, by omega, by rw [wL_cons]; omega, hk3⟩
end

/-! Subject views: all decoder queries filter the graph by subject, so we
compute the per-subject slice of the emitted triples. -/

theorem subjView_append (g1 g2 : Graph) (s : Bytes) :
    subjView (g1 ++ g2) s = subjView g1 s ++ subjView g2 s := by
  rw [subjView, subjView, subjView, List.filter_append]

theorem subjView_eq_nil (g : Graph) (s : Bytes) (h : ∀ t ∈ g, t.1 ≠ s) :
    subjView g s = [] := by
  rw [subjView, List.filter_eq_nil_iff]
  intro t ht
  simp [h t ht]

theorem objectsOf_subjView (g : Graph) (s : Bytes) (p : Bytes) :
    objectsOf g (.uri s) p =
      ((subjView g s).filter (fun t => decide (t.2.1 = p))).map (fun t => t.2.2) := by
  rw [objectsOf, subjView, List.filter_filter]
  congr 1
  apply List.filter_congr
  intro t _
  simp [decide_eq_true_eq, Bool.and_comm]

theorem predObjsOf_subjView (g : Graph) (s : Bytes) :
    predObjsOf g (.uri s) = (subjView g s).map (fun t => t.2) := rfl

/- Named segments of the triples one element contributes. -/
def parentLink (pu : Option Bytes) (pred : Bytes) (u : Bytes) : List Triple :=
  match pu with
  | some p => [(p, pred, Obj.uri u)]
  | none => []

def privTypeTriples (u : Bytes) (o : Option Bytes) : List Triple :=
  match o with
  | some t0 => if t0 = [] then [] else [(u, privTypeP, Obj.lit t0)]
  | none => []

def attrTriples (u : Bytes) (attrs : List (Bytes × Bytes)) : List Triple :=
  attrs.map (fun kv => (u, attrPredOf kv.1, Obj.lit kv.2))

def textTriples (u : Bytes) (text : Bytes) : List Triple :=
  if text ≠ [] ∧ pyStrip text ≠ [] then [(u, iecTextContentP, Obj.lit (pyStrip text))] else []

theorem parentLink_mem (pu : Option Bytes) (pred : Bytes) (u : Bytes) :
    ∀ t ∈ parentLink pu pred u, ∃ p, pu = some p ∧ t = (p, pred, Obj.uri u) := by
  intro t h
  cases pu with
  | none => simp [parentLink] at h
  | some p =>
      simp [parentLink] at h
      exact ⟨p, rfl, h⟩

theorem privTypeTriples_mem (u : Bytes) (o : Option Bytes) :
    ∀ t ∈ privTypeTriples u o, ∃ t0, t = (u, privTypeP, Obj.lit t0) := by
  intro t h
  cases o with
  | none => simp [privTypeTriples] at h
  | some t0 =>
      by_cases h0 : t0 = []
      · simp [privTypeTriples, h0] at h
      · simp [privTypeTriples, h0] at h
        exact ⟨t0, h⟩

theorem attrTriples_mem (u : Bytes) (attrs : List (Bytes × Bytes)) :
    ∀ t ∈ attrTriples u attrs, ∃ kv, kv ∈ attrs ∧ t = (u, attrPredOf kv.1, Obj.lit kv.2) := by
  intro t h
  obtain ⟨kv, hkv, rfl⟩ := List.mem_map.mp h
  exact ⟨kv, hkv, rfl⟩

theorem textTriples_mem (u : Bytes) (text : Bytes) :
    ∀ t ∈ textTriples u text, t = (u, iecTextContentP, Obj.lit (pyStrip text)) := by
  intro t h
  rw [textTriples] at h
  by_cases ht : text ≠ [] ∧ pyStrip text ≠ []
  · rw [if_pos ht] at h
    simp at h
    exact h
  · rw [if_neg ht] at h
    simp at h

/- The two branches of `emit` on an element node, as rewrite rules. -/
theorem emit_elem_def (tag : Bytes) (attrs : List (Bytes × Bytes)) (text : Bytes)
    (cs : List XNode) (pu : Option Bytes) (c : Nat) :
    emit (.elem tag attrs text cs) pu c =
      if tag = S ("Private") then
        [(nodeUri (.elem tag attrs text cs) pu c, rdfTypeP, Obj.uri privPrivateSectionU),
         (nodeUri (.elem tag attrs text cs) pu c, privOrderP, Obj.litNat (c + 2))] ++
        parentLink pu privHasPrivateP (nodeUri (.elem tag attrs text cs) pu c) ++
        [(nodeUri (.elem tag attrs text cs) pu c, privXmlContentP,
          Obj.lit (serializePrivateElement (.elem tag attrs text cs)))] ++
        privTypeTriples (nodeUri (.elem tag attrs text cs) pu c) (pyGet attrs (S ("type")))
      else
        [(nodeUri (.elem tag attrs text cs) pu c, iecOrderP, Obj.litNat (c + 2)),
         (nodeUri (.elem tag attrs text cs) pu c, rdfTypeP, Obj.uri (iecNS ++ tag))] ++
        parentLink pu (iecNS ++ S ("has") ++ tag) (nodeUri (.elem tag attrs text cs) pu c) ++
        attrTriples (nodeUri (.elem tag attrs text cs) pu c) attrs ++
        textTriples (nodeUri (.elem tag attrs text cs) pu c) text ++
        emitL cs (nodeUri (.elem tag attrs text cs) pu c) (c + 2) := rfl

theorem subUris_elem_def (tag : Bytes) (attrs : List (Bytes × Bytes)) (text : Bytes)
    (cs : List XNode) (pu : Option Bytes) (c : Nat) :
    subUris (.elem tag attrs text cs) pu c =
      nodeUri (.elem tag attrs text cs) pu c ::
        (if tag = S ("Private") then []
         else subUrisL cs (nodeUri (.elem tag attrs text cs) pu c) (c + 2)) := rfl

theorem emitL_cons (n : XNode) (cs : List XNode) (u : Bytes) (c : Nat) :
    emitL (n :: cs) u c = emit n (some u) c ++ emitL cs u (c + w n) := rfl

theorem subUrisL_cons (n : XNode) (cs : List XNode) (u : Bytes) (c : Nat) :
    subUrisL (n :: cs) u c = subUris n (some u) c ++ subUrisL cs u (c + w n) := rfl

mutual
theorem emit_subjects : ∀ (n : XNode) (pu : Option Bytes) (c : Nat),
    ∀ t ∈ emit n pu c, t.1 ∈ subUris n pu c ∨ ∃ p, pu = some p ∧ t.1 = p
  | .comment s, pu, c, t, h => by
      simp [show emit (.comment s) pu c = [] from rfl] at h
  | .elem tag attrs text cs, pu, c, t, h => by
      rw [emit_elem_def] at h
      have hmem : t.1 = nodeUri (.elem tag attrs text cs) pu c →
          t.1 ∈ subUris (.elem tag attrs text cs) pu c ∨ ∃ p, pu = some p ∧ t.1 = p := by
        intro he
        rw [subUris_elem_def, he]
        exact Or.inl (List.mem_cons_self _ _)
      by_cases hp : tag = S ("Private")
      · rw [if_pos hp] at h
        simp only [List.mem_append, List.mem_cons, List.not_mem_nil, or_false, or_assoc] at h
        rcases h with rfl | rfl | h | rfl | h
        · exact hmem rfl
        · exact hmem rfl
        · obtain ⟨p, hpe, rfl⟩ := parentLink_mem pu privHasPrivateP _ t h
          exact Or.inr ⟨p, hpe, rfl⟩
        · exact hmem rfl
        · obtain ⟨t0, rfl⟩ := privTypeTriples_mem _ _ t h
          exact hmem rfl
      · rw [if_neg hp] at h
        simp only [List.mem_append, List.mem_cons, List.not_mem_nil, or_false, or_assoc] at h
        rcases h with rfl | rfl | h | h | h | h
        · exact hmem rfl
        · exact hmem rfl
        · obtain ⟨p, hpe, rfl⟩ := parentLink_mem pu _ _ t h
          exact Or.inr ⟨p, hpe, rfl⟩
        · obtain ⟨kv, _, rfl⟩ := attrTriples_mem _ _ t h
          exact hmem rfl
        · have := textTriples_mem _ _ t h
          subst this
          exact hmem rfl
        · rcases emitL_subjects cs (nodeUri (.elem tag attrs text cs) pu c) (c + 2) t h with
            h1 | h1
          · refine Or.inl ?memtail
            rw [subUris_elem_def]
            refine List.mem_cons_of_mem _ ?memtail2
            rw [if_neg hp]
            exact h1
          · exact hmem h1
theorem emitL_subjects : ∀ (cs : List XNode) (u : Bytes) (c : Nat),
    ∀ t ∈ emitL cs u c, t.1 ∈ subUrisL cs u c ∨ t.1 = u
  | [], u, c, t, h => by simp [show emitL [] u c = [] from rfl] at h
  | n :: cs, u, c, t, h => by
      rw [emitL_cons] at h
      rcases List.mem_append.mp h with h1 | h1
      · rcases emit_subjects n (some u) c t h1 with h2 | ⟨p, hpe, hq⟩
        · exact Or.inl (by rw [subUrisL_cons]; exact List.mem_append_left _ h2)
        · exact Or.inr (by cases hpe; exact hq)
      · rcases emitL_subjects cs u (c + w n) t h1 with h2 | h2
        · exact Or.inl (by rw [subUrisL_cons]; exact List.mem_append_right _ h2)
        · exact Or.inr h2
end

theorem subjView_of_all (g : Graph) (s : Bytes) (h : ∀ t ∈ g, t.1 = s) :
    subjView g s = g := by
  rw [subjView, List.filter_eq_self]
  intro t ht
  simp [h t ht]

theorem parent_ne_nodeUri (tag : Bytes) (attrs : List (Bytes × Bytes)) (text : Bytes)
    (cs : List XNode) (p : Bytes) (c : Nat) :
    p ≠ nodeUri (.elem tag attrs text cs) (some p) c := by
  intro he
  have := nodeUri_length tag attrs text cs p c
  rw [← he] at this
  omega

theorem emit_subjView_nil (n : XNode) (u : Bytes) (c : Nat) (s : Bytes)
    (h1 : s ∉ subUris n (some u) c) (h2 : s ≠ u) :
    subjView (emit n (some u) c) s = [] := by
  apply subjView_eq_nil
  intro t ht he
  rcases emit_subjects n (some u) c t ht with hm | ⟨p, hpe, hq⟩
  · exact h1 (he ▸ hm)
  · rcases Option.some_inj.mp hpe with rfl
    exact h2 (he ▸ hq)

theorem emitL_subjView_nil (cs : List XNode) (u : Bytes) (c : Nat) (s : Bytes)
    (h1 : s ∉ subUrisL cs u c) (h2 : s ≠ u) :
    subjView (emitL cs u c) s = [] := by
  apply subjView_eq_nil
  intro t ht he
  rcases emitL_subjects cs u c t ht with hm | hm
  · exact h1 (he ▸ hm)
  · exact h2 (he ▸ hm)

/- The one triple a child contributes with its parent as subject. -/
def linkOf (n : XNode) (u : Bytes) (c : Nat) : List Triple :=
  match n with
  | .comment _ => []
  | .elem tag attrs text cs =>
      if tag = S ("Private") then
        [(u, privHasPrivateP, Obj.uri (nodeUri (.elem tag attrs text cs) (some u) c))]
      else
        [(u, iecNS ++ S ("has") ++ tag, Obj.uri (nodeUri (.elem tag attrs text cs) (some u) c))]

def linksOf : List XNode → Bytes → Nat → List Triple
  | [], _, _ => []
  | n :: cs, u, c => linkOf n u c ++ linksOf cs u (c + w n)

theorem linkOf_elem (tag : Bytes) (attrs : List (Bytes × Bytes)) (text : Bytes)
    (cs : List XNode) (u : Bytes) (c : Nat) :
    linkOf (.elem tag attrs text cs) u c =
      if tag = S ("Private") then
        [(u, privHasPrivateP, Obj.uri (nodeUri (.elem tag attrs text cs) (some u) c))]
      else
        [(u, iecNS ++ S ("has") ++ tag, Obj.uri (nodeUri (.elem tag attrs text cs) (some u) c))] :=
  rfl

theorem emit_parent_view : ∀ (n : XNode) (u : Bytes) (c : Nat),
    subjView (emit n (some u) c) u = linkOf n u c
  | .comment s, u, c => by
      rw [show emit (.comment s) (some u) c = [] from rfl]
      rfl
  | .elem tag attrs text cs, u, c => by
      rw [emit_elem_def, linkOf_elem]
      have hne : nodeUri (.elem tag attrs text cs) (some u) c ≠ u :=
        fun he => parent_ne_nodeUri tag attrs text cs u c he.symm
      by_cases hp : tag = S ("Private")
      · rw [if_pos hp, if_pos hp]
        rw [subjView_append, subjView_append, subjView_append]
        rw [subjView_eq_nil _ _ (by
          intro t ht
          simp only [List.mem_cons, List.not_mem_nil, or_false] at ht
          rcases ht with rfl | rfl <;> exact hne)]
        rw [show subjView (parentLink (some u) privHasPrivateP
            (nodeUri (.elem tag attrs text cs) (some u) c)) u =
            [(u, privHasPrivateP, Obj.uri (nodeUri (.elem tag attrs text cs) (some u) c))] by
          simp [parentLink, subjView]]
        rw [subjView_eq_nil _ _ (by
          intro t ht
          simp only [List.mem_cons, List.not_mem_nil, or_false] at ht
          rcases ht with rfl
          exact hne)]
        rw [subjView_eq_nil _ _ (by
          intro t ht
          obtain ⟨t0, rfl⟩ := privTypeTriples_mem _ _ t ht
          exact hne)]
        simp
      · rw [if_neg hp, if_neg hp]
        rw [subjView_append, subjView_append, subjView_append, subjView_append]
        rw [subjView_eq_nil _ _ (by
          intro t ht
          simp only [List.mem_cons, List.not_mem_nil, or_false] at ht
          rcases ht with rfl | rfl <;> exact hne)]
        rw [show subjView (parentLink (some u) (iecNS ++ S ("has") ++ tag)
            (nodeUri (.elem tag attrs text cs) (some u) c)) u =
            [(u, iecNS ++ S ("has") ++ tag,
              Obj.uri (nodeUri (.elem tag attrs text cs) (some u) c))] by
          simp [parentLink, subjView]]
        rw [subjView_eq_nil _ _ (by
          intro t ht
          obtain ⟨kv, _, rfl⟩ := attrTriples_mem _ _ t ht
          exact hne)]
        rw [subjView_eq_nil _ _ (by
          intro t ht
          have := textTriples_mem _ _ t ht
          subst this
          exact hne)]
        rw [emitL_subjView_nil _ _ _ _ ?notmem ?neq]
        · simp
        case notmem =>
          intro hmem
          have hlen := subUrisL_length cs (nodeUri (.elem tag attrs text cs) (some u) c)
            (c + 2) u hmem
          have := nodeUri_length tag attrs text cs u c
          omega
        case neq => exact fun he => hne he.symm

theorem emitL_parent_view : ∀ (cs : List XNode) (u : Bytes) (c : Nat),
    subjView (emitL cs u c) u = linksOf cs u c
  | [], u, c => rfl
  | n :: cs, u, c => by
      rw [emitL_cons, subjView_append, emit_parent_view n u c,
        emitL_parent_view cs u (c + w n)]
      rfl

theorem emit_own_view (tag : Bytes) (attrs : List (Bytes × Bytes)) (text : Bytes)
    (cs : List XNode) (pu : Option Bytes) (c : Nat) (hp : tag ≠ S ("Private")) :
    subjView (emit (.elem tag attrs text cs) pu c) (nodeUri (.elem tag attrs text cs) pu c) =
      [(nodeUri (.elem tag attrs text cs) pu c, iecOrderP, Obj.litNat (c + 2)),
       (nodeUri (.elem tag attrs text cs) pu c, rdfTypeP, Obj.uri (iecNS ++ tag))] ++
      attrTriples (nodeUri (.elem tag attrs text cs) pu c) attrs ++
      textTriples (nodeUri (.elem tag attrs text cs) pu c) text ++
      linksOf cs (nodeUri (.elem tag attrs text cs) pu c) (c + 2) := by
  rw [emit_elem_def, if_neg hp]
  rw [subjView_append, subjView_append, subjView_append, subjView_append]
  rw [subjView_of_all _ _ (by
    intro t ht
    simp only [List.mem_cons, List.not_mem_nil, or_false] at ht
    rcases ht with rfl | rfl <;> rfl)]
  rw [subjView_eq_nil (parentLink pu _ _) _ (by
    intro t ht
    obtain ⟨p, hpe, rfl⟩ := parentLink_mem _ _ _ t ht
    rcases hpe with rfl
    exact parent_ne_nodeUri tag attrs text cs p c)]
  rw [subjView_of_all _ _ (by
    intro t ht
    obtain ⟨kv, _, rfl⟩ := attrTriples_mem _ _ t ht
    rfl)]
  rw [subjView_of_all _ _ (by
    intro t ht
    have := textTriples_mem _ _ t ht
    subst this
    rfl)]
  rw [emitL_parent_view]
  simp

theorem emit_own_view_private (attrs : List (Bytes × Bytes)) (text : Bytes)
    (cs : List XNode) (pu : Option Bytes) (c : Nat) :
    subjView (emit (.elem (S ("Private")) attrs text cs) pu c)
        (nodeUri (.elem (S ("Private")) attrs text cs) pu c) =
      [(nodeUri (.elem (S ("Private")) attrs text cs) pu c, rdfTypeP,
        Obj.uri privPrivateSectionU),
       (nodeUri (.elem (S ("Private")) attrs text cs) pu c, privOrderP, Obj.litNat (c + 2)),
       (nodeUri (.elem (S ("Private")) attrs text cs) pu c, privXmlContentP,
        Obj.lit (serializePrivateElement (.elem (S ("Private")) attrs text cs)))] ++
      privTypeTriples (nodeUri (.elem (S ("Private")) attrs text cs) pu c)
        (pyGet attrs (S ("type"))) := by
  rw [emit_elem_def, if_pos rfl]
  rw [subjView_append, subjView_append, subjView_append]
  rw [subjView_of_all _ _ (by
    intro t ht
    simp only [List.mem_cons, List.not_mem_nil, or_false] at ht
    rcases ht with rfl | rfl <;> rfl)]
  rw [subjView_eq_nil (parentLink pu _ _) _ (by
    intro t ht
    obtain ⟨p, hpe, rfl⟩ := parentLink_mem _ _ _ t ht
    rcases hpe with rfl
    exact parent_ne_nodeUri (S ("Private")) attrs text cs p c)]
  rw [subjView_of_all _ _ (by
    intro t ht
    simp only [List.mem_cons, List.not_mem_nil, or_false] at ht
    rcases ht with rfl
    rfl)]
  rw [subjView_of_all _ _ (by
    intro t ht
    obtain ⟨t0, rfl⟩ := privTypeTriples_mem _ _ t ht
    rfl)]
  simp

/-! Byte-string toolkit: the IEC, private and RDF namespaces are pairwise
non-overlapping, and stripping the IEC prefix is exact. -/

theorem ne_of_take_ne {a b : Bytes} (n : Nat) (h : a.take n ≠ b.take n) : a ≠ b :=
  fun he => h (by rw [he])

theorem isPrefixOf_false_of_take (a b : Bytes) (n : Nat) (hn : n ≤ a.length)
    (h : a.take n ≠ b.take n) : a.isPrefixOf b = false := by
  rw [Bool.eq_false_iff]
  intro hp
  rw [List.isPrefixOf_iff_prefix] at hp
  obtain ⟨r, rfl⟩ := hp
  exact h (by rw [List.take_append_of_le_length hn])

theorem isPrefixOf_append_self (a b : Bytes) : a.isPrefixOf (a ++ b) = true := by
  rw [List.isPrefixOf_iff_prefix]
  exact List.prefix_append a b

theorem iecApp_ne_rdfType (k : Bytes) : iecNS ++ k ≠ rdfTypeP := by
  apply ne_of_take_ne 8
  rw [List.take_append_of_le_length (by decide)]
  decide

theorem iecApp_ne_privApp (x y : Bytes) : iecNS ++ x ≠ privNS ++ y := by
  apply ne_of_take_ne 21
  rw [List.take_append_of_le_length (by decide),
    List.take_append_of_le_length (by decide)]
  decide

theorem privNS_not_prefix_of_iecApp (m : Bytes) : privNS.isPrefixOf (iecNS ++ m) = false := by
  apply isPrefixOf_false_of_take _ _ 21 (by decide)
  rw [List.take_append_of_le_length (by decide)]
  decide

theorem iec_cancel {x y : Bytes} : iecNS ++ x = iecNS ++ y ↔ x = y := by
  rw [List.append_cancel_left_eq]

theorem iecHasPrefix_eq (m : Bytes) :
    (iecNS ++ S ("has")).isPrefixOf (iecNS ++ m) = (S ("has")).isPrefixOf m := by
  rcases hb : (S ("has")).isPrefixOf m with _ | _
  · rw [Bool.eq_false_iff] at hb ⊢
    intro hp
    apply hb
    rw [List.isPrefixOf_iff_prefix] at hp ⊢
    obtain ⟨r, hr⟩ := hp
    rw [List.append_assoc] at hr
    exact ⟨r, iec_cancel.mp hr⟩
  · rw [List.isPrefixOf_iff_prefix] at hb ⊢
    obtain ⟨r, rfl⟩ := hb
    exact ⟨r, by rw [List.append_assoc]⟩

theorem iecApp_mem_skipPreds (m : Bytes) :
    iecNS ++ m ∈ skipPreds ↔ m = S ("order") ∨ m = S ("textContent") := by
  rw [skipPreds]
  simp only [List.mem_cons, List.not_mem_nil, or_false]
  constructor
  · rintro (h | h | h | h | h)
    · exact absurd h (iecApp_ne_rdfType m)
    · exact Or.inl (iec_cancel.mp h)
    · exact Or.inr (iec_cancel.mp h)
    · exact absurd h (iecApp_ne_privApp m (S ("order")))
    · exact absurd h (iecApp_ne_privApp m (S ("hasPrivate")))
  · rintro (rfl | rfl)
    · exact Or.inr (Or.inl rfl)
    · exact Or.inr (Or.inr (Or.inl rfl))

theorem pyReplaceAux_no_occ : ∀ (fuel : Nat) (s pat rep : Bytes),
    (∃ b, b ∈ pat ∧ b ∉ s) → pyReplaceAux fuel s pat rep = s
  | 0, s, pat, rep, _ => rfl
  | fuel + 1, s, pat, rep, h => by
      obtain ⟨b, hb1, hb2⟩ := h
      match s with
      | [] => rfl
      | c :: rest =>
          rw [pyReplaceAux]
          rw [if_neg ?cond]
          · rw [pyReplaceAux_no_occ fuel rest pat rep ⟨b, hb1, fun hm => hb2 (List.mem_cons_of_mem c hm)⟩]
          case cond =>
            rintro ⟨hp1, hp2⟩
            rw [List.isPrefixOf_iff_prefix] at hp2
            obtain ⟨r, hr⟩ := hp2
            apply hb2
            rw [← hr]
            exact List.mem_append_left r hb1

theorem pyReplace_cancel (pat m : Bytes) (hpne : pat ≠ [])
    (hb : ∃ b, b ∈ pat ∧ b ∉ m) : pyReplace (pat ++ m) pat [] = m := by
  rcases hpe : pat with _ | ⟨p0, pr⟩
  · exact absurd rfl (hpe ▸ hpne)
  subst hpe
  rw [pyReplace]
  rw [show ((p0 :: pr) ++ m).length = ((pr ++ m).length + 1) from by simp]
  rw [List.cons_append, pyReplaceAux]
  rw [if_pos ⟨by simp, by rw [← List.cons_append]; exact isPrefixOf_append_self _ m⟩]
  rw [List.nil_append]
  rw [show (p0 :: (pr ++ m)).drop (p0 :: pr).length = m from by
    rw [← List.cons_append, List.drop_left]]
  apply pyReplaceAux_no_occ
  obtain ⟨b, hb1, hb2⟩ := hb
  exact ⟨b, hb1, hb2⟩

theorem mem_47_iecNS : (47 : Nat) ∈ iecNS := by decide

theorem pyReplace_iec (m : Bytes) (h : (47 : Nat) ∉ m) :
    pyReplace (iecNS ++ m) iecNS [] = m :=
  pyReplace_cancel iecNS m (by decide) ⟨47, mem_47_iecNS, h⟩

/-! Conditions under which the decoder reconstructs an encoded tree, and
the canonical image it produces. -/

/-- Tag names that survive the IEC-prefix stripping of `_build_element`. -/
def tagOK (t : Bytes) : Bool := decide (t ≠ []) && decide ((47 : Nat) ∉ t)

/-- Attribute keys whose predicate encoding is unambiguous: namespaced
keys (leading `\x7b`) need in-range bytes for the quote/unquote pair;
plain keys must not contain `/`, start with `attr_`, or be named
`textContent` (those collide with the decoder's own markers). -/
def attrKeyOK (k : Bytes) : Bool :=
  if k.head? = some 123 then k.all (fun b => decide (b < 256))
  else decide (k ≠ []) && decide ((47 : Nat) ∉ k) &&
    !((S ("attr_")).isPrefixOf k) && decide (k ≠ S ("textContent"))

/- Encodability: Private subtrees must be printer-valid, other elements
need decodable tags and keys, and per-element distinct attribute names. -/
mutual
def encOK : XNode → Bool
  | .comment _ => false
  | .elem tag attrs text cs =>
      if tag = S ("Private") then svalid (.elem tag attrs text cs)
      else
        tagOK tag && attrs.all (fun kv => attrKeyOK kv.1) &&
          decide ((attrs.map Prod.fst).Nodup) && encOKL cs
def encOKL : List XNode → Bool
  | [] => true
  | n :: cs => encOK n && encOKL cs
end

/-- Attributes the decoder keeps: everything except plain `has*`-prefixed
and `order`-named keys (those are read back as child links / order marks
and then skipped). -/
def keepAttrB (kv : Bytes × Bytes) : Bool :=
  !((S ("has")).isPrefixOf kv.1) && decide (kv.1 ≠ S ("order"))

/- The canonical image of a round trip: text stripped, dropped
attributes removed, Private subtrees verbatim. -/
mutual
def canonV2 : XNode → XNode
  | .comment s => .comment s
  | .elem tag attrs text cs =>
      if tag = S ("Private") then .elem tag attrs text cs
      else .elem tag (attrs.filter keepAttrB) (pyStrip text) (canonV2L cs)
def canonV2L : List XNode → List XNode
  | [] => []
  | n :: cs => canonV2 n :: canonV2L cs
end

/-- Attribute keys that land in the decoder's `has*` child scan as junk
entries (they build to `None` and are dropped). -/
def junkKeyB (kv : Bytes × Bytes) : Bool :=
  (S ("has")).isPrefixOf kv.1 && decide (kv.1 ≠ S ("hasPrivate"))

def junkEntries (attrs : List (Bytes × Bytes)) : List (Int × Obj) :=
  (attrs.filter junkKeyB).map (fun kv => ((0 : Int), Obj.lit kv.2))

/- Child URIs by kind, and the (order, uri) entries the decoder
collects, all in document order. -/
def regLinkObjs : List XNode → Bytes → Nat → List Obj
  | [], _, _ => []
  | .comment _ :: cs, u, c => regLinkObjs cs u c
  | .elem tag attrs text cs0 :: cs, u, c =>
      (if tag = S ("Private") then [] else
        [Obj.uri (nodeUri (.elem tag attrs text cs0) (some u) c)]) ++
      regLinkObjs cs u (c + w (.elem tag attrs text cs0))

def privLinkObjs : List XNode → Bytes → Nat → List Obj
  | [], _, _ => []
  | .comment _ :: cs, u, c => privLinkObjs cs u c
  | .elem tag attrs text cs0 :: cs, u, c =>
      (if tag = S ("Private") then
        [Obj.uri (nodeUri (.elem tag attrs text cs0) (some u) c)] else []) ++
      privLinkObjs cs u (c + w (.elem tag attrs text cs0))

def regEntries : List XNode → Bytes → Nat → List (Int × Obj)
  | [], _, _ => []
  | .comment _ :: cs, u, c => regEntries cs u c
  | .elem tag attrs text cs0 :: cs, u, c =>
      (if tag = S ("Private") then [] else
        [(((c + 2 : Nat) : Int), Obj.uri (nodeUri (.elem tag attrs text cs0) (some u) c))]) ++
      regEntries cs u (c + w (.elem tag attrs text cs0))

def privEntries : List XNode → Bytes → Nat → List (Int × Obj)
  | [], _, _ => []
  | .comment _ :: cs, u, c => privEntries cs u c
  | .elem tag attrs text cs0 :: cs, u, c =>
      (if tag = S ("Private") then
        [(((c + 2 : Nat) : Int), Obj.uri (nodeUri (.elem tag attrs text cs0) (some u) c))]
       else []) ++
      privEntries cs u (c + w (.elem tag attrs text cs0))

def childEntries : List XNode → Bytes → Nat → List (Int × Obj)
  | [], _, _ => []
  | .comment _ :: cs, u, c => childEntries cs u c
  | .elem tag attrs text cs0 :: cs, u, c =>
      (((c + 2 : Nat) : Int), Obj.uri (nodeUri (.elem tag attrs text cs0) (some u) c)) ::
        childEntries cs u (c + w (.elem tag attrs text cs0))

/-- Entries with a nonzero order key (junk entries all carry key 0). -/
def isRealE (e : Int × Obj) : Bool := decide (e.1 ≠ 0)

/-- The value of a successful decode step (`none` on error). -/
def okValue (x : Except DecErr (Option XNode)) : Option XNode :=
  match x with
  | .ok r => r
  | .error _ => none

/-- The attribute the decoder's restoration loop recovers from one
predicate/object pair (`none` when the pair is skipped). -/
def attrRestore (po : Bytes × Obj) : Option (Bytes × Bytes) :=
  if (iecNS ++ S ("has")).isPrefixOf po.1 then none
  else if po.1 ∈ skipPreds ∨ privNS.isPrefixOf po.1 then none
  else some (
    if (S ("attr_")).isPrefixOf (pyReplace po.1 iecNS []) then
      unquote ((pyReplace po.1 iecNS []).drop 5)
    else pyReplace po.1 iecNS [], objStr po.2)

theorem privApp_ne_rdfType (k : Bytes) : privNS ++ k ≠ rdfTypeP := by
  apply ne_of_take_ne 8
  rw [List.take_append_of_le_length (by decide)]
  decide

theorem iecHas_not_prefix_rdfType : (iecNS ++ S ("has")).isPrefixOf rdfTypeP = false := by
  apply isPrefixOf_false_of_take _ _ 8 (by decide)
  rw [List.take_append_of_le_length (by decide)]
  decide

theorem iecHas_not_prefix_privApp (k : Bytes) :
    (iecNS ++ S ("has")).isPrefixOf (privNS ++ k) = false := by
  apply isPrefixOf_false_of_take _ _ 21 (by decide)
  rw [List.take_append_of_le_length (by decide),
    List.take_append_of_le_length (by decide)]
  decide

theorem rdfType_not_mem_has : (S ("has")).isPrefixOf (S ("order")) = false := by decide

theorem hexDigit_ne_47 (n : Nat) : hexDigit n ≠ 47 := by
  rw [hexDigit]
  split <;> omega

theorem quote_no_47 : ∀ k : Bytes, (47 : Nat) ∉ quote k
  | [] => by simp [quote]
  | b :: rest => by
      rw [quote]
      intro h
      rcases List.mem_append.mp h with h1 | h1
      · by_cases hu : isUnreservedByte b = true
        · rw [if_pos hu] at h1
          simp at h1
          subst h1
          exact absurd hu (by decide)
        · rw [if_neg hu] at h1
          simp only [List.mem_cons, List.not_mem_nil, or_false] at h1
          rcases h1 with h1 | h1 | h1
          · omega
          · exact hexDigit_ne_47 _ h1.symm
          · exact hexDigit_ne_47 _ h1.symm
      · exact quote_no_47 rest h1

theorem b64encode_cons_ne_nil (a : Nat) (rest : Bytes) : b64encode (a :: rest) ≠ [] := by
  match rest with
  | [] => simp [b64encode]
  | [b] => simp [b64encode]
  | b :: c :: r => simp [b64encode]

theorem serializePrivateElement_ne_nil (tag : Bytes) (attrs : List (Bytes × Bytes))
    (text : Bytes) (cs : List XNode) :
    serializePrivateElement (.elem tag attrs text cs) ≠ [] := by
  rw [serializePrivateElement, serializeXml]
  exact b64encode_cons_ne_nil _ _

theorem objectsOf_lit (g : Graph) (v : Bytes) (p : Bytes) :
    objectsOf g (Obj.lit v) p = [] := rfl

theorem getOrder_lit (g : Graph) (v : Bytes) :
    getElementOrder g (Obj.lit v) = .ok 0 := rfl

theorem buildElement_lit (g : Graph) (fuel : Nat) (v : Bytes) :
    buildElement g (fuel + 1) (Obj.lit v) = .ok none := by
  rw [buildElement]
  rw [if_neg (by simp [objectsOf_lit])]
  rfl

theorem has_prefix_head {m : Bytes} (h : (S ("has")).isPrefixOf m = true) :
    ∃ r, m = 104 :: 97 :: 115 :: r := by
  rw [List.isPrefixOf_iff_prefix] at h
  obtain ⟨r, hr⟩ := h
  exact ⟨r, hr.symm⟩

theorem has_prefixed_ne_order {m : Bytes} (h : (S ("has")).isPrefixOf m = true) :
    m ≠ S ("order") := by
  obtain ⟨r, rfl⟩ := has_prefix_head h
  intro he
  have := congrArg (fun l => l.head?) he
  simp [S] at this

theorem has_prefixed_ne_textContent {m : Bytes} (h : (S ("has")).isPrefixOf m = true) :
    m ≠ S ("textContent") := by
  obtain ⟨r, rfl⟩ := has_prefix_head h
  intro he
  have := congrArg (fun l => l.head?) he
  simp [S] at this

/-- The local part of an attribute predicate (after the IEC namespace). -/
def localName (k : Bytes) : Bytes :=
  if k.head? = some 123 then S ("attr_") ++ quote k else k

theorem attrPredOf_eq (k : Bytes) : attrPredOf k = iecNS ++ localName k := by
  rw [attrPredOf, localName]
  split <;> rfl

theorem ne_of_head {a b : Bytes} (h : a.head? ≠ b.head?) : a ≠ b :=
  fun he => h (by rw [he])

theorem has_not_prefix_of_head97 (x : Bytes) :
    (S ("has")).isPrefixOf (97 :: x) = false := by
  simp [S, List.isPrefixOf]

theorem not_has_prefix_of_head123 {k : Bytes} (h : k.head? = some 123) :
    (S ("has")).isPrefixOf k = false := by
  match k with
  | [] => rfl
  | b :: rest =>
      simp at h
      subst h
      simp [S, List.isPrefixOf]

theorem attrRestore_order (o : Obj) : attrRestore (iecOrderP, o) = none := by
  rw [attrRestore]
  rw [if_neg ?c1, if_pos ?c2]
  case c1 =>
    show ¬ (iecNS ++ S ("has")).isPrefixOf iecOrderP = true
    rw [iecOrderP, iecHasPrefix_eq]
    decide
  case c2 =>
    exact Or.inl (by rw [skipPreds]; exact List.mem_cons_of_mem _ (List.mem_cons_self _ _))

theorem attrRestore_type (o : Obj) : attrRestore (rdfTypeP, o) = none := by
  rw [attrRestore]
  rw [if_neg ?c1, if_pos ?c2]
  case c1 =>
    show ¬ (iecNS ++ S ("has")).isPrefixOf rdfTypeP = true
    rw [iecHas_not_prefix_rdfType]
    simp
  case c2 =>
    exact Or.inl (by rw [skipPreds]; exact List.mem_cons_self _ _)

theorem attrRestore_text (o : Obj) : attrRestore (iecTextContentP, o) = none := by
  rw [attrRestore]
  rw [if_neg ?c1, if_pos ?c2]
  case c1 =>
    show ¬ (iecNS ++ S ("has")).isPrefixOf iecTextContentP = true
    rw [iecTextContentP, iecHasPrefix_eq]
    decide
  case c2 =>
    refine Or.inl ?memtc
    rw [skipPreds]
    exact List.mem_cons_of_mem _ (List.mem_cons_of_mem _ (List.mem_cons_self _ _))

theorem attrRestore_reglink (tg : Bytes) (o : Obj) :
    attrRestore (iecNS ++ (S ("has") ++ tg), o) = none := by
  rw [attrRestore]
  rw [if_pos ?c1]
  case c1 =>
    show (iecNS ++ S ("has")).isPrefixOf (iecNS ++ (S ("has") ++ tg)) = true
    rw [← List.append_assoc]
    exact isPrefixOf_append_self _ _

theorem attrRestore_privlink (o : Obj) : attrRestore (privHasPrivateP, o) = none := by
  rw [attrRestore]
  rw [if_neg ?c1, if_pos ?c2]
  case c1 =>
    show ¬ (iecNS ++ S ("has")).isPrefixOf privHasPrivateP = true
    rw [privHasPrivateP, iecHas_not_prefix_privApp]
    simp
  case c2 =>
    refine Or.inr ?privpre
    show privNS.isPrefixOf privHasPrivateP = true
    rw [privHasPrivateP]
    exact isPrefixOf_append_self _ _

theorem has_not_prefix_attr (x : Bytes) :
    (S ("has")).isPrefixOf (S ("attr_") ++ x) = false := by
  apply isPrefixOf_false_of_take _ _ 1 (by decide)
  rw [List.take_append_of_le_length (by decide)]
  decide

theorem keepAttrB_eq (k v : Bytes) :
    keepAttrB (k, v) = (!((S ("has")).isPrefixOf k) && decide (k ≠ S ("order"))) := rfl

theorem attrRestore_attrTriple (k v : Bytes) (hok : attrKeyOK k = true) :
    attrRestore (attrPredOf k, Obj.lit v) =
      if keepAttrB (k, v) = true then some (k, v) else none := by
  rw [attrPredOf_eq, attrRestore]
  by_cases hh : k.head? = some 123
  · have hm : localName k = S ("attr_") ++ quote k := by rw [localName, if_pos hh]
    rw [hm]
    rw [attrKeyOK, if_pos hh] at hok
    have hne1 : S ("attr_") ++ quote k ≠ S ("order") := by
      apply ne_of_take_ne 1
      rw [List.take_append_of_le_length (by decide)]
      decide
    have hne2 : S ("attr_") ++ quote k ≠ S ("textContent") := by
      apply ne_of_take_ne 1
      rw [List.take_append_of_le_length (by decide)]
      decide
    have h47 : (47 : Nat) ∉ S ("attr_") ++ quote k := by
      intro hm47
      rcases List.mem_append.mp hm47 with hm47 | hm47
      · revert hm47; decide
      · exact quote_no_47 k hm47
    have hkeep : keepAttrB (k, v) = true := by
      rw [keepAttrB_eq, not_has_prefix_of_head123 hh]
      have hne : k ≠ S ("order") := ne_of_head (by rw [hh]; decide)
      simp [hne]
    rw [if_neg ?c1, if_neg ?c2, hkeep, if_pos rfl]
    · show some (
        if (S ("attr_")).isPrefixOf
            (pyReplace (iecNS ++ (S ("attr_") ++ quote k)) iecNS []) = true then
          unquote ((pyReplace (iecNS ++ (S ("attr_") ++ quote k)) iecNS []).drop 5)
        else pyReplace (iecNS ++ (S ("attr_") ++ quote k)) iecNS [], v) = some (k, v)
      rw [pyReplace_iec _ h47]
      rw [if_pos (isPrefixOf_append_self (S ("attr_")) (quote k))]
      rw [show (S ("attr_") ++ quote k).drop 5 = quote k from List.drop_left (S ("attr_")) (quote k)]
      rw [List.all_eq_true] at hok
      rw [unquote_quote k (fun b hb => by simpa using hok b hb)]
    case c1 =>
      show ¬ (iecNS ++ S ("has")).isPrefixOf (iecNS ++ (S ("attr_") ++ quote k)) = true
      rw [iecHasPrefix_eq, has_not_prefix_attr]
      simp
    case c2 =>
      show ¬ (iecNS ++ (S ("attr_") ++ quote k) ∈ skipPreds ∨
          privNS.isPrefixOf (iecNS ++ (S ("attr_") ++ quote k)) = true)
      rintro (hmem | hpriv)
      · rw [iecApp_mem_skipPreds] at hmem
        rcases hmem with he | he
        · exact hne1 he
        · exact hne2 he
      · rw [privNS_not_prefix_of_iecApp] at hpriv
        simp at hpriv
  · have hm : localName k = k := by rw [localName, if_neg hh]
    rw [hm]
    rw [attrKeyOK, if_neg hh] at hok
    simp only [Bool.and_eq_true, Bool.not_eq_true', decide_eq_true_eq] at hok
    obtain ⟨⟨⟨hk1, hk2⟩, hk3⟩, hk4⟩ := hok
    by_cases hhas : (S ("has")).isPrefixOf k = true
    · rw [if_pos ?cp]
      · have hkeep : keepAttrB (k, v) = false := by
          rw [keepAttrB_eq, hhas]
          rfl
        rw [hkeep]
        simp
      case cp =>
        show (iecNS ++ S ("has")).isPrefixOf (iecNS ++ k) = true
        rw [iecHasPrefix_eq]
        exact hhas
    · have hhasf : (S ("has")).isPrefixOf k = false := Bool.eq_false_iff.mpr hhas
      by_cases hord : k = S ("order")
      · rw [if_neg ?cn1, if_pos ?cn2]
        · have hkeep : keepAttrB (k, v) = false := by
            rw [keepAttrB_eq, hord]
            simp
          rw [hkeep]
          simp
        case cn1 =>
          show ¬ (iecNS ++ S ("has")).isPrefixOf (iecNS ++ k) = true
          rw [iecHasPrefix_eq, hhasf]
          simp
        case cn2 => exact Or.inl (by rw [iecApp_mem_skipPreds]; exact Or.inl hord)
      · have hkeep : keepAttrB (k, v) = true := by
          rw [keepAttrB_eq, hhasf]
          simp [hord]
        rw [if_neg ?cm1, if_neg ?cm2, hkeep, if_pos rfl]
        · show some (
            if (S ("attr_")).isPrefixOf (pyReplace (iecNS ++ k) iecNS []) = true then
              unquote ((pyReplace (iecNS ++ k) iecNS []).drop 5)
            else pyReplace (iecNS ++ k) iecNS [], v) = some (k, v)
          rw [pyReplace_iec _ hk2]
          rw [if_neg (by rw [hk3]; simp)]
        case cm1 =>
          show ¬ (iecNS ++ S ("has")).isPrefixOf (iecNS ++ k) = true
          rw [iecHasPrefix_eq, hhasf]
          simp
        case cm2 =>
          show ¬ (iecNS ++ k ∈ skipPreds ∨ privNS.isPrefixOf (iecNS ++ k) = true)
          rintro (hmem | hpriv)
          · rw [iecApp_mem_skipPreds] at hmem
            rcases hmem with he | he
            · exact hord he
            · exact hk4 he
          · rw [privNS_not_prefix_of_iecApp] at hpriv
            simp at hpriv

/-- `graph.objects` restricted to one subject slice. -/
def predFilter (v : List Triple) (p : Bytes) : List Obj :=
  (v.filter (fun t => decide (t.2.1 = p))).map (fun t => t.2.2)

theorem objectsOf_predFilter (g : Graph) (s : Bytes) (p : Bytes) :
    objectsOf g (.uri s) p = predFilter (subjView g s) p := objectsOf_subjView g s p

theorem predFilter_append (v1 v2 : List Triple) (p : Bytes) :
    predFilter (v1 ++ v2) p = predFilter v1 p ++ predFilter v2 p := by
  rw [predFilter, predFilter, predFilter, List.filter_append, List.map_append]

theorem predFilter_nil (v : List Triple) (p : Bytes) (h : ∀ t ∈ v, t.2.1 ≠ p) :
    predFilter v p = [] := by
  rw [predFilter]
  rw [List.filter_eq_nil_iff.mpr (fun t ht => by simp [h t ht])]
  rfl

theorem predFilter_cons_match (t : Triple) (v : List Triple) (p : Bytes) (h : t.2.1 = p) :
    predFilter (t :: v) p = t.2.2 :: predFilter v p := by
  rw [predFilter, List.filter_cons, if_pos (by simp [h]), List.map_cons, predFilter]

theorem predFilter_cons_miss (t : Triple) (v : List Triple) (p : Bytes) (h : t.2.1 ≠ p) :
    predFilter (t :: v) p = predFilter v p := by
  rw [predFilter, List.filter_cons, if_neg (by simp [h]), predFilter]

theorem linksOf_mem : ∀ (cs : List XNode) (u : Bytes) (c : Nat), ∀ t ∈ linksOf cs u c,
    (∃ tg uu, t = (u, iecNS ++ (S ("has") ++ tg), Obj.uri uu) ∧ tg ≠ S ("Private")) ∨
    ∃ uu, t = (u, privHasPrivateP, Obj.uri uu)
  | [], u, c, t, h => by simp [linksOf] at h
  | n :: cs, u, c, t, h => by
      rw [linksOf] at h
      rcases List.mem_append.mp h with h1 | h1
      · match n with
        | .comment s => simp [linkOf] at h1
        | .elem tag attrs text cs0 =>
            rw [linkOf_elem] at h1
            by_cases hp : tag = S ("Private")
            · rw [if_pos hp] at h1
              simp only [List.mem_cons, List.not_mem_nil, or_false] at h1
              subst h1
              exact Or.inr ⟨_, rfl⟩
            · rw [if_neg hp] at h1
              simp only [List.mem_cons, List.not_mem_nil, or_false] at h1
              subst h1
              exact Or.inl ⟨tag, _, by rw [List.append_assoc], hp⟩
      · exact linksOf_mem cs u (c + w n) t h1

theorem localName_ne_textContent (k : Bytes) (hok : attrKeyOK k = true) :
    localName k ≠ S ("textContent") := by
  rw [localName]
  by_cases hh : k.head? = some 123
  · rw [if_pos hh]
    apply ne_of_take_ne 1
    rw [List.take_append_of_le_length (by decide)]
    decide
  · rw [if_neg hh]
    rw [attrKeyOK, if_neg hh] at hok
    simp only [Bool.and_eq_true, decide_eq_true_eq] at hok
    exact hok.2

theorem attrPred_ne_of_localName {k p m : Bytes} (hm : p = iecNS ++ m)
    (h : localName k ≠ m) : attrPredOf k ≠ p := by
  rw [attrPredOf_eq, hm]
  intro he
  exact h (iec_cancel.mp he)

/- The attribute-restoration fold appends fresh keys in scan order. -/
theorem foldl_restore : ∀ (pos : List (Bytes × Obj)) (acc : List (Bytes × Bytes)),
    (((pos.filterMap attrRestore).map Prod.fst).Nodup) →
    (∀ kk ∈ (pos.filterMap attrRestore).map Prod.fst, ∀ a ∈ acc, a.1 ≠ kk) →
    pos.foldl (fun acc po =>
      if (iecNS ++ S ("has")).isPrefixOf po.1 then acc
      else if po.1 ∈ skipPreds ∨ privNS.isPrefixOf po.1 then acc
      else
        let an := pyReplace po.1 iecNS []
        let an2 := if (S ("attr_")).isPrefixOf an then unquote (an.drop 5) else an
        pySetAttr acc an2 (objStr po.2)) acc = acc ++ pos.filterMap attrRestore
  | [], acc, _, _ => by simp
  | po :: rest, acc, hnd, hdisj => by
      rw [List.foldl_cons]
      rcases hres : attrRestore po with _ | kv
      · have hstep : (if (iecNS ++ S ("has")).isPrefixOf po.1 then acc
            else if po.1 ∈ skipPreds ∨ privNS.isPrefixOf po.1 then acc
            else
              let an := pyReplace po.1 iecNS []
              let an2 := if (S ("attr_")).isPrefixOf an then unquote (an.drop 5) else an
              pySetAttr acc an2 (objStr po.2)) = acc := by
          rw [attrRestore] at hres
          by_cases h1 : (iecNS ++ S ("has")).isPrefixOf po.1 = true
          · rw [if_pos h1]
          · rw [if_neg h1] at hres ⊢
            by_cases h2 : po.1 ∈ skipPreds ∨ privNS.isPrefixOf po.1 = true
            · rw [if_pos h2]
            · rw [if_neg h2] at hres
              simp at hres
        rw [hstep]
        rw [List.filterMap_cons, hres] at hnd hdisj ⊢
        exact foldl_restore rest acc hnd hdisj
      · have hstep : (if (iecNS ++ S ("has")).isPrefixOf po.1 then acc
            else if po.1 ∈ skipPreds ∨ privNS.isPrefixOf po.1 then acc
            else
              let an := pyReplace po.1 iecNS []
              let an2 := if (S ("attr_")).isPrefixOf an then unquote (an.drop 5) else an
              pySetAttr acc an2 (objStr po.2)) = pySetAttr acc kv.1 kv.2 := by
          rw [attrRestore] at hres
          by_cases h1 : (iecNS ++ S ("has")).isPrefixOf po.1 = true
          · rw [if_pos h1] at hres
            exact absurd hres (by simp)
          · rw [if_neg h1] at hres ⊢
            by_cases h2 : po.1 ∈ skipPreds ∨ privNS.isPrefixOf po.1 = true
            · rw [if_pos h2] at hres
              exact absurd hres (by simp)
            · rw [if_neg h2] at hres ⊢
              simp only [Option.some_inj] at hres
              rw [← hres]
        rw [hstep]
        rw [List.filterMap_cons, hres] at hnd hdisj ⊢
        rw [List.map_cons] at hnd hdisj
        have hfresh : acc.any (fun a => decide (a.1 = kv.1)) = false := by
          rw [List.any_eq_false]
          intro a ha
          simp only [decide_eq_true_eq]
          exact hdisj kv.1 (List.mem_cons_self _ _) a ha
        rw [pySetAttr, hfresh]
        rw [if_neg (by simp)]
        have hrec := foldl_restore rest (acc ++ [(kv.1, kv.2)])
          (List.Nodup.of_cons hnd) ?disj2
        · rw [hrec]
          simp
        case disj2 =>
          intro kk hkk a ha
          rcases List.mem_append.mp ha with ha1 | ha1
          · exact hdisj kk (List.mem_cons_of_mem _ hkk) a ha1
          · simp only [List.mem_cons, List.not_mem_nil, or_false] at ha1
            subst ha1
            have := (List.nodup_cons.mp hnd).1
            intro he
            exact this (he ▸ hkk)

theorem collectAttrs_eq (g : Graph) (s : Bytes)
    (hnd : (((predObjsOf g (.uri s)).filterMap attrRestore).map Prod.fst).Nodup) :
    collectAttrs g (.uri s) = (predObjsOf g (.uri s)).filterMap attrRestore := by
  rw [collectAttrs]
  have h := foldl_restore (predObjsOf g (.uri s)) [] hnd (by
    intro kk _ a ha
    simp at ha)
  exact h.trans (List.nil_append _)

theorem mapM_map {α β γ : Type} (l : List α) (g : α → β) (f : β → Except DecErr γ) :
    (l.map g).mapM f = l.mapM (fun a => f (g a)) := by
  induction l with
  | nil => rfl
  | cons a l ih => rw [List.map_cons, List.mapM_cons f, List.mapM_cons, ih]

theorem mapM_ok_pointwise {α γ : Type} (l : List α) (f : α → Except DecErr γ) (r : α → γ)
    (h : ∀ a ∈ l, f a = .ok (r a)) : l.mapM f = .ok (l.map r) := by
  induction l with
  | nil => rfl
  | cons a l ih =>
      rw [List.mapM_cons f, h a (List.mem_cons_self _ _),
        ih (fun x hx => h x (List.mem_cons_of_mem _ hx))]
      rfl

theorem mapM_okValue (G : Graph) (fuel : Nat) : ∀ (l : List (Int × Obj)),
    (∀ e ∈ l, ∃ r, buildElement G fuel e.2 = .ok r) →
    l.mapM (fun oc => buildElement G fuel oc.2) =
      .ok (l.map (fun oc => okValue (buildElement G fuel oc.2)))
  | [], _ => rfl
  | a :: l, h => by
      obtain ⟨r, hr⟩ := h a (List.mem_cons_self _ _)
      rw [List.mapM_cons _, hr,
        mapM_okValue G fuel l (fun x hx => h x (List.mem_cons_of_mem _ hx))]
      rw [List.map_cons, hr]
      rfl

theorem filterMap_skip_junk (F : (Int × Obj) → Option XNode) : ∀ (l : List (Int × Obj)),
    (∀ e ∈ l, isRealE e = false → F e = none) →
    l.filterMap F = (l.filter isRealE).filterMap F
  | [], _ => rfl
  | a :: l, h => by
      rw [List.filter_cons]
      by_cases hr : isRealE a = true
      · rw [if_pos hr, List.filterMap_cons, List.filterMap_cons]
        rw [filterMap_skip_junk F l (fun e he => h e (List.mem_cons_of_mem _ he))]
      · rw [if_neg (by simpa using hr)]
        rw [List.filterMap_cons, h a (List.mem_cons_self _ _) (Bool.eq_false_iff.mpr hr)]
        rw [filterMap_skip_junk F l (fun e he => h e (List.mem_cons_of_mem _ he))]

theorem filterMap_of_mapM_some (f : (Int × Obj) → Except DecErr (Option XNode)) :
    ∀ (l : List (Int × Obj)) (rs : List XNode),
    l.mapM f = .ok (rs.map some) →
    l.filterMap (fun e => okValue (f e)) = rs
  | [], rs, h => by
      have h2 : (.ok ([] : List (Option XNode)) : Except DecErr (List (Option XNode))) =
          .ok (rs.map some) := h
      have h3 : ([] : List (Option XNode)) = rs.map some := Except.ok.inj h2
      match rs with
      | [] => rfl
      | r0 :: rs2 => simp at h3
  | a :: l, rs, h => by
      rw [List.mapM_cons f] at h
      rcases hfa : f a with e | r <;> rw [hfa] at h
      · have hcontra : (Except.error e : Except DecErr (List (Option XNode))) =
            .ok (rs.map some) := h
        simp at hcontra
      · rcases hfl : l.mapM f with e2 | ls <;> rw [hfl] at h
        · have hcontra : (Except.error e2 : Except DecErr (List (Option XNode))) =
              .ok (rs.map some) := h
          simp at hcontra
        · have hconsEq : r :: ls = rs.map some := by
            have h2 : (.ok (r :: ls) : Except DecErr (List (Option XNode))) =
                .ok (rs.map some) := h
            exact Except.ok.inj h2
          match rs with
          | [] => simp at hconsEq
          | r0 :: rs2 =>
              rw [List.map_cons] at hconsEq
              have hr : r = some r0 := by
                have := congrArg (fun l => l.head?) hconsEq
                simpa using this
              have hls : ls = rs2.map some := by
                have := congrArg (fun l => l.tail) hconsEq
                simpa using this
              rw [List.filterMap_cons, hfa]
              rw [show okValue (.ok r) = r from rfl, hr]
              rw [filterMap_of_mapM_some f l rs2 (by rw [hfl, hls])]

/-! Query computations over an element's own subject view. -/

def tripleHasP (t : Triple) : Bool :=
  (iecNS ++ S ("has")).isPrefixOf t.2.1 && decide (t.2.1 ≠ iecNS ++ S ("hasPrivate"))

theorem hasPairsOf_subjView (g : Graph) (s : Bytes) :
    hasPairsOf g (.uri s) = ((subjView g s).filter tripleHasP).map (fun t => t.2) := by
  rw [hasPairsOf, predObjsOf_subjView]
  rw [List.filter_map]
  congr 1

theorem attrTriples_preds (u : Bytes) (attrs : List (Bytes × Bytes)) :
    ∀ t ∈ attrTriples u attrs, ∃ kv, kv ∈ attrs ∧ t.2.1 = attrPredOf kv.1 ∧
      t.2.2 = Obj.lit kv.2 := by
  intro t ht
  obtain ⟨kv, hkv, rfl⟩ := attrTriples_mem u attrs t ht
  exact ⟨kv, hkv, rfl, rfl⟩

theorem linksOf_predFilter_rdfType (cs : List XNode) (u : Bytes) (c : Nat) :
    predFilter (linksOf cs u c) rdfTypeP = [] := by
  apply predFilter_nil
  intro t ht
  rcases linksOf_mem cs u c t ht with ⟨tg, uu, rfl, _⟩ | ⟨uu, rfl⟩
  · exact iecApp_ne_rdfType _
  · exact privApp_ne_rdfType (S ("hasPrivate"))

theorem linksOf_predFilter_textContent (cs : List XNode) (u : Bytes) (c : Nat) :
    predFilter (linksOf cs u c) iecTextContentP = [] := by
  apply predFilter_nil
  intro t ht
  rcases linksOf_mem cs u c t ht with ⟨tg, uu, rfl, _⟩ | ⟨uu, rfl⟩
  · show iecNS ++ (S ("has") ++ tg) ≠ iecNS ++ S ("textContent")
    intro he
    have h2 := iec_cancel.mp he
    have h3 : (S ("has")).isPrefixOf (S ("textContent")) = true := by
      rw [← h2]
      exact isPrefixOf_append_self _ _
    revert h3
    decide
  · show privHasPrivateP ≠ iecTextContentP
    rw [privHasPrivateP, iecTextContentP]
    intro he
    exact iecApp_ne_privApp _ _ he.symm

theorem linksOf_predFilter_iecOrder (cs : List XNode) (u : Bytes) (c : Nat) :
    predFilter (linksOf cs u c) iecOrderP = [] := by
  apply predFilter_nil
  intro t ht
  rcases linksOf_mem cs u c t ht with ⟨tg, uu, rfl, _⟩ | ⟨uu, rfl⟩
  · show iecNS ++ (S ("has") ++ tg) ≠ iecNS ++ S ("order")
    intro he
    have h2 := iec_cancel.mp he
    have h3 : (S ("has")).isPrefixOf (S ("order")) = true := by
      rw [← h2]
      exact isPrefixOf_append_self _ _
    revert h3
    decide
  · show privHasPrivateP ≠ iecOrderP
    rw [privHasPrivateP, iecOrderP]
    intro he
    exact iecApp_ne_privApp _ _ he.symm

theorem attrTriples_predFilter_ne (u : Bytes) (attrs : List (Bytes × Bytes)) (p : Bytes)
    (h : ∀ kv ∈ attrs, attrPredOf kv.1 ≠ p) :
    predFilter (attrTriples u attrs) p = [] := by
  apply predFilter_nil
  intro t ht
  obtain ⟨kv, hkv, hpred, _⟩ := attrTriples_preds u attrs t ht
  rw [hpred]
  exact h kv hkv

theorem attrTriples_predFilter_iec_ne (u : Bytes) (attrs : List (Bytes × Bytes)) (m : Bytes)
    (hm : ∀ kv ∈ attrs, localName kv.1 ≠ m) :
    predFilter (attrTriples u attrs) (iecNS ++ m) = [] :=
  attrTriples_predFilter_ne u attrs _ (fun kv hkv =>
    attrPred_ne_of_localName rfl (hm kv hkv))

theorem attrTriples_predFilter_priv (u : Bytes) (attrs : List (Bytes × Bytes)) (m : Bytes) :
    predFilter (attrTriples u attrs) (privNS ++ m) = [] :=
  attrTriples_predFilter_ne u attrs _ (fun kv _ => by
    rw [attrPredOf_eq]
    exact iecApp_ne_privApp _ _)

theorem attrTriples_predFilter_rdfType (u : Bytes) (attrs : List (Bytes × Bytes)) :
    predFilter (attrTriples u attrs) rdfTypeP = [] :=
  attrTriples_predFilter_ne u attrs _ (fun kv _ => by
    rw [attrPredOf_eq]
    exact iecApp_ne_rdfType _)

theorem textTriples_predFilter_ne (u : Bytes) (text : Bytes) (p : Bytes)
    (h : iecTextContentP ≠ p) : predFilter (textTriples u text) p = [] := by
  apply predFilter_nil
  intro t ht
  have := textTriples_mem u text t ht
  subst this
  exact h

theorem ownV_rdfType (u tg : Bytes) (o1 : Obj) (attrs : List (Bytes × Bytes))
    (text : Bytes) (cs : List XNode) (c2 : Nat) :
    predFilter ([(u, iecOrderP, o1), (u, rdfTypeP, Obj.uri (iecNS ++ tg))] ++
      attrTriples u attrs ++ textTriples u text ++ linksOf cs u c2) rdfTypeP =
      [Obj.uri (iecNS ++ tg)] := by
  rw [predFilter_append, predFilter_append, predFilter_append]
  rw [predFilter_cons_miss _ _ _ (by rw [iecOrderP]; exact iecApp_ne_rdfType _)]
  rw [predFilter_cons_match _ _ _ rfl]
  rw [attrTriples_predFilter_rdfType]
  rw [textTriples_predFilter_ne _ _ _ (by rw [iecTextContentP]; exact iecApp_ne_rdfType _)]
  rw [linksOf_predFilter_rdfType]
  rfl

theorem linksOf_predFilter_privHas : ∀ (cs : List XNode) (u : Bytes) (c : Nat),
    commentFreeL cs = true →
    predFilter (linksOf cs u c) privHasPrivateP = privLinkObjs cs u c
  | [], u, c, _ => rfl
  | .comment s :: cs, u, c, hcf => by
      rw [commentFreeL, commentFree] at hcf
      simp at hcf
  | .elem tag attrs text cs0 :: cs, u, c, hcf => by
      rw [commentFreeL, Bool.and_eq_true] at hcf
      rw [show linksOf (.elem tag attrs text cs0 :: cs) u c =
        linkOf (.elem tag attrs text cs0) u c ++
          linksOf cs u (c + w (.elem tag attrs text cs0)) from rfl]
      rw [predFilter_append,
        linksOf_predFilter_privHas cs u (c + w (.elem tag attrs text cs0)) hcf.2]
      rw [linkOf_elem]
      by_cases hp : tag = S ("Private")
      · rw [if_pos hp]
        rw [predFilter_cons_match _ _ _ rfl]
        rw [show privLinkObjs (.elem tag attrs text cs0 :: cs) u c =
          (if tag = S ("Private") then
            [Obj.uri (nodeUri (.elem tag attrs text cs0) (some u) c)] else []) ++
          privLinkObjs cs u (c + w (.elem tag attrs text cs0)) from rfl]
        rw [if_pos hp]
        rfl
      · rw [if_neg hp]
        rw [predFilter_cons_miss _ _ _ (by
          show iecNS ++ (S ("has") ++ tag) ≠ privHasPrivateP
          rw [privHasPrivateP]
          exact iecApp_ne_privApp _ _)]
        rw [show privLinkObjs (.elem tag attrs text cs0 :: cs) u c =
          (if tag = S ("Private") then
            [Obj.uri (nodeUri (.elem tag attrs text cs0) (some u) c)] else []) ++
          privLinkObjs cs u (c + w (.elem tag attrs text cs0)) from rfl]
        rw [if_neg hp]
        rfl

theorem ownV_privHas (u tg : Bytes) (o1 : Obj) (attrs : List (Bytes × Bytes))
    (text : Bytes) (cs : List XNode) (c2 : Nat) (hcf : commentFreeL cs = true) :
    predFilter ([(u, iecOrderP, o1), (u, rdfTypeP, Obj.uri (iecNS ++ tg))] ++
      attrTriples u attrs ++ textTriples u text ++ linksOf cs u c2) privHasPrivateP =
      privLinkObjs cs u c2 := by
  rw [predFilter_append, predFilter_append, predFilter_append]
  rw [predFilter_cons_miss _ _ _ (by rw [iecOrderP, privHasPrivateP]; exact iecApp_ne_privApp _ _)]
  rw [predFilter_cons_miss _ _ _ (by rw [privHasPrivateP]; exact privApp_ne_rdfType _ ∘ Eq.symm)]
  rw [attrTriples_predFilter_ne _ _ _ (fun kv _ => by
    rw [attrPredOf_eq, privHasPrivateP]
    exact iecApp_ne_privApp _ _)]
  rw [textTriples_predFilter_ne _ _ _ (by
    rw [iecTextContentP, privHasPrivateP]
    exact iecApp_ne_privApp _ _)]
  rw [linksOf_predFilter_privHas cs u c2 hcf]
  rfl


theorem predFilter_all_match (v : List Triple) (p : Bytes) (h : ∀ t ∈ v, t.2.1 = p) :
    predFilter v p = v.map (fun t => t.2.2) := by
  rw [predFilter]
  rw [List.filter_eq_self.mpr (fun t ht => by simp [h t ht])]

theorem tripleHasP_tuple (s p : Bytes) (o : Obj) :
    tripleHasP (s, p, o) =
      ((iecNS ++ S ("has")).isPrefixOf p && decide (p ≠ iecNS ++ S ("hasPrivate"))) := rfl

theorem attrTriples_predFilter_textContent (u : Bytes) (attrs : List (Bytes × Bytes))
    (h : ∀ kv ∈ attrs, attrKeyOK kv.1 = true) :
    predFilter (attrTriples u attrs) iecTextContentP = [] :=
  attrTriples_predFilter_ne u attrs _ (fun kv hkv => by
    rw [attrPredOf_eq, show iecTextContentP = iecNS ++ S ("textContent") from rfl]
    intro he
    exact localName_ne_textContent kv.1 (h kv hkv) (iec_cancel.mp he))

theorem ownV_textContent (u tg : Bytes) (o1 : Obj) (attrs : List (Bytes × Bytes))
    (text : Bytes) (cs : List XNode) (c2 : Nat)
    (hattrs : attrs.all (fun kv => attrKeyOK kv.1) = true) :
    predFilter ([(u, iecOrderP, o1), (u, rdfTypeP, Obj.uri (iecNS ++ tg))] ++
      attrTriples u attrs ++ textTriples u text ++ linksOf cs u c2) iecTextContentP =
      (textTriples u text).map (fun t => t.2.2) := by
  rw [predFilter_append, predFilter_append, predFilter_append]
  rw [predFilter_cons_miss _ _ _ (by
    rw [iecOrderP, iecTextContentP]
    intro he
    have h2 := iec_cancel.mp he
    revert h2
    decide)]
  rw [predFilter_cons_miss _ _ _ (by
    rw [iecTextContentP]
    exact iecApp_ne_rdfType _ ∘ Eq.symm)]
  rw [List.all_eq_true] at hattrs
  rw [attrTriples_predFilter_textContent u attrs hattrs]
  rw [predFilter_all_match (textTriples u text) _ (fun t ht => by
    have := textTriples_mem u text t ht
    subst this
    rfl)]
  rw [linksOf_predFilter_textContent]
  rw [show predFilter [] iecTextContentP = [] from rfl]
  simp

theorem tripleHasP_attr (u : Bytes) (kv : Bytes × Bytes) :
    tripleHasP (u, attrPredOf kv.1, Obj.lit kv.2) = junkKeyB kv := by
  rw [tripleHasP_tuple, junkKeyB, attrPredOf_eq, localName]
  by_cases hh : kv.1.head? = some 123
  · rw [if_pos hh]
    rw [iecHasPrefix_eq, has_not_prefix_attr, not_has_prefix_of_head123 hh]
    simp
  · rw [if_neg hh]
    rw [iecHasPrefix_eq]
    congr 1
    exact decide_eq_decide.mpr (not_congr iec_cancel)

theorem attrTriples_hasFilter : ∀ (attrs : List (Bytes × Bytes)) (u : Bytes),
    ((attrTriples u attrs).filter tripleHasP).map (fun t => t.2.2) =
      (attrs.filter junkKeyB).map (fun kv => Obj.lit kv.2)
  | [], u => rfl
  | kv :: attrs, u => by
      rw [show attrTriples u (kv :: attrs) =
        (u, attrPredOf kv.1, Obj.lit kv.2) :: attrTriples u attrs from rfl]
      rw [List.filter_cons, List.filter_cons, tripleHasP_attr]
      by_cases hj : junkKeyB kv = true
      · rw [if_pos hj, if_pos hj, List.map_cons, List.map_cons,
          attrTriples_hasFilter attrs u]
      · rw [if_neg (by simpa using hj), if_neg (by simpa using hj),
          attrTriples_hasFilter attrs u]

theorem hasPrivate_split : S ("hasPrivate") = S ("has") ++ S ("Private") := by decide

theorem linksOf_hasFilter : ∀ (cs : List XNode) (u : Bytes) (c : Nat),
    commentFreeL cs = true →
    ((linksOf cs u c).filter tripleHasP).map (fun t => t.2.2) = regLinkObjs cs u c
  | [], u, c, _ => rfl
  | .comment s :: cs, u, c, hcf => by
      rw [commentFreeL, commentFree] at hcf
      simp at hcf
  | .elem tag attrs text cs0 :: cs, u, c, hcf => by
      rw [commentFreeL, Bool.and_eq_true] at hcf
      rw [show linksOf (.elem tag attrs text cs0 :: cs) u c =
        linkOf (.elem tag attrs text cs0) u c ++
          linksOf cs u (c + w (.elem tag attrs text cs0)) from rfl]
      rw [List.filter_append, List.map_append,
        linksOf_hasFilter cs u (c + w (.elem tag attrs text cs0)) hcf.2]
      rw [linkOf_elem]
      rw [show regLinkObjs (.elem tag attrs text cs0 :: cs) u c =
        (if tag = S ("Private") then [] else
          [Obj.uri (nodeUri (.elem tag attrs text cs0) (some u) c)]) ++
        regLinkObjs cs u (c + w (.elem tag attrs text cs0)) from rfl]
      by_cases hp : tag = S ("Private")
      · rw [if_pos hp, if_pos hp]
        rw [List.filter_cons, if_neg ?privmiss]
        · rfl
        case privmiss =>
          rw [tripleHasP_tuple, privHasPrivateP, iecHas_not_prefix_privApp]
          simp
      · rw [if_neg hp, if_neg hp]
        rw [List.filter_cons, if_pos ?regmatch]
        · rfl
        case regmatch =>
          rw [tripleHasP_tuple, isPrefixOf_append_self]
          have hne : iecNS ++ S ("has") ++ tag ≠ iecNS ++ S ("hasPrivate") := by
            rw [List.append_assoc]
            intro he
            have h2 := iec_cancel.mp he
            rw [hasPrivate_split] at h2
            have hd := congrArg (fun l => l.drop (S ("has")).length) h2
            simp only [List.drop_left] at hd
            exact hp hd
          have hne2 : ¬ S ("has") ++ tag = S ("hasPrivate") := by
            intro he
            rw [hasPrivate_split] at he
            have hd := congrArg (fun l => l.drop (S ("has")).length) he
            simp only [List.drop_left] at hd
            exact hp hd
          simp [hne, hne2]

theorem ownV_hasObjs (u tg : Bytes) (o1 : Obj) (attrs : List (Bytes × Bytes))
    (text : Bytes) (cs : List XNode) (c2 : Nat) (hcf : commentFreeL cs = true) :
    (([(u, iecOrderP, o1), (u, rdfTypeP, Obj.uri (iecNS ++ tg))] ++
      attrTriples u attrs ++ textTriples u text ++
      linksOf cs u c2).filter tripleHasP).map (fun t => t.2.2) =
      (attrs.filter junkKeyB).map (fun kv => Obj.lit kv.2) ++ regLinkObjs cs u c2 := by
  rw [List.filter_append, List.filter_append, List.filter_append]
  rw [List.map_append, List.map_append, List.map_append]
  rw [List.filter_cons, if_neg ?miss1, List.filter_cons, if_neg ?miss2]
  · rw [attrTriples_hasFilter]
    rw [show ((textTriples u text).filter tripleHasP) = [] from ?textmiss]
    rw [linksOf_hasFilter cs u c2 hcf]
    · simp
    case textmiss =>
      rw [List.filter_eq_nil_iff]
      intro t ht
      have := textTriples_mem u text t ht
      subst this
      rw [tripleHasP_tuple, iecTextContentP, iecHasPrefix_eq]
      decide
  case miss1 =>
    rw [tripleHasP_tuple, iecOrderP, iecHasPrefix_eq]
    decide
  case miss2 =>
    rw [tripleHasP_tuple, iecHas_not_prefix_rdfType]
    simp

theorem priv_cancel {x y : Bytes} : privNS ++ x = privNS ++ y ↔ x = y := by
  rw [List.append_cancel_left_eq]

theorem attrRestore_reglink2 (tg : Bytes) (o : Obj) :
    attrRestore (iecNS ++ S ("has") ++ tg, o) = none := by
  rw [attrRestore]
  rw [if_pos ?c]
  case c =>
    show (iecNS ++ S ("has")).isPrefixOf (iecNS ++ S ("has") ++ tg) = true
    exact isPrefixOf_append_self _ _

theorem attrs_restore : ∀ (attrs : List (Bytes × Bytes)) (u : Bytes),
    (∀ kv ∈ attrs, attrKeyOK kv.1 = true) →
    ((attrTriples u attrs).map (fun t => t.2)).filterMap attrRestore = attrs.filter keepAttrB
  | [], u, _ => rfl
  | ⟨k, v⟩ :: attrs, u, h => by
      have hstep : attrRestore (attrPredOf k, Obj.lit v) =
          if keepAttrB (k, v) = true then some (k, v) else none :=
        attrRestore_attrTriple k v (h ⟨k, v⟩ (List.mem_cons_self _ _))
      rw [show (attrTriples u (⟨k, v⟩ :: attrs)).map (fun t => t.2) =
        (attrPredOf k, Obj.lit v) :: (attrTriples u attrs).map (fun t => t.2) from rfl]
      rw [List.filter_cons]
      by_cases hk : keepAttrB (k, v) = true
      · rw [List.filterMap_cons_some (by rw [hstep, if_pos hk]), if_pos hk]
        rw [attrs_restore attrs u (fun x hx => h x (List.mem_cons_of_mem _ hx))]
      · rw [List.filterMap_cons_none (by rw [hstep, if_neg hk]), if_neg hk]
        rw [attrs_restore attrs u (fun x hx => h x (List.mem_cons_of_mem _ hx))]

theorem links_restore : ∀ (cs : List XNode) (u : Bytes) (c : Nat),
    commentFreeL cs = true →
    ((linksOf cs u c).map (fun t => t.2)).filterMap attrRestore = []
  | [], u, c, _ => rfl
  | .comment s :: cs, u, c, hcf => by
      rw [commentFreeL, commentFree] at hcf
      simp at hcf
  | .elem tag attrs text cs0 :: cs, u, c, hcf => by
      rw [commentFreeL, Bool.and_eq_true] at hcf
      rw [show linksOf (.elem tag attrs text cs0 :: cs) u c =
        linkOf (.elem tag attrs text cs0) u c ++
          linksOf cs u (c + w (.elem tag attrs text cs0)) from rfl]
      rw [List.map_append, List.filterMap_append,
        links_restore cs u (c + w (.elem tag attrs text cs0)) hcf.2]
      rw [linkOf_elem]
      by_cases hp : tag = S ("Private")
      · rw [if_pos hp]
        rw [show ([(u, privHasPrivateP,
            Obj.uri (nodeUri (.elem tag attrs text cs0) (some u) c))].map
            (fun t => t.2)) = [(privHasPrivateP,
            Obj.uri (nodeUri (.elem tag attrs text cs0) (some u) c))] from rfl]
        rw [List.filterMap_cons_none (attrRestore_privlink _)]
        rfl
      · rw [if_neg hp]
        rw [show ([(u, iecNS ++ S ("has") ++ tag,
            Obj.uri (nodeUri (.elem tag attrs text cs0) (some u) c))].map
            (fun t => t.2)) = [(iecNS ++ S ("has") ++ tag,
            Obj.uri (nodeUri (.elem tag attrs text cs0) (some u) c))] from rfl]
        rw [List.filterMap_cons_none (attrRestore_reglink2 _ _)]
        rfl

theorem ownV_restore (u : Bytes) (o1 o2 : Obj) (attrs : List (Bytes × Bytes))
    (text : Bytes) (cs : List XNode) (c2 : Nat)
    (hattrs : ∀ kv ∈ attrs, attrKeyOK kv.1 = true) (hcf : commentFreeL cs = true) :
    (([(u, iecOrderP, o1), (u, rdfTypeP, o2)] ++ attrTriples u attrs ++
      textTriples u text ++ linksOf cs u c2).map (fun t => t.2)).filterMap attrRestore =
      attrs.filter keepAttrB := by
  rw [List.map_append, List.map_append, List.map_append,
    List.filterMap_append, List.filterMap_append, List.filterMap_append]
  rw [show (([(u, iecOrderP, o1), (u, rdfTypeP, o2)] : List Triple).map
      (fun t => t.2)) = [(iecOrderP, o1), (rdfTypeP, o2)] from rfl]
  rw [List.filterMap_cons_none (attrRestore_order o1),
    List.filterMap_cons_none (attrRestore_type o2)]
  rw [attrs_restore attrs u hattrs]
  rw [links_restore cs u c2 hcf]
  rw [show ((textTriples u text).map (fun t => t.2)).filterMap attrRestore = [] from ?tc]
  · simp
  case tc =>
    rw [textTriples]
    by_cases ht : text ≠ [] ∧ pyStrip text ≠ []
    · rw [if_pos ht]
      rw [show ([(u, iecTextContentP, Obj.lit (pyStrip text))].map (fun t => t.2)) =
        [(iecTextContentP, Obj.lit (pyStrip text))] from rfl]
      rw [List.filterMap_cons_none (attrRestore_text _)]
      rfl
    · rw [if_neg ht]
      rfl

theorem privTypeTriples_predFilter_ne (u : Bytes) (o : Option Bytes) (p : Bytes)
    (h : privTypeP ≠ p) : predFilter (privTypeTriples u o) p = [] := by
  apply predFilter_nil
  intro t ht
  obtain ⟨t0, rfl⟩ := privTypeTriples_mem u o t ht
  exact h

theorem privOwnV_rdfType (u : Bytes) (c2 : Nat) (payload : Bytes) (o : Option Bytes) :
    predFilter ([(u, rdfTypeP, Obj.uri privPrivateSectionU),
      (u, privOrderP, Obj.litNat c2), (u, privXmlContentP, Obj.lit payload)] ++
      privTypeTriples u o) rdfTypeP = [Obj.uri privPrivateSectionU] := by
  rw [predFilter_append]
  rw [predFilter_cons_match _ _ _ rfl]
  rw [predFilter_cons_miss _ _ _ (by rw [privOrderP]; exact privApp_ne_rdfType _)]
  rw [predFilter_cons_miss _ _ _ (by rw [privXmlContentP]; exact privApp_ne_rdfType _)]
  rw [privTypeTriples_predFilter_ne _ _ _ (by rw [privTypeP]; exact privApp_ne_rdfType _)]
  rfl

theorem privOwnV_xml (u : Bytes) (c2 : Nat) (payload : Bytes) (o : Option Bytes) :
    predFilter ([(u, rdfTypeP, Obj.uri privPrivateSectionU),
      (u, privOrderP, Obj.litNat c2), (u, privXmlContentP, Obj.lit payload)] ++
      privTypeTriples u o) privXmlContentP = [Obj.lit payload] := by
  rw [predFilter_append]
  rw [predFilter_cons_miss _ _ _ (by
    rw [privXmlContentP]
    exact fun he => privApp_ne_rdfType _ he.symm)]
  rw [predFilter_cons_miss _ _ _ (by
    rw [privOrderP, privXmlContentP]
    intro he
    have := priv_cancel.mp he
    revert this
    decide)]
  rw [predFilter_cons_match _ _ _ rfl]
  rw [privTypeTriples_predFilter_ne _ _ _ (by
    rw [privTypeP, privXmlContentP]
    intro he
    have := priv_cancel.mp he
    revert this
    decide)]
  rfl

theorem privOwnV_iecOrder (u : Bytes) (c2 : Nat) (payload : Bytes) (o : Option Bytes) :
    predFilter ([(u, rdfTypeP, Obj.uri privPrivateSectionU),
      (u, privOrderP, Obj.litNat c2), (u, privXmlContentP, Obj.lit payload)] ++
      privTypeTriples u o) iecOrderP = [] := by
  rw [predFilter_append]
  rw [predFilter_cons_miss _ _ _ (by
    rw [iecOrderP]
    exact fun he => iecApp_ne_rdfType _ he.symm)]
  rw [predFilter_cons_miss _ _ _ (by
    rw [privOrderP, iecOrderP]
    exact fun he => iecApp_ne_privApp _ _ he.symm)]
  rw [predFilter_cons_miss _ _ _ (by
    rw [privXmlContentP, iecOrderP]
    exact fun he => iecApp_ne_privApp _ _ he.symm)]
  rw [privTypeTriples_predFilter_ne _ _ _ (by
    rw [privTypeP, iecOrderP]
    exact fun he => iecApp_ne_privApp _ _ he.symm)]
  rfl

theorem privOwnV_privOrder (u : Bytes) (c2 : Nat) (payload : Bytes) (o : Option Bytes) :
    predFilter ([(u, rdfTypeP, Obj.uri privPrivateSectionU),
      (u, privOrderP, Obj.litNat c2), (u, privXmlContentP, Obj.lit payload)] ++
      privTypeTriples u o) privOrderP = [Obj.litNat c2] := by
  rw [predFilter_append]
  rw [predFilter_cons_miss _ _ _ (by
    rw [privOrderP]
    exact fun he => privApp_ne_rdfType _ he.symm)]
  rw [predFilter_cons_match _ _ _ rfl]
  rw [predFilter_cons_miss _ _ _ (by
    rw [privXmlContentP, privOrderP]
    intro he
    have := priv_cancel.mp he
    revert this
    decide)]
  rw [privTypeTriples_predFilter_ne _ _ _ (by
    rw [privTypeP, privOrderP]
    intro he
    have := priv_cancel.mp he
    revert this
    decide)]
  rfl

/-! Sorting the collected child entries reproduces document order. -/

theorem childEntries_bounds : ∀ (cs : List XNode) (u : Bytes) (c : Nat),
    commentFreeL cs = true →
    ∀ e ∈ childEntries cs u c, (c : Int) + 2 ≤ e.1 ∧ e.1 ≤ (c : Int) + (wL cs : Int)
  | [], u, c, _, e, he => by simp [childEntries] at he
  | .comment s :: cs, u, c, hcf, e, he => by
      rw [commentFreeL, commentFree] at hcf
      simp at hcf
  | .elem tag attrs text cs0 :: cs, u, c, hcf, e, he => by
      rw [commentFreeL, Bool.and_eq_true] at hcf
      rw [show childEntries (.elem tag attrs text cs0 :: cs) u c =
        (((c + 2 : Nat) : Int), Obj.uri (nodeUri (.elem tag attrs text cs0) (some u) c)) ::
          childEntries cs u (c + w (.elem tag attrs text cs0)) from rfl] at he
      have hw2 := two_le_w tag attrs text cs0
      have hwl : wL (.elem tag attrs text cs0 :: cs) =
          w (.elem tag attrs text cs0) + wL cs := rfl
      rcases List.mem_cons.mp he with rfl | he2
      · constructor
        · simp
        · rw [hwl]
          push_cast
          omega
      · obtain ⟨h1, h2⟩ := childEntries_bounds cs u (c + w (.elem tag attrs text cs0))
          hcf.2 e he2
      
        rw [hwl]
        push_cast at h1 h2 ⊢
        omega

theorem childEntries_sorted : ∀ (cs : List XNode) (u : Bytes) (c : Nat),
    commentFreeL cs = true →
    (childEntries cs u c).Pairwise (fun a b => a.1 < b.1)
  | [], u, c, _ => List.Pairwise.nil
  | .comment s :: cs, u, c, hcf => by
      rw [commentFreeL, commentFree] at hcf
      simp at hcf
  | .elem tag attrs text cs0 :: cs, u, c, hcf => by
      rw [commentFreeL, Bool.and_eq_true] at hcf
      rw [show childEntries (.elem tag attrs text cs0 :: cs) u c =
        (((c + 2 : Nat) : Int), Obj.uri (nodeUri (.elem tag attrs text cs0) (some u) c)) ::
          childEntries cs u (c + w (.elem tag attrs text cs0)) from rfl]
      refine List.Pairwise.cons ?hd (childEntries_sorted cs u _ hcf.2)
      intro e he
      have hb := (childEntries_bounds cs u (c + w (.elem tag attrs text cs0)) hcf.2 e he).1
      have hw2 := two_le_w tag attrs text cs0
      show ((c + 2 : Nat) : Int) < e.1
      push_cast at hb ⊢
      omega

theorem childEntries_real (cs : List XNode) (u : Bytes) (c : Nat)
    (hcf : commentFreeL cs = true) :
    ∀ e ∈ childEntries cs u c, isRealE e = true := by
  intro e he
  have hb := (childEntries_bounds cs u c hcf e he).1
  rw [isRealE]
  simp only [decide_eq_true_eq]
  omega

theorem reg_priv_perm : ∀ (cs : List XNode) (u : Bytes) (c : Nat),
    commentFreeL cs = true →
    (regEntries cs u c ++ privEntries cs u c).Perm (childEntries cs u c)
  | [], u, c, _ => by simp [regEntries, privEntries, childEntries]
  | .comment s :: cs, u, c, hcf => by
      rw [commentFreeL, commentFree] at hcf
      simp at hcf
  | .elem tag attrs text cs0 :: cs, u, c, hcf => by
      rw [commentFreeL, Bool.and_eq_true] at hcf
      have ih := reg_priv_perm cs u (c + w (.elem tag attrs text cs0)) hcf.2
      rw [show regEntries (.elem tag attrs text cs0 :: cs) u c =
        (if tag = S ("Private") then [] else
          [(((c + 2 : Nat) : Int),
            Obj.uri (nodeUri (.elem tag attrs text cs0) (some u) c))]) ++
        regEntries cs u (c + w (.elem tag attrs text cs0)) from rfl]
      rw [show privEntries (.elem tag attrs text cs0 :: cs) u c =
        (if tag = S ("Private") then
          [(((c + 2 : Nat) : Int),
            Obj.uri (nodeUri (.elem tag attrs text cs0) (some u) c))] else []) ++
        privEntries cs u (c + w (.elem tag attrs text cs0)) from rfl]
      rw [show childEntries (.elem tag attrs text cs0 :: cs) u c =
        (((c + 2 : Nat) : Int), Obj.uri (nodeUri (.elem tag attrs text cs0) (some u) c)) ::
          childEntries cs u (c + w (.elem tag attrs text cs0)) from rfl]
      by_cases hp : tag = S ("Private")
      · rw [if_pos hp, if_pos hp]
        exact List.Perm.trans List.perm_middle (ih.cons _)
      · rw [if_neg hp, if_neg hp]
        exact ih.cons _

theorem junkEntries_mem (attrs : List (Bytes × Bytes)) :
    ∀ e ∈ junkEntries attrs, e.1 = 0 ∧ ∃ v, e.2 = Obj.lit v := by
  intro e he
  rw [junkEntries] at he
  obtain ⟨kv, _, rfl⟩ := List.mem_map.mp he
  exact ⟨rfl, kv.2, rfl⟩

theorem sorted_perm_eq : ∀ (l m : List (Int × Obj)), l.Perm m →
    l.Pairwise (fun a b => a.1 ≤ b.1) → m.Pairwise (fun a b => a.1 < b.1) → l = m := by
  intro l m hp hl hm
  have hmkeys : (m.map Prod.fst).Pairwise (fun a b : Int => a < b) := by
    rw [List.pairwise_map]
    exact hm
  have hlkeys : (l.map Prod.fst).Nodup := by
    refine (hp.map Prod.fst).nodup_iff.mpr ?nd
    exact hmkeys.imp (fun h => ne_of_lt h)
  have hlne : l.Pairwise (fun a b : Int × Obj => a.1 ≠ b.1) := by
    rw [← List.pairwise_map (f := Prod.fst)]
    exact hlkeys
  have hl2 : l.Pairwise (fun a b : Int × Obj => a.1 < b.1) :=
    (hl.and hlne).imp (fun h => lt_of_le_of_ne h.1 h.2)
  haveI : IsAntisymm (Int × Obj) (fun a b => a.1 < b.1) :=
    ⟨fun a b h1 h2 => absurd h2 (lt_asymm h1)⟩
  exact List.eq_of_perm_of_sorted hp hl2 hm

theorem insertionSort_of_perm_childEntries (cs : List XNode) (u : Bytes) (c : Nat)
    (hcf : commentFreeL cs = true) (l : List (Int × Obj))
    (hp : l.Perm (childEntries cs u c)) :
    List.insertionSort (fun a b => a.1 ≤ b.1) l = childEntries cs u c := by
  haveI : IsTotal (Int × Obj) (fun a b => a.1 ≤ b.1) := ⟨fun a b => le_total a.1 b.1⟩
  haveI : IsTrans (Int × Obj) (fun a b => a.1 ≤ b.1) := ⟨fun a b c h1 h2 => le_trans h1 h2⟩
  apply sorted_perm_eq
  · exact (List.perm_insertionSort _ l).trans hp
  · exact List.sorted_insertionSort _ l
  · exact childEntries_sorted cs u c hcf

theorem sort_filter_children (G : Graph) (attrs : List (Bytes × Bytes)) (cs : List XNode)
    (u : Bytes) (c2 : Nat) (hcf : commentFreeL cs = true) :
    (List.insertionSort (fun a b => a.1 ≤ b.1)
      ((junkEntries attrs ++ regEntries cs u c2) ++ privEntries cs u c2)).filter isRealE =
      childEntries cs u c2 := by
  haveI : IsTotal (Int × Obj) (fun a b => a.1 ≤ b.1) := ⟨fun a b => le_total a.1 b.1⟩
  haveI : IsTrans (Int × Obj) (fun a b => a.1 ≤ b.1) := ⟨fun a b c h1 h2 => le_trans h1 h2⟩
  have hLfilter : ((junkEntries attrs ++ regEntries cs u c2) ++
      privEntries cs u c2).filter isRealE = regEntries cs u c2 ++ privEntries cs u c2 := by
    rw [List.filter_append, List.filter_append]
    rw [List.filter_eq_nil_iff.mpr (fun e he => by
      have h0 := (junkEntries_mem attrs e he).1
      rw [isRealE, h0]
      simp)]
    rw [List.filter_eq_self.mpr (fun e he =>
      childEntries_real cs u c2 hcf e
        ((reg_priv_perm cs u c2 hcf).mem_iff.mp (List.mem_append_left _ he)))]
    rw [List.filter_eq_self.mpr (fun e he =>
      childEntries_real cs u c2 hcf e
        ((reg_priv_perm cs u c2 hcf).mem_iff.mp (List.mem_append_right _ he)))]
    simp
  apply sorted_perm_eq
  · refine ((List.perm_insertionSort _ _).filter isRealE).trans ?rest
    rw [hLfilter]
    exact reg_priv_perm cs u c2 hcf
  · exact (List.sorted_insertionSort _ _).sublist (List.filter_sublist _)
  · exact childEntries_sorted cs u c2 hcf

theorem junk_entry_builds (G : Graph) (fuel : Nat) (attrs : List (Bytes × Bytes)) :
    ∀ e ∈ junkEntries attrs, buildElement G (fuel + 1) e.2 = .ok none := by
  intro e he
  obtain ⟨_, v, hv⟩ := junkEntries_mem attrs e he
  rw [hv, buildElement_lit]

/-! View transfer: inside the emitted region, each subtree only sees its
own triples. -/

theorem stamp_disjoint {s : Bytes} {a1 b1 a2 b2 : Nat}
    (h1 : ∃ k, a1 < k ∧ k ≤ b1 ∧ stampOf s = some k)
    (h2 : ∃ k, a2 < k ∧ k ≤ b2 ∧ stampOf s = some k)
    (hd : b1 ≤ a2) : False := by
  obtain ⟨k1, hk1, hk2, hk3⟩ := h1
  obtain ⟨k2, hl1, hl2, hl3⟩ := h2
  rw [hk3] at hl3
  have he : k1 = k2 := Option.some_inj.mp hl3
  omega

theorem emitL_view_head (n : XNode) (cs : List XNode) (u : Bytes) (c : Nat) (s : Bytes)
    (hs : s ∈ subUris n (some u) c) :
    subjView (emitL (n :: cs) u c) s = subjView (emit n (some u) c) s := by
  rw [emitL_cons, subjView_append]
  rw [emitL_subjView_nil cs u (c + w n) s ?notmem ?neu]
  · simp
  case notmem =>
    intro hmem
    exact stamp_disjoint (subUris_stamps n u c s hs)
      (subUrisL_stamps cs u (c + w n) s hmem) (le_refl _)
  case neu =>
    intro he
    subst he
    exact parent_not_mem_subUris n s c hs

theorem emitL_view_tail (n : XNode) (cs : List XNode) (u : Bytes) (c : Nat) (s : Bytes)
    (hs : s ∈ subUrisL cs u (c + w n)) :
    subjView (emitL (n :: cs) u c) s = subjView (emitL cs u (c + w n)) s := by
  rw [emitL_cons, subjView_append]
  rw [emit_subjView_nil n u c s ?notmem ?neu]
  · simp
  case notmem =>
    intro hmem
    exact stamp_disjoint (subUris_stamps n u c s hmem)
      (subUrisL_stamps cs u (c + w n) s hs) (le_refl _)
  case neu =>
    intro he
    subst he
    exact parent_not_mem_subUrisL cs s (c + w n) hs

theorem emit_view_children (tag : Bytes) (attrs : List (Bytes × Bytes)) (text : Bytes)
    (cs : List XNode) (pu : Option Bytes) (c : Nat) (s : Bytes) (hp : tag ≠ S ("Private"))
    (hs : s ∈ subUrisL cs (nodeUri (.elem tag attrs text cs) pu c) (c + 2)) :
    subjView (emit (.elem tag attrs text cs) pu c) s =
      subjView (emitL cs (nodeUri (.elem tag attrs text cs) pu c) (c + 2)) s := by
  have hlen := subUrisL_length cs (nodeUri (.elem tag attrs text cs) pu c) (c + 2) s hs
  have hsneu : s ≠ nodeUri (.elem tag attrs text cs) pu c := by
    intro he
    rw [he] at hlen
    omega
  rw [emit_elem_def, if_neg hp]
  rw [subjView_append, subjView_append, subjView_append, subjView_append]
  rw [subjView_eq_nil _ s (by
    intro t ht
    simp only [List.mem_cons, List.not_mem_nil, or_false] at ht
    rcases ht with rfl | rfl <;> exact fun he => hsneu he.symm)]
  rw [subjView_eq_nil (parentLink pu _ _) s (by
    intro t ht
    obtain ⟨p, hpe, rfl⟩ := parentLink_mem _ _ _ t ht
    subst hpe
    show p ≠ s
    intro he
    subst he
    have hplen := nodeUri_length tag attrs text cs p c
    omega)]
  rw [subjView_eq_nil (attrTriples _ _) s (by
    intro t ht
    obtain ⟨kv, _, rfl⟩ := attrTriples_mem _ _ t ht
    exact fun he => hsneu he.symm)]
  rw [subjView_eq_nil (textTriples _ _) s (by
    intro t ht
    have := textTriples_mem _ _ t ht
    subst this
    exact fun he => hsneu he.symm)]
  simp

theorem head?_append_append (x : Obj) (b c d : List Obj) :
    ((([x] ++ b) ++ c) ++ d).head? = some x := rfl

theorem getOrder_child_reg (G : Graph) (tag : Bytes) (attrs : List (Bytes × Bytes))
    (text : Bytes) (cs0 : List XNode) (u : Bytes) (c : Nat) (hp : tag ≠ S ("Private"))
    (hV : subjView G (nodeUri (.elem tag attrs text cs0) (some u) c) =
      subjView (emit (.elem tag attrs text cs0) (some u) c)
        (nodeUri (.elem tag attrs text cs0) (some u) c)) :
    getElementOrder G (Obj.uri (nodeUri (.elem tag attrs text cs0) (some u) c)) =
      .ok ((c + 2 : Nat) : Int) := by
  have hval : valueOf G (Obj.uri (nodeUri (.elem tag attrs text cs0) (some u) c)) iecOrderP =
      some (Obj.litNat (c + 2)) := by
    rw [valueOf, objectsOf_predFilter, hV, emit_own_view tag attrs text cs0 (some u) c hp]
    rw [predFilter_append, predFilter_append, predFilter_append]
    rw [predFilter_cons_match _ _ _ rfl]
    rw [predFilter_cons_miss _ _ _ (by
      rw [iecOrderP]
      exact iecApp_ne_rdfType _ ∘ Eq.symm)]
    rw [show predFilter ([] : List Triple) iecOrderP = [] from rfl]
    exact head?_append_append _ _ _ _
  rw [getElementOrder, hval]
  have htr : truthyO (Obj.litNat (c + 2)) = true := by rw [truthyO]; simp
  simp only [htr]
  rfl

theorem getOrder_child_priv (G : Graph) (attrs : List (Bytes × Bytes))
    (text : Bytes) (cs0 : List XNode) (u : Bytes) (c : Nat)
    (hV : subjView G (nodeUri (.elem (S ("Private")) attrs text cs0) (some u) c) =
      subjView (emit (.elem (S ("Private")) attrs text cs0) (some u) c)
        (nodeUri (.elem (S ("Private")) attrs text cs0) (some u) c)) :
    getElementOrder G (Obj.uri (nodeUri (.elem (S ("Private")) attrs text cs0) (some u) c)) =
      .ok ((c + 2 : Nat) : Int) := by
  have hnone : valueOf G (Obj.uri (nodeUri (.elem (S ("Private")) attrs text cs0)
      (some u) c)) iecOrderP = none := by
    rw [valueOf, objectsOf_predFilter, hV, emit_own_view_private attrs text cs0 (some u) c]
    rw [privOwnV_iecOrder]
    rfl
  have hval : valueOf G (Obj.uri (nodeUri (.elem (S ("Private")) attrs text cs0)
      (some u) c)) privOrderP = some (Obj.litNat (c + 2)) := by
    rw [valueOf, objectsOf_predFilter, hV, emit_own_view_private attrs text cs0 (some u) c]
    rw [privOwnV_privOrder]
    rfl
  rw [getElementOrder, hnone, hval]
  have htr : truthyO (Obj.litNat (c + 2)) = true := by rw [truthyO]; simp
  simp only [htr]
  rfl

theorem mapM_append_ok {α γ : Type} (l1 l2 : List α) (f : α → Except DecErr γ)
    (r1 r2 : List γ) (h1 : l1.mapM f = .ok r1) (h2 : l2.mapM f = .ok r2) :
    (l1 ++ l2).mapM f = .ok (r1 ++ r2) := by
  rw [List.mapM_append f, h1, h2]
  rfl

theorem mapM_ok_mem {α γ : Type} : ∀ (l : List α) (f : α → Except DecErr γ) (rs : List γ),
    l.mapM f = .ok rs → ∀ a ∈ l, ∃ r, f a = .ok r
  | [], f, rs, _, a, ha => by simp at ha
  | b :: l, f, rs, h, a, ha => by
      rw [List.mapM_cons f] at h
      rcases hfb : f b with e | r <;> rw [hfb] at h
      · have hcontra : (Except.error e : Except DecErr (List γ)) = .ok rs := h
        simp at hcontra
      · rcases List.mem_cons.mp ha with rfl | ha2
        · exact ⟨r, hfb⟩
        · rcases hfl : l.mapM f with e2 | ls <;> rw [hfl] at h
          · have hcontra : (Except.error e2 : Except DecErr (List γ)) = .ok rs := h
            simp at hcontra
          · exact mapM_ok_mem l f ls hfl a ha2

theorem buildElement_succ (g : Graph) (fuel : Nat) (node : Obj) :
    buildElement g (fuel + 1) node =
      (if (Obj.uri privPrivateSectionU) ∈ objectsOf g node rdfTypeP then
        match valueOf g node privXmlContentP with
        | some xc =>
            if truthyO xc then do
              let el ← deserializePrivateElement (objStr xc)
              pure (some el)
            else pure none
        | none => pure none
      else
        match (objectsOf g node rdfTypeP).find? (fun o => iecNS.isPrefixOf (objStr o)) with
        | none => pure none
        | some t =>
            if pyReplace (objStr t) iecNS [] = [] then pure none
            else do
              let pairs ← childPairs g node
              let builtOpt ← (List.insertionSort (fun a b => a.1 ≤ b.1) pairs).mapM
                (fun oc => buildElement g fuel oc.2)
              pure (some (.elem (pyReplace (objStr t) iecNS []) (collectAttrs g node)
                (buildText g node) (builtOpt.filterMap id)))) := rfl

theorem encOK_elem_def (tag : Bytes) (attrs : List (Bytes × Bytes)) (text : Bytes)
    (cs : List XNode) :
    encOK (.elem tag attrs text cs) =
      if tag = S ("Private") then svalid (.elem tag attrs text cs)
      else tagOK tag && attrs.all (fun kv => attrKeyOK kv.1) &&
        decide ((attrs.map Prod.fst).Nodup) && encOKL cs := rfl

theorem encOKL_cons (n : XNode) (cs : List XNode) :
    encOKL (n :: cs) = (encOK n && encOKL cs) := rfl

theorem canonV2_elem_def (tag : Bytes) (attrs : List (Bytes × Bytes)) (text : Bytes)
    (cs : List XNode) :
    canonV2 (.elem tag attrs text cs) =
      if tag = S ("Private") then .elem tag attrs text cs
      else .elem tag (attrs.filter keepAttrB) (pyStrip text) (canonV2L cs) := rfl

theorem canonV2L_cons (n : XNode) (cs : List XNode) :
    canonV2L (n :: cs) = canonV2 n :: canonV2L cs := rfl

theorem depth_elem_def (tag : Bytes) (attrs : List (Bytes × Bytes)) (text : Bytes)
    (cs : List XNode) :
    depth (.elem tag attrs text cs) =
      if tag = S ("Private") then 1 else 1 + depthL cs := rfl

theorem depthL_cons (n : XNode) (cs : List XNode) :
    depthL (n :: cs) = max (depth n) (depthL cs) := rfl

theorem pyStrip_nil : pyStrip [] = [] := rfl

theorem buildElement_priv_result (G : Graph) (f : Nat) (node : Obj) (payload : Bytes)
    (el : XNode)
    (hin : (Obj.uri privPrivateSectionU) ∈ objectsOf G node rdfTypeP)
    (hxml : valueOf G node privXmlContentP = some (Obj.lit payload))
    (hpl : payload ≠ [])
    (hdeser : deserializePrivateElement payload = .ok el) :
    buildElement G (f + 1) node = .ok (some el) := by
  rw [buildElement_succ, if_pos hin, hxml]
  show (if truthyO (Obj.lit payload) = true then do
      let el2 ← deserializePrivateElement (objStr (Obj.lit payload))
      pure (some el2)
    else pure none) = _
  rw [if_pos (by
    rw [show truthyO (Obj.lit payload) = decide (payload ≠ []) from rfl]
    simp [hpl])]
  show (deserializePrivateElement payload >>= (fun el2 => pure (some el2))) = _
  rw [hdeser]
  rfl

theorem buildElement_elem_result (G : Graph) (f : Nat) (node : Obj) (tg : Bytes)
    (L : List (Int × Obj)) (built : List (Option XNode))
    (hniv : ¬ (Obj.uri privPrivateSectionU) ∈ objectsOf G node rdfTypeP)
    (hfind : (objectsOf G node rdfTypeP).find? (fun o => iecNS.isPrefixOf (objStr o)) =
      some (Obj.uri (iecNS ++ tg)))
    (hrepl : pyReplace (iecNS ++ tg) iecNS [] = tg)
    (htg : tg ≠ [])
    (hpairs : childPairs G node = .ok L)
    (hmapM : (List.insertionSort (fun a b => a.1 ≤ b.1) L).mapM
      (fun oc => buildElement G f oc.2) = .ok built) :
    buildElement G (f + 1) node = .ok (some (.elem tg (collectAttrs G node)
      (buildText G node) (built.filterMap id))) := by
  rw [buildElement_succ, if_neg hniv, hfind]
  show (if pyReplace (objStr (Obj.uri (iecNS ++ tg))) iecNS [] = [] then
      (pure none : Except DecErr (Option XNode))
    else do
      let pairs ← childPairs G node
      let builtOpt ← (List.insertionSort (fun a b : Int × Obj => a.1 ≤ b.1) pairs).mapM
        (fun oc : Int × Obj => buildElement G f oc.2)
      pure (some (XNode.elem (pyReplace (objStr (Obj.uri (iecNS ++ tg))) iecNS [])
        (collectAttrs G node) (buildText G node) (builtOpt.filterMap id)))) = _
  rw [show objStr (Obj.uri (iecNS ++ tg)) = iecNS ++ tg from rfl, hrepl]
  rw [if_neg htg, hpairs]
  show ((List.insertionSort (fun a b : Int × Obj => a.1 ≤ b.1) L).mapM
      (fun oc : Int × Obj => buildElement G f oc.2) >>=
    (fun builtOpt => pure (some (XNode.elem tg (collectAttrs G node) (buildText G node)
      (builtOpt.filterMap id))))) = _
  rw [hmapM]
  rfl

/- The master decode correspondence: on an encodable comment-free tree
whose subtree subjects read back exactly the emitted triples, the decoder
rebuilds the canonical image of the tree. -/
mutual
theorem decode_node : ∀ (n : XNode) (pu : Option Bytes) (c : Nat) (G : Graph) (fuel : Nat),
    commentFree n = true → encOK n = true →
    (∀ s ∈ subUris n pu c, subjView G s = subjView (emit n pu c) s) →
    depth n < fuel →
    buildElement G fuel (Obj.uri (nodeUri n pu c)) = .ok (some (canonV2 n))
  | .comment s, _, _, _, _, hcf, _, _, _ => by
      rw [commentFree] at hcf
      simp at hcf
  | .elem tag attrs text cs, pu, c, G, fuel, hcf, hok, hview, hfuel => by
      rcases fuel with _ | f
      · exact absurd hfuel (by omega)
      have hVu : subjView G (nodeUri (.elem tag attrs text cs) pu c) =
          subjView (emit (.elem tag attrs text cs) pu c)
            (nodeUri (.elem tag attrs text cs) pu c) :=
        hview _ (by rw [subUris_elem_def]; exact List.mem_cons_self _ _)
      by_cases hp : tag = S ("Private")
      · subst hp
        have hsv : svalid (.elem (S ("Private")) attrs text cs) = true := by
          rw [encOK_elem_def, if_pos rfl] at hok
          exact hok
      
        have hne : serializePrivateElement (.elem (S ("Private")) attrs text cs) ≠ [] :=
          serializePrivateElement_ne_nil _ _ _ _
        rw [buildElement_priv_result G f _ _ (.elem (S ("Private")) attrs text cs)
          ?isPriv ?xmlval hne ?deser]
        · rw [canonV2_elem_def, if_pos rfl]
        case isPriv =>
          rw [objectsOf_predFilter, hVu, emit_own_view_private attrs text cs pu c,
            privOwnV_rdfType]
          exact List.mem_cons_self _ _
        case xmlval =>
          rw [valueOf, objectsOf_predFilter, hVu, emit_own_view_private attrs text cs pu c,
            privOwnV_xml]
          rfl
        case deser =>
          rw [deserializePrivateElement, serializePrivateElement,
            b64decode_b64encode _ (serializeXml_lt _ hsv)]
          simp only [parseXml_serializeXml hsv]
      · rw [encOK_elem_def, if_neg hp] at hok
        simp only [Bool.and_eq_true] at hok
        obtain ⟨⟨⟨htag, hkeys⟩, hnd⟩, hcsok⟩ := hok
        rw [tagOK, Bool.and_eq_true, decide_eq_true_eq, decide_eq_true_eq] at htag
        obtain ⟨htagne, htag47⟩ := htag
        rw [show commentFree (.elem tag attrs text cs) = commentFreeL cs from rfl] at hcf
        rw [List.all_eq_true] at hkeys
        rw [decide_eq_true_eq] at hnd
        have hviewCh : ∀ s ∈ subUrisL cs (nodeUri (.elem tag attrs text cs) pu c) (c + 2),
            subjView G s =
              subjView (emitL cs (nodeUri (.elem tag attrs text cs) pu c) (c + 2)) s := by
          intro s hs
          have hmem : s ∈ subUris (.elem tag attrs text cs) pu c := by
            rw [subUris_elem_def]
            refine List.mem_cons_of_mem _ ?m1
            rw [if_neg hp]
            exact hs
          rw [hview s hmem]
          exact emit_view_children tag attrs text cs pu c s hp hs
        have hfuelCh : depthL cs < f := by
          rw [depth_elem_def, if_neg hp] at hfuel
          omega
        obtain ⟨hreg, hprv, hbuild⟩ := childFacts cs (nodeUri (.elem tag attrs text cs) pu c)
          (c + 2) G f hcf hcsok hviewCh hfuelCh
        have htypes : objectsOf G (Obj.uri (nodeUri (.elem tag attrs text cs) pu c))
            rdfTypeP = [Obj.uri (iecNS ++ tag)] := by
          rw [objectsOf_predFilter, hVu, emit_own_view tag attrs text cs pu c hp,
            ownV_rdfType]
        have hhasObjs : (hasPairsOf G
            (Obj.uri (nodeUri (.elem tag attrs text cs) pu c))).map (fun po => po.2) =
            (attrs.filter junkKeyB).map (fun kv => Obj.lit kv.2) ++
            regLinkObjs cs (nodeUri (.elem tag attrs text cs) pu c) (c + 2) := by
          rw [hasPairsOf_subjView, hVu, emit_own_view tag attrs text cs pu c hp]
          rw [List.map_map]
          exact ownV_hasObjs _ tag _ attrs text cs (c + 2) hcf
        have hrpairs : (hasPairsOf G
            (Obj.uri (nodeUri (.elem tag attrs text cs) pu c))).mapM (fun po => do
              let o ← getElementOrder G po.2
              pure (o, po.2)) =
            .ok (junkEntries attrs ++
              regEntries cs (nodeUri (.elem tag attrs text cs) pu c) (c + 2)) := by
          have hconv : (hasPairsOf G
              (Obj.uri (nodeUri (.elem tag attrs text cs) pu c))).mapM (fun po => do
                let o ← getElementOrder G po.2
                pure (o, po.2)) =
              ((hasPairsOf G
                (Obj.uri (nodeUri (.elem tag attrs text cs) pu c))).map
                  (fun po => po.2)).mapM (fun ob => do
                let o ← getElementOrder G ob
                pure (o, ob)) := by
            rw [mapM_map]
          rw [hconv, hhasObjs]
          refine mapM_append_ok _ _ _ _ _ ?junkPart hreg
          have hjunk : ((attrs.filter junkKeyB).map (fun kv => Obj.lit kv.2)).mapM
              (fun ob => do
                let o ← getElementOrder G ob
                pure (o, ob)) = .ok (junkEntries attrs) := by
            rw [mapM_map]
            exact mapM_ok_pointwise (attrs.filter junkKeyB) _
              (fun kv : Bytes × Bytes => ((0 : Int), Obj.lit kv.2)) (fun kv _ => rfl)
          exact hjunk
        have hppairs : (objectsOf G (Obj.uri (nodeUri (.elem tag attrs text cs) pu c))
            privHasPrivateP).mapM (fun ob => do
              let o ← getElementOrder G ob
              pure (o, ob)) =
            .ok (privEntries cs (nodeUri (.elem tag attrs text cs) pu c) (c + 2)) := by
          rw [objectsOf_predFilter, hVu, emit_own_view tag attrs text cs pu c hp,
            ownV_privHas _ tag _ attrs text cs (c + 2) hcf]
          exact hprv
        have hpairs : childPairs G (Obj.uri (nodeUri (.elem tag attrs text cs) pu c)) =
            .ok ((junkEntries attrs ++
              regEntries cs (nodeUri (.elem tag attrs text cs) pu c) (c + 2)) ++
              privEntries cs (nodeUri (.elem tag attrs text cs) pu c) (c + 2)) := by
          rw [childPairs, hrpairs]
          show ((objectsOf G (Obj.uri (nodeUri (.elem tag attrs text cs) pu c))
              privHasPrivateP).mapM (fun ob => do
                let o ← getElementOrder G ob
                pure (o, ob)) >>= (fun ppairs => pure ((junkEntries attrs ++
              regEntries cs (nodeUri (.elem tag attrs text cs) pu c) (c + 2)) ++ ppairs))) = _
          rw [hppairs]
          rfl
        have hf1 : 1 ≤ f := by
          rw [depth_elem_def, if_neg hp] at hfuel
          omega
        rcases f with _ | f2
        · exact absurd hf1 (by omega)
        have hallok : ∀ e ∈ List.insertionSort (fun a b : Int × Obj => a.1 ≤ b.1)
            ((junkEntries attrs ++
              regEntries cs (nodeUri (.elem tag attrs text cs) pu c) (c + 2)) ++
              privEntries cs (nodeUri (.elem tag attrs text cs) pu c) (c + 2)),
            ∃ r, buildElement G (f2 + 1) e.2 = .ok r := by
          intro e he
          have heL := (List.perm_insertionSort _ _).mem_iff.mp he
          rcases List.mem_append.mp heL with h1 | h1
          · rcases List.mem_append.mp h1 with h2 | h2
            · exact ⟨none, junk_entry_builds G f2 attrs e h2⟩
            · exact mapM_ok_mem _ _ _ hbuild e
                ((reg_priv_perm cs _ (c + 2) hcf).mem_iff.mp (List.mem_append_left _ h2))
          · exact mapM_ok_mem _ _ _ hbuild e
              ((reg_priv_perm cs _ (c + 2) hcf).mem_iff.mp (List.mem_append_right _ h1))
        have hmapM := mapM_okValue G (f2 + 1) _ hallok
        have hchildren : ((List.insertionSort (fun a b : Int × Obj => a.1 ≤ b.1)
            ((junkEntries attrs ++
              regEntries cs (nodeUri (.elem tag attrs text cs) pu c) (c + 2)) ++
              privEntries cs (nodeUri (.elem tag attrs text cs) pu c) (c + 2))).map
              (fun oc => okValue (buildElement G (f2 + 1) oc.2))).filterMap id =
            canonV2L cs := by
          rw [List.filterMap_map]
          have hskip := filterMap_skip_junk
            (fun e => okValue (buildElement G (f2 + 1) e.2))
            (List.insertionSort (fun a b : Int × Obj => a.1 ≤ b.1)
              ((junkEntries attrs ++
                regEntries cs (nodeUri (.elem tag attrs text cs) pu c) (c + 2)) ++
                privEntries cs (nodeUri (.elem tag attrs text cs) pu c) (c + 2)))
            ?junkNone
          · rw [Function.id_comp]
            rw [hskip]
            rw [sort_filter_children G attrs cs (nodeUri (.elem tag attrs text cs) pu c)
              (c + 2) hcf]
            exact filterMap_of_mapM_some _ _ _ hbuild
          case junkNone =>
            intro e he hreal
            have heL := (List.perm_insertionSort _ _).mem_iff.mp he
            rcases List.mem_append.mp heL with h1 | h1
            · rcases List.mem_append.mp h1 with h2 | h2
              · show okValue (buildElement G (f2 + 1) e.2) = none
                rw [junk_entry_builds G f2 attrs e h2]
                rfl
              · have := childEntries_real cs _ (c + 2) hcf e
                  ((reg_priv_perm cs _ (c + 2) hcf).mem_iff.mp (List.mem_append_left _ h2))
                rw [this] at hreal
                simp at hreal
            · have := childEntries_real cs _ (c + 2) hcf e
                ((reg_priv_perm cs _ (c + 2) hcf).mem_iff.mp (List.mem_append_right _ h1))
              rw [this] at hreal
              simp at hreal
        have hcollect : collectAttrs G (Obj.uri (nodeUri (.elem tag attrs text cs) pu c)) =
            attrs.filter keepAttrB := by
          have hrest : (predObjsOf G
              (Obj.uri (nodeUri (.elem tag attrs text cs) pu c))).filterMap attrRestore =
              attrs.filter keepAttrB := by
            rw [predObjsOf_subjView, hVu, emit_own_view tag attrs text cs pu c hp]
            exact ownV_restore _ _ _ attrs text cs (c + 2) hkeys hcf
          rw [collectAttrs_eq _ _ ?ndKeys, hrest]
          case ndKeys =>
            rw [hrest]
            refine List.Nodup.sublist ?subl hnd
            exact List.Sublist.map Prod.fst (List.filter_sublist attrs)
        have htext : buildText G (Obj.uri (nodeUri (.elem tag attrs text cs) pu c)) =
            pyStrip text := by
          have hveq : valueOf G (Obj.uri (nodeUri (.elem tag attrs text cs) pu c))
              iecTextContentP = ((textTriples (nodeUri (.elem tag attrs text cs) pu c)
                text).map (fun t => t.2.2)).head? := by
            rw [valueOf, objectsOf_predFilter, hVu, emit_own_view tag attrs text cs pu c hp]
            rw [ownV_textContent _ tag _ attrs text cs (c + 2) (by
              rw [List.all_eq_true]
              exact hkeys)]
          rw [buildText, hveq, textTriples]
          by_cases ht : text ≠ [] ∧ pyStrip text ≠ []
          · rw [if_pos ht]
            show (if truthyO (Obj.lit (pyStrip text)) = true
              then objStr (Obj.lit (pyStrip text)) else []) = pyStrip text
            rw [if_pos (by
              rw [show truthyO (Obj.lit (pyStrip text)) = decide (pyStrip text ≠ []) from rfl]
              simp [ht.2])]
            rfl
          · rw [if_neg ht]
            show ([] : Bytes) = pyStrip text
            rcases not_and_or.mp ht with h1 | h1
            · rw [not_not] at h1
              subst h1
              rfl
            · rw [not_not] at h1
              rw [h1]
        rw [buildElement_elem_result G (f2 + 1) _ tag _ _ ?niv ?find
          (pyReplace_iec tag htag47) htagne hpairs hmapM]
        · rw [hchildren, hcollect, htext, canonV2_elem_def, if_neg hp]
        case niv =>
          rw [htypes]
          simp only [List.mem_cons, List.not_mem_nil, or_false]
          intro he
          have h2 : privPrivateSectionU = iecNS ++ tag := by
            injection he
          rw [privPrivateSectionU] at h2
          exact iecApp_ne_privApp tag (S ("PrivateSection")) h2.symm
        case find =>
          rw [htypes]
          refine List.find?_cons_of_pos _ ?pos
          rw [show objStr (Obj.uri (iecNS ++ tag)) = iecNS ++ tag from rfl]
          exact isPrefixOf_append_self _ _
theorem childFacts : ∀ (cs : List XNode) (u : Bytes) (c : Nat) (G : Graph) (fuel : Nat),
    commentFreeL cs = true → encOKL cs = true →
    (∀ s ∈ subUrisL cs u c, subjView G s = subjView (emitL cs u c) s) →
    depthL cs < fuel →
    ((regLinkObjs cs u c).mapM (fun ob => do
        let o ← getElementOrder G ob
        pure (o, ob)) = .ok (regEntries cs u c)) ∧
    ((privLinkObjs cs u c).mapM (fun ob => do
        let o ← getElementOrder G ob
        pure (o, ob)) = .ok (privEntries cs u c)) ∧
    ((childEntries cs u c).mapM (fun e => buildElement G fuel e.2) =
      .ok ((canonV2L cs).map some))
  | [], u, c, G, fuel, _, _, _, _ => ⟨rfl, rfl, rfl⟩
  | .comment s :: cs, u, c, G, fuel, hcf, _, _, _ => by
      rw [commentFreeL, commentFree] at hcf
      simp at hcf
  | .elem tag attrs text cs0 :: cs, u, c, G, fuel, hcf, hok, hview, hfuel => by
      rw [commentFreeL, Bool.and_eq_true] at hcf
      rw [encOKL_cons, Bool.and_eq_true] at hok
      have hviewHead : ∀ s ∈ subUris (.elem tag attrs text cs0) (some u) c,
          subjView G s = subjView (emit (.elem tag attrs text cs0) (some u) c) s := by
        intro s hs
        rw [hview s (by rw [subUrisL_cons]; exact List.mem_append_left _ hs)]
        exact emitL_view_head _ cs u c s hs
      have hviewTail : ∀ s ∈ subUrisL cs u (c + w (.elem tag attrs text cs0)),
          subjView G s = subjView (emitL cs u (c + w (.elem tag attrs text cs0))) s := by
        intro s hs
        rw [hview s (by rw [subUrisL_cons]; exact List.mem_append_right _ hs)]
        exact emitL_view_tail _ cs u c s hs
      have hfuelT : depthL cs < fuel := by
        rw [depthL_cons] at hfuel
        omega
      have hfuelH : depth (.elem tag attrs text cs0) < fuel := by
        rw [depthL_cons] at hfuel
        omega
      obtain ⟨ihreg, ihpriv, ihbuild⟩ :=
        childFacts cs u (c + w (.elem tag attrs text cs0)) G fuel hcf.2 hok.2 hviewTail hfuelT
      have hVn : subjView G (nodeUri (.elem tag attrs text cs0) (some u) c) =
          subjView (emit (.elem tag attrs text cs0) (some u) c)
            (nodeUri (.elem tag attrs text cs0) (some u) c) :=
        hviewHead _ (by rw [subUris_elem_def]; exact List.mem_cons_self _ _)
      have hbuildN : buildElement G fuel
          (Obj.uri (nodeUri (.elem tag attrs text cs0) (some u) c)) =
          .ok (some (canonV2 (.elem tag attrs text cs0))) :=
        decode_node (.elem tag attrs text cs0) (some u) c G fuel hcf.1 hok.1 hviewHead hfuelH
      refine ⟨?reg, ?priv, ?build⟩
      case reg =>
        by_cases hp : tag = S ("Private")
        · rw [show regLinkObjs (.elem tag attrs text cs0 :: cs) u c =
            (if tag = S ("Private") then [] else
              [Obj.uri (nodeUri (.elem tag attrs text cs0) (some u) c)]) ++
            regLinkObjs cs u (c + w (.elem tag attrs text cs0)) from rfl]
          rw [show regEntries (.elem tag attrs text cs0 :: cs) u c =
            (if tag = S ("Private") then [] else
              [(((c + 2 : Nat) : Int),
                Obj.uri (nodeUri (.elem tag attrs text cs0) (some u) c))]) ++
            regEntries cs u (c + w (.elem tag attrs text cs0)) from rfl]
          rw [if_pos hp, if_pos hp]
          exact mapM_append_ok _ _ _ _ _ rfl ihreg
        · rw [show regLinkObjs (.elem tag attrs text cs0 :: cs) u c =
            (if tag = S ("Private") then [] else
              [Obj.uri (nodeUri (.elem tag attrs text cs0) (some u) c)]) ++
            regLinkObjs cs u (c + w (.elem tag attrs text cs0)) from rfl]
          rw [show regEntries (.elem tag attrs text cs0 :: cs) u c =
            (if tag = S ("Private") then [] else
              [(((c + 2 : Nat) : Int),
                Obj.uri (nodeUri (.elem tag attrs text cs0) (some u) c))]) ++
            regEntries cs u (c + w (.elem tag attrs text cs0)) from rfl]
          rw [if_neg hp, if_neg hp]
          refine mapM_append_ok _ _ _ _ _ ?one ihreg
          refine mapM_ok_pointwise _ _
            (fun ob => (((c + 2 : Nat) : Int), ob)) ?ptw
          intro ob hob
          simp only [List.mem_cons, List.not_mem_nil, or_false] at hob
          subst hob
          rw [show ((do
              let o ← getElementOrder G
                (Obj.uri (nodeUri (.elem tag attrs text cs0) (some u) c))
              pure (o, Obj.uri (nodeUri (.elem tag attrs text cs0) (some u) c))) :
                Except DecErr (Int × Obj)) =
            (getElementOrder G (Obj.uri (nodeUri (.elem tag attrs text cs0) (some u) c)) >>=
              (fun o => pure (o, Obj.uri (nodeUri (.elem tag attrs text cs0) (some u) c))))
            from rfl]
          rw [getOrder_child_reg G tag attrs text cs0 u c hp hVn]
          rfl
      case priv =>
        by_cases hp : tag = S ("Private")
        · subst hp
          rw [show privLinkObjs (.elem (S ("Private")) attrs text cs0 :: cs) u c =
            (if S ("Private") = S ("Private") then
              [Obj.uri (nodeUri (.elem (S ("Private")) attrs text cs0) (some u) c)]
            else []) ++
            privLinkObjs cs u (c + w (.elem (S ("Private")) attrs text cs0)) from rfl]
          rw [show privEntries (.elem (S ("Private")) attrs text cs0 :: cs) u c =
            (if S ("Private") = S ("Private") then
              [(((c + 2 : Nat) : Int),
                Obj.uri (nodeUri (.elem (S ("Private")) attrs text cs0) (some u) c))]
            else []) ++
            privEntries cs u (c + w (.elem (S ("Private")) attrs text cs0)) from rfl]
          rw [if_pos rfl, if_pos rfl]
          refine mapM_append_ok _ _ _ _ _ ?one2 ihpriv
          refine mapM_ok_pointwise _ _
            (fun ob => (((c + 2 : Nat) : Int), ob)) ?ptw2
          intro ob hob
          simp only [List.mem_cons, List.not_mem_nil, or_false] at hob
          subst hob
          rw [show ((do
              let o ← getElementOrder G
                (Obj.uri (nodeUri (.elem (S ("Private")) attrs text cs0) (some u) c))
              pure (o, Obj.uri (nodeUri (.elem (S ("Private")) attrs text cs0) (some u) c))) :
                Except DecErr (Int × Obj)) =
            (getElementOrder G
              (Obj.uri (nodeUri (.elem (S ("Private")) attrs text cs0) (some u) c)) >>=
              (fun o => pure (o,
                Obj.uri (nodeUri (.elem (S ("Private")) attrs text cs0) (some u) c))))
            from rfl]
          rw [getOrder_child_priv G attrs text cs0 u c hVn]
          rfl
        · rw [show privLinkObjs (.elem tag attrs text cs0 :: cs) u c =
            (if tag = S ("Private") then
              [Obj.uri (nodeUri (.elem tag attrs text cs0) (some u) c)] else []) ++
            privLinkObjs cs u (c + w (.elem tag attrs text cs0)) from rfl]
          rw [show privEntries (.elem tag attrs text cs0 :: cs) u c =
            (if tag = S ("Private") then
              [(((c + 2 : Nat) : Int),
                Obj.uri (nodeUri (.elem tag attrs text cs0) (some u) c))] else []) ++
            privEntries cs u (c + w (.elem tag attrs text cs0)) from rfl]
          rw [if_neg hp, if_neg hp]
          exact mapM_append_ok _ _ _ _ _ rfl ihpriv
      case build =>
        rw [show childEntries (.elem tag attrs text cs0 :: cs) u c =
          (((c + 2 : Nat) : Int),
            Obj.uri (nodeUri (.elem tag attrs text cs0) (some u) c)) ::
          childEntries cs u (c + w (.elem tag attrs text cs0)) from rfl]
        rw [canonV2L_cons, List.map_cons]
        rw [List.mapM_cons]
        rw [show buildElement G fuel ((((c + 2 : Nat) : Int),
            Obj.uri (nodeUri (.elem tag attrs text cs0) (some u) c)) : Int × Obj).2 =
          buildElement G fuel
            (Obj.uri (nodeUri (.elem tag attrs text cs0) (some u) c)) from rfl]
        rw [hbuildN, ihbuild]
        rfl
end

/-! Root assembly: the full converter round trip. -/

theorem nsTriples_mem (nsmap : List (Option Bytes × Bytes)) :
    ∀ t ∈ nsTriples nsmap, t.1 = iecSCLU ∧ ∃ v, t.2.2 = Obj.lit v := by
  intro t ht
  rw [nsTriples] at ht
  obtain ⟨pu, _, rfl⟩ := List.mem_map.mp ht
  rcases pu with ⟨_ | pfx, v⟩
  · exact ⟨rfl, v, rfl⟩
  · exact ⟨rfl, v, rfl⟩

theorem root_uri_long (attrs : List (Bytes × Bytes)) (text : Bytes) (cs : List XNode) :
    iecSCLU.length < (nodeUri (.elem (S ("SCL")) attrs text cs) none 0).length := by
  rw [nodeUri]
  by_cases h : truthyS (elemIdOf attrs) = true
  · simp only [createElementUri, getNextOrder, if_pos h]
    rw [show iecSCLU = iecNS ++ S ("SCL") from rfl]
    simp
  · simp only [createElementUri, getNextOrder, if_neg h]
    rw [show iecSCLU = iecNS ++ S ("SCL") from rfl]
    simp

theorem root_uris_long (attrs : List (Bytes × Bytes)) (text : Bytes) (cs : List XNode) :
    ∀ s ∈ subUris (.elem (S ("SCL")) attrs text cs) none 0, iecSCLU.length < s.length := by
  intro s hs
  rw [subUris_elem_def] at hs
  rcases List.mem_cons.mp hs with rfl | hs2
  · exact root_uri_long attrs text cs
  · rw [if_neg (by decide)] at hs2
    have h1 := subUrisL_length cs (nodeUri (.elem (S ("SCL")) attrs text cs) none 0) 2 s hs2
    have h2 := root_uri_long attrs text cs
    omega

mutual
theorem depth_le_emit : ∀ (n : XNode) (pu : Option Bytes) (c : Nat),
    depth n ≤ (emit n pu c).length
  | .comment s, pu, c => by
      rw [show depth (.comment s) = 0 from rfl]
      omega
  | .elem tag attrs text cs, pu, c => by
      rw [depth_elem_def, emit_elem_def]
      by_cases hp : tag = S ("Private")
      · rw [if_pos hp, if_pos hp]
        simp
      · rw [if_neg hp, if_neg hp]
        have := depthL_le_emitL cs (nodeUri (.elem tag attrs text cs) pu c) (c + 2)
        simp only [List.length_append, List.length_cons]
        omega
theorem depthL_le_emitL : ∀ (cs : List XNode) (u : Bytes) (c : Nat),
    depthL cs ≤ (emitL cs u c).length
  | [], u, c => by
      rw [show depthL [] = 0 from rfl]
      omega
  | n :: cs, u, c => by
      rw [depthL_cons, emitL_cons]
      have h1 := depth_le_emit n (some u) c
      have h2 := depthL_le_emitL cs u (c + w n)
      simp only [List.length_append]
      omega
end

theorem master_roundtrip (attrs : List (Bytes × Bytes)) (text : Bytes) (cs : List XNode)
    (nsmap : List (Option Bytes × Bytes))
    (hcf : commentFree (.elem (S ("SCL")) attrs text cs) = true)
    (hok : encOK (.elem (S ("SCL")) attrs text cs) = true) :
    sclToRdf ⟨.elem (S ("SCL")) attrs text cs, nsmap⟩ =
      .ok (nsTriples nsmap ++ emit (.elem (S ("SCL")) attrs text cs) none 0) ∧
    rdfToScl (nsTriples nsmap ++ emit (.elem (S ("SCL")) attrs text cs) none 0) =
      .ok (some (canonV2 (.elem (S ("SCL")) attrs text cs))) := by
  have henc : sclToRdf ⟨.elem (S ("SCL")) attrs text cs, nsmap⟩ =
      .ok (nsTriples nsmap ++ emit (.elem (S ("SCL")) attrs text cs) none 0) := by
    rw [sclToRdf]
    show (processElement (.elem (S ("SCL")) attrs text cs) none ⟨0, nsTriples nsmap⟩ >>=
      (fun r => .ok r.1.graph)) = _
    rw [processElement_emit _ none _ hcf]
    rfl
  refine ⟨henc, ?dec⟩
  have hp : S ("SCL") ≠ S ("Private") := by decide
  have hsub : ∃ tl, subjectsOf
      (nsTriples nsmap ++ emit (.elem (S ("SCL")) attrs text cs) none 0) rdfTypeP
      (Obj.uri iecSCLU) =
      nodeUri (.elem (S ("SCL")) attrs text cs) none 0 :: tl := by
    rw [subjectsOf, List.filter_append]
    rw [List.filter_eq_nil_iff.mpr (fun t ht => by
      obtain ⟨_, v, hv⟩ := nsTriples_mem nsmap t ht
      simp only [decide_eq_true_eq, not_and]
      intro _
      rw [hv]
      simp)]
    rw [emit_elem_def, if_neg hp]
    rw [show ([(nodeUri (.elem (S ("SCL")) attrs text cs) none 0, iecOrderP,
        Obj.litNat (0 + 2)),
      (nodeUri (.elem (S ("SCL")) attrs text cs) none 0, rdfTypeP,
        Obj.uri (iecNS ++ S ("SCL")))] ++
      parentLink none (iecNS ++ S ("has") ++ S ("SCL"))
        (nodeUri (.elem (S ("SCL")) attrs text cs) none 0) ++
      attrTriples (nodeUri (.elem (S ("SCL")) attrs text cs) none 0) attrs ++
      textTriples (nodeUri (.elem (S ("SCL")) attrs text cs) none 0) text ++
      emitL cs (nodeUri (.elem (S ("SCL")) attrs text cs) none 0) (0 + 2)) =
      (nodeUri (.elem (S ("SCL")) attrs text cs) none 0, iecOrderP,
        Obj.litNat (0 + 2)) ::
      (nodeUri (.elem (S ("SCL")) attrs text cs) none 0, rdfTypeP,
        Obj.uri (iecNS ++ S ("SCL"))) ::
      (parentLink none (iecNS ++ S ("has") ++ S ("SCL"))
        (nodeUri (.elem (S ("SCL")) attrs text cs) none 0) ++
      attrTriples (nodeUri (.elem (S ("SCL")) attrs text cs) none 0) attrs ++
      textTriples (nodeUri (.elem (S ("SCL")) attrs text cs) none 0) text ++
      emitL cs (nodeUri (.elem (S ("SCL")) attrs text cs) none 0) (0 + 2)) from by
        simp [List.append_assoc]]
    rw [List.filter_cons, if_neg (by
      simp only [decide_eq_true_eq, not_and]
      intro hcontra
      exact absurd hcontra (by rw [iecOrderP]; exact iecApp_ne_rdfType _))]
    rw [List.filter_cons, if_pos ?typehit]
    · exact ⟨_, rfl⟩
    case typehit =>
      show decide (((nodeUri (.elem (S ("SCL")) attrs text cs) none 0, rdfTypeP,
        Obj.uri (iecNS ++ S ("SCL"))) : Triple).2.1 = rdfTypeP ∧
        ((nodeUri (.elem (S ("SCL")) attrs text cs) none 0, rdfTypeP,
        Obj.uri (iecNS ++ S ("SCL"))) : Triple).2.2 = Obj.uri iecSCLU) = true
      exact decide_eq_true ⟨rfl, rfl⟩
  obtain ⟨tl, hsub⟩ := hsub
  rw [rdfToScl, hsub]
  show buildElement (nsTriples nsmap ++ emit (.elem (S ("SCL")) attrs text cs) none 0)
    ((nsTriples nsmap ++ emit (.elem (S ("SCL")) attrs text cs) none 0).length + 1)
    (Obj.uri (nodeUri (.elem (S ("SCL")) attrs text cs) none 0)) = _
  refine decode_node (.elem (S ("SCL")) attrs text cs) none 0 _ _ hcf hok ?hview ?hfuel
  case hview =>
    intro s hs
    rw [subjView_append]
    rw [subjView_eq_nil (nsTriples nsmap) s (fun t ht => by
      obtain ⟨h1, _⟩ := nsTriples_mem nsmap t ht
      rw [h1]
      intro he
      have := root_uris_long attrs text cs s hs
      rw [he] at this
      omega)]
    simp
  case hfuel =>
    have h1 := depth_le_emit (.elem (S ("SCL")) attrs text cs) none 0
    simp only [List.length_append]
    omega

/-! Order values in graph order (for the order invariant). -/

/-- The values of all `iec:order` / `private:order` triples, in graph
(insertion) order. -/
def ordersOf (g : Graph) : List Nat :=
  g.filterMap (fun t =>
    if t.2.1 = iecOrderP ∨ t.2.1 = privOrderP then
      match t.2.2 with
      | Obj.litNat k => some k
      | _ => none
    else none)

/- The order values the encoder hands out, per subtree, in pre-order. -/
mutual
def preOrders : XNode → Nat → List Nat
  | .comment _, _ => []
  | .elem tag _ _ cs, c =>
      (c + 2) :: (if tag = S ("Private") then [] else preOrdersL cs (c + 2))
def preOrdersL : List XNode → Nat → List Nat
  | [], _ => []
  | n :: cs, c => preOrders n c ++ preOrdersL cs (c + w n)
end

theorem ordersOf_append (g1 g2 : Graph) :
    ordersOf (g1 ++ g2) = ordersOf g1 ++ ordersOf g2 := by
  rw [ordersOf, ordersOf, ordersOf, List.filterMap_append]

theorem ordersOf_nil_of_shape (v : List Triple)
    (h : ∀ t ∈ v, (∃ s, t.2.2 = Obj.lit s) ∨ ∃ s, t.2.2 = Obj.uri s) :
    ordersOf v = [] := by
  rw [ordersOf, List.filterMap_eq_nil_iff]
  intro t ht
  rcases h t ht with ⟨s, hs⟩ | ⟨s, hs⟩ <;> rw [hs] <;> split <;> rfl

mutual
theorem ordersOf_emit : ∀ (n : XNode) (pu : Option Bytes) (c : Nat),
    ordersOf (emit n pu c) = preOrders n c
  | .comment s, pu, c => rfl
  | .elem tag attrs text cs, pu, c => by
      rw [emit_elem_def]
      by_cases hp : tag = S ("Private")
      · rw [if_pos hp]
        rw [ordersOf_append, ordersOf_append, ordersOf_append]
        rw [show ordersOf [(nodeUri (.elem tag attrs text cs) pu c, rdfTypeP,
            Obj.uri privPrivateSectionU),
          (nodeUri (.elem tag attrs text cs) pu c, privOrderP, Obj.litNat (c + 2))] =
          [c + 2] from by
            rw [ordersOf]
            rw [List.filterMap_cons_none (by
              split
              · rfl
              · rfl)]
            rw [List.filterMap_cons_some (by
              rw [if_pos (Or.inr rfl)])]
            rfl]
        rw [ordersOf_nil_of_shape (parentLink pu privHasPrivateP _) (fun t ht => by
          obtain ⟨p, _, rfl⟩ := parentLink_mem _ _ _ t ht
          exact Or.inr ⟨_, rfl⟩)]
        rw [ordersOf_nil_of_shape _ (fun t ht => by
          simp only [List.mem_cons, List.not_mem_nil, or_false] at ht
          subst ht
          exact Or.inl ⟨_, rfl⟩)]
        rw [ordersOf_nil_of_shape (privTypeTriples _ _) (fun t ht => by
          obtain ⟨t0, rfl⟩ := privTypeTriples_mem _ _ t ht
          exact Or.inl ⟨_, rfl⟩)]
        rw [show preOrders (.elem tag attrs text cs) c =
          (c + 2) :: (if tag = S ("Private") then [] else preOrdersL cs (c + 2)) from rfl]
        rw [if_pos hp]
        simp
      · rw [if_neg hp]
        rw [ordersOf_append, ordersOf_append, ordersOf_append, ordersOf_append]
        rw [show ordersOf [(nodeUri (.elem tag attrs text cs) pu c, iecOrderP,
            Obj.litNat (c + 2)),
          (nodeUri (.elem tag attrs text cs) pu c, rdfTypeP,
            Obj.uri (iecNS ++ tag))] = [c + 2] from by
            rw [ordersOf]
            rw [List.filterMap_cons_some (by
              rw [if_pos (Or.inl rfl)])]
            rw [List.filterMap_cons_none (by
              split
              · rfl
              · rfl)]
            rfl]
        rw [ordersOf_nil_of_shape (parentLink pu _ _) (fun t ht => by
          obtain ⟨p, _, rfl⟩ := parentLink_mem _ _ _ t ht
          exact Or.inr ⟨_, rfl⟩)]
        rw [ordersOf_nil_of_shape (attrTriples _ _) (fun t ht => by
          obtain ⟨kv, _, rfl⟩ := attrTriples_mem _ _ t ht
          exact Or.inl ⟨_, rfl⟩)]
        rw [ordersOf_nil_of_shape (textTriples _ _) (fun t ht => by
          have := textTriples_mem _ _ t ht
          subst this
          exact Or.inl ⟨_, rfl⟩)]
        rw [ordersOf_emitL cs _ (c + 2)]
        rw [show preOrders (.elem tag attrs text cs) c =
          (c + 2) :: (if tag = S ("Private") then [] else preOrdersL cs (c + 2)) from rfl]
        rw [if_neg hp]
        simp
theorem ordersOf_emitL : ∀ (cs : List XNode) (u : Bytes) (c : Nat),
    ordersOf (emitL cs u c) = preOrdersL cs c
  | [], u, c => rfl
  | n :: cs, u, c => by
      rw [emitL_cons, ordersOf_append, ordersOf_emit n (some u) c,
        ordersOf_emitL cs u (c + w n)]
      rfl
end

mutual
theorem preOrders_bounds : ∀ (n : XNode) (c : Nat),
    ∀ k ∈ preOrders n c, c + 2 ≤ k ∧ k ≤ c + w n
  | .comment s, c, k, hk => by simp [show preOrders (.comment s) c = [] from rfl] at hk
  | .elem tag attrs text cs, c, k, hk => by
      rw [show preOrders (.elem tag attrs text cs) c =
        (c + 2) :: (if tag = S ("Private") then [] else preOrdersL cs (c + 2)) from rfl] at hk
      have hw2 := two_le_w tag attrs text cs
      rcases List.mem_cons.mp hk with rfl | hk2
      · omega
      · by_cases hp : tag = S ("Private")
        · rw [if_pos hp] at hk2
          simp at hk2
        · rw [if_neg hp] at hk2
          obtain ⟨h1, h2⟩ := preOrdersL_bounds cs (c + 2) k hk2
          rw [w_elem_not_private tag attrs text cs hp]
          omega
theorem preOrdersL_bounds : ∀ (cs : List XNode) (c : Nat),
    ∀ k ∈ preOrdersL cs c, c + 2 ≤ k ∧ k ≤ c + wL cs
  | [], c, k, hk => by simp [show preOrdersL [] c = [] from rfl] at hk
  | n :: cs, c, k, hk => by
      rw [show preOrdersL (n :: cs) c = preOrders n c ++ preOrdersL cs (c + w n) from rfl] at hk
      rw [wL_cons]
      rcases List.mem_append.mp hk with h1 | h1
      · obtain ⟨h2, h3⟩ := preOrders_bounds n c k h1
        omega
      · obtain ⟨h2, h3⟩ := preOrdersL_bounds cs (c + w n) k h1
        omega
end

mutual
theorem preOrders_pairwise : ∀ (n : XNode) (c : Nat),
    (preOrders n c).Pairwise (fun a b => a < b)
  | .comment s, c => List.Pairwise.nil
  | .elem tag attrs text cs, c => by
      rw [show preOrders (.elem tag attrs text cs) c =
        (c + 2) :: (if tag = S ("Private") then [] else preOrdersL cs (c + 2)) from rfl]
      refine List.Pairwise.cons ?hd ?tl
      · intro k hk
        by_cases hp : tag = S ("Private")
        · rw [if_pos hp] at hk
          simp at hk
        · rw [if_neg hp] at hk
          have := (preOrdersL_bounds cs (c + 2) k hk).1
          omega
      · by_cases hp : tag = S ("Private")
        · rw [if_pos hp]
          exact List.Pairwise.nil
        · rw [if_neg hp]
          exact preOrdersL_pairwise cs (c + 2)
theorem preOrdersL_pairwise : ∀ (cs : List XNode) (c : Nat),
    (preOrdersL cs c).Pairwise (fun a b => a < b)
  | [], c => List.Pairwise.nil
  | n :: cs, c => by
      rw [show preOrdersL (n :: cs) c = preOrders n c ++ preOrdersL cs (c + w n) from rfl]
      rw [List.pairwise_append]
      refine ⟨preOrders_pairwise n c, preOrdersL_pairwise cs (c + w n), ?cross⟩
      intro a ha b hb
      have h1 := (preOrders_bounds n c a ha).2
      have h2 := (preOrdersL_bounds cs (c + w n) b hb).1
      omega
end

/-! Canonical image when no attribute is droppable: only whitespace of
direct text is normalized. -/
mutual
def canonStrict : XNode → XNode
  | .comment s => .comment s
  | .elem tag attrs text cs =>
      if tag = S ("Private") then .elem tag attrs text cs
      else .elem tag attrs (pyStrip text) (canonStrictL cs)
def canonStrictL : List XNode → List XNode
  | [] => []
  | n :: cs => canonStrict n :: canonStrictL cs
end

/- No attribute of the tree (outside Private subtrees) is in the
decoder's dropped class. -/
mutual
def strictAttrs : XNode → Bool
  | .comment _ => true
  | .elem tag attrs _ cs =>
      if tag = S ("Private") then true
      else attrs.all keepAttrB && strictAttrsL cs
def strictAttrsL : List XNode → Bool
  | [] => true
  | n :: cs => strictAttrs n && strictAttrsL cs
end

mutual
theorem canonV2_eq_strict : ∀ (n : XNode), strictAttrs n = true → canonV2 n = canonStrict n
  | .comment s, _ => rfl
  | .elem tag attrs text cs, h => by
      rw [show strictAttrs (.elem tag attrs text cs) =
        (if tag = S ("Private") then true
         else attrs.all keepAttrB && strictAttrsL cs) from rfl] at h
      rw [canonV2_elem_def]
      rw [show canonStrict (.elem tag attrs text cs) =
        (if tag = S ("Private") then .elem tag attrs text cs
         else .elem tag attrs (pyStrip text) (canonStrictL cs)) from rfl]
      by_cases hp : tag = S ("Private")
      · rw [if_pos hp, if_pos hp]
      · rw [if_neg hp, if_neg hp]
        rw [if_neg hp] at h
        rw [Bool.and_eq_true] at h
        rw [List.filter_eq_self.mpr (fun kv hkv => List.all_eq_true.mp h.1 kv hkv)]
        rw [canonV2L_eq_strict cs h.2]
theorem canonV2L_eq_strict : ∀ (cs : List XNode), strictAttrsL cs = true →
    canonV2L cs = canonStrictL cs
  | [], _ => rfl
  | n :: cs, h => by
      rw [show strictAttrsL (n :: cs) = (strictAttrs n && strictAttrsL cs) from rfl,
        Bool.and_eq_true] at h
      rw [canonV2L_cons, show canonStrictL (n :: cs) =
        canonStrict n :: canonStrictL cs from rfl]
      rw [canonV2_eq_strict n h.1, canonV2L_eq_strict cs h.2]
end

/-! Distinctness of sibling URIs (shared tag and name). -/

theorem regLinkObjs_stamps : ∀ (cs : List XNode) (u : Bytes) (c : Nat),
    ∀ ob ∈ regLinkObjs cs u c,
      ∃ s k, ob = Obj.uri s ∧ c < k ∧ k ≤ c + wL cs ∧ stampOf s = some k
  | [], u, c, ob, h => by simp [regLinkObjs] at h
  | .comment s0 :: cs, u, c, ob, h => by
      rw [show regLinkObjs (.comment s0 :: cs) u c = regLinkObjs cs u c from rfl] at h
      obtain ⟨s, k, h1, h2, h3, h4⟩ := regLinkObjs_stamps cs u c ob h
      refine ⟨s, k, h1, h2, ?bnd, h4⟩
      rw [show wL (.comment s0 :: cs) = w (.comment s0) + wL cs from rfl]
      omega
  | .elem tag attrs text cs0 :: cs, u, c, ob, h => by
      rw [show regLinkObjs (.elem tag attrs text cs0 :: cs) u c =
        (if tag = S ("Private") then [] else
          [Obj.uri (nodeUri (.elem tag attrs text cs0) (some u) c)]) ++
        regLinkObjs cs u (c + w (.elem tag attrs text cs0)) from rfl] at h
      have hw2 := two_le_w tag attrs text cs0
      have hwl : wL (.elem tag attrs text cs0 :: cs) =
          w (.elem tag attrs text cs0) + wL cs := rfl
      rcases List.mem_append.mp h with h1 | h1
      · by_cases hp : tag = S ("Private")
        · rw [if_pos hp] at h1
          simp at h1
        · rw [if_neg hp] at h1
          simp only [List.mem_cons, List.not_mem_nil, or_false] at h1
          subst h1
          refine ⟨_, c + 1, rfl, by omega, by rw [hwl]; omega,
            nodeUri_stamp tag attrs text cs0 u c⟩
      · obtain ⟨s, k, h2, h3, h4, h5⟩ :=
          regLinkObjs_stamps cs u (c + w (.elem tag attrs text cs0)) ob h1
        exact ⟨s, k, h2, by omega, by rw [hwl]; omega, h5⟩

theorem regLinkObjs_nodup : ∀ (cs : List XNode) (u : Bytes) (c : Nat),
    (regLinkObjs cs u c).Nodup
  | [], u, c => List.nodup_nil
  | .comment s0 :: cs, u, c => by
      rw [show regLinkObjs (.comment s0 :: cs) u c = regLinkObjs cs u c from rfl]
      exact regLinkObjs_nodup cs u c
  | .elem tag attrs text cs0 :: cs, u, c => by
      rw [show regLinkObjs (.elem tag attrs text cs0 :: cs) u c =
        (if tag = S ("Private") then [] else
          [Obj.uri (nodeUri (.elem tag attrs text cs0) (some u) c)]) ++
        regLinkObjs cs u (c + w (.elem tag attrs text cs0)) from rfl]
      have hw2 := two_le_w tag attrs text cs0
      by_cases hp : tag = S ("Private")
      · rw [if_pos hp]
        exact regLinkObjs_nodup cs u _
      · rw [if_neg hp]
        rw [List.singleton_append, List.nodup_cons]
        refine ⟨?notmem, regLinkObjs_nodup cs u _⟩
        intro hmem
        obtain ⟨s, k, h1, h2, h3, h4⟩ :=
          regLinkObjs_stamps cs u (c + w (.elem tag attrs text cs0)) _ hmem
        have hs : nodeUri (.elem tag attrs text cs0) (some u) c = s := Obj.uri.inj h1
        rw [← hs, nodeUri_stamp tag attrs text cs0 u c] at h4
        have := Option.some_inj.mp h4
        omega

theorem replicate_commentFree : ∀ (n : Nat),
    commentFreeL (List.replicate n (.elem (S ("A")) [(S ("name"), S ("x"))] [] [])) = true
  | 0 => rfl
  | n + 1 => by
      rw [List.replicate_succ, commentFreeL]
      rw [replicate_commentFree n]
      rfl

theorem replicate_regLinkObjs_length : ∀ (n : Nat) (u : Bytes) (c : Nat),
    (regLinkObjs (List.replicate n (.elem (S ("A")) [(S ("name"), S ("x"))] [] [])) u
      c).length = n
  | 0, u, c => rfl
  | n + 1, u, c => by
      rw [List.replicate_succ]
      rw [show regLinkObjs ((.elem (S ("A")) [(S ("name"), S ("x"))] [] []) ::
        List.replicate n (.elem (S ("A")) [(S ("name"), S ("x"))] [] [])) u c =
        (if S ("A") = S ("Private") then [] else
          [Obj.uri (nodeUri (.elem (S ("A")) [(S ("name"), S ("x"))] [] []) (some u) c)]) ++
        regLinkObjs (List.replicate n (.elem (S ("A")) [(S ("name"), S ("x"))] [] [])) u
          (c + w (.elem (S ("A")) [(S ("name"), S ("x"))] [] [])) from rfl]
      rw [if_neg (by decide)]
      rw [List.singleton_append, List.length_cons, replicate_regLinkObjs_length n]

theorem replicate_links_filter : ∀ (n : Nat) (u : Bytes) (c : Nat),
    predFilter (linksOf (List.replicate n (.elem (S ("A")) [(S ("name"), S ("x"))] [] [])) u c)
      (iecNS ++ S ("has") ++ S ("A")) =
      regLinkObjs (List.replicate n (.elem (S ("A")) [(S ("name"), S ("x"))] [] [])) u c
  | 0, u, c => rfl
  | n + 1, u, c => by
      rw [List.replicate_succ]
      rw [show linksOf ((.elem (S ("A")) [(S ("name"), S ("x"))] [] []) ::
        List.replicate n (.elem (S ("A")) [(S ("name"), S ("x"))] [] [])) u c =
        linkOf (.elem (S ("A")) [(S ("name"), S ("x"))] [] []) u c ++
        linksOf (List.replicate n (.elem (S ("A")) [(S ("name"), S ("x"))] [] [])) u
          (c + w (.elem (S ("A")) [(S ("name"), S ("x"))] [] [])) from rfl]
      rw [predFilter_append, linkOf_elem, if_neg (by decide)]
      rw [predFilter_cons_match _ _ _ rfl]
      rw [replicate_links_filter n]
      rw [show regLinkObjs ((.elem (S ("A")) [(S ("name"), S ("x"))] [] []) ::
        List.replicate n (.elem (S ("A")) [(S ("name"), S ("x"))] [] [])) u c =
        (if S ("A") = S ("Private") then [] else
          [Obj.uri (nodeUri (.elem (S ("A")) [(S ("name"), S ("x"))] [] []) (some u) c)]) ++
        regLinkObjs (List.replicate n (.elem (S ("A")) [(S ("name"), S ("x"))] [] [])) u
          (c + w (.elem (S ("A")) [(S ("name"), S ("x"))] [] [])) from rfl]
      rw [if_neg (by decide)]
      rfl

/-! The remaining claims. -/

/-- C1 counterexample: an attribute named `hash` is silently dropped by
the round trip, so decode∘encode does not preserve the attribute
name-to-value mapping of every valid input document. -/
theorem claim1_attr_lost_counterexample :
    sclToRdf ⟨.elem (S ("SCL")) [(S ("hash"), S ("1"))] [] [], []⟩ =
      .ok (nsTriples [] ++ emit (.elem (S ("SCL")) [(S ("hash"), S ("1"))] [] []) none 0) ∧
    rdfToScl (nsTriples [] ++ emit (.elem (S ("SCL")) [(S ("hash"), S ("1"))] [] []) none 0) =
      .ok (some (.elem (S ("SCL")) [] [] [])) ∧
    (.elem (S ("SCL")) [] [] [] : XNode) ≠ .elem (S ("SCL")) [(S ("hash"), S ("1"))] [] [] :=
  ⟨rfl, rfl, by decide⟩

/-- C1 (amended): on comment-free encodable documents none of whose
attribute names fall in the decoder's dropped class (`has*`-prefixed or
`order`-named), decoding the encoding yields exactly the canonical
image: same tags, same attributes, stripped direct text, same child
sequence at every level, Private subtrees verbatim. -/
theorem claim1_canonical_roundtrip (attrs : List (Bytes × Bytes)) (text : Bytes)
    (cs : List XNode) (nsmap : List (Option Bytes × Bytes))
    (hcf : commentFree (.elem (S ("SCL")) attrs text cs) = true)
    (hok : encOK (.elem (S ("SCL")) attrs text cs) = true)
    (hstrict : strictAttrs (.elem (S ("SCL")) attrs text cs) = true) :
    sclToRdf ⟨.elem (S ("SCL")) attrs text cs, nsmap⟩ =
      .ok (nsTriples nsmap ++ emit (.elem (S ("SCL")) attrs text cs) none 0) ∧
    rdfToScl (nsTriples nsmap ++ emit (.elem (S ("SCL")) attrs text cs) none 0) =
      .ok (some (canonStrict (.elem (S ("SCL")) attrs text cs))) := by
  obtain ⟨h1, h2⟩ := master_roundtrip attrs text cs nsmap hcf hok
  exact ⟨h1, by rw [h2, canonV2_eq_strict _ hstrict]⟩

/-- C1 witness: a document with a namespaced attribute, padded text, a
regular child and a Private child round-trips to its canonical form. -/
theorem claim1_canonical_roundtrip_witness :
    (commentFree (.elem (S ("SCL")) [(S ("name"), S ("st"))] (S (" t "))
        [.elem (S ("IED")) [(S ("desc"), S ("d1"))] [] [],
         .elem (S ("Private")) [(S ("type"), S ("v"))] [] []]) = true ∧
     encOK (.elem (S ("SCL")) [(S ("name"), S ("st"))] (S (" t "))
        [.elem (S ("IED")) [(S ("desc"), S ("d1"))] [] [],
         .elem (S ("Private")) [(S ("type"), S ("v"))] [] []]) = true ∧
     strictAttrs (.elem (S ("SCL")) [(S ("name"), S ("st"))] (S (" t "))
        [.elem (S ("IED")) [(S ("desc"), S ("d1"))] [] [],
         .elem (S ("Private")) [(S ("type"), S ("v"))] [] []]) = true) ∧
    rdfToScl (nsTriples [] ++ emit (.elem (S ("SCL")) [(S ("name"), S ("st"))] (S (" t "))
        [.elem (S ("IED")) [(S ("desc"), S ("d1"))] [] [],
         .elem (S ("Private")) [(S ("type"), S ("v"))] [] []]) none 0) =
      .ok (some (canonStrict (.elem (S ("SCL")) [(S ("name"), S ("st"))] (S (" t "))
        [.elem (S ("IED")) [(S ("desc"), S ("d1"))] [] [],
         .elem (S ("Private")) [(S ("type"), S ("v"))] [] []]))) :=
  ⟨⟨by decide, by decide, by decide⟩,
    (claim1_canonical_roundtrip [(S ("name"), S ("st"))] (S (" t "))
      [.elem (S ("IED")) [(S ("desc"), S ("d1"))] [] [],
       .elem (S ("Private")) [(S ("type"), S ("v"))] [] []] []
      (by decide) (by decide) (by decide)).2⟩

/-- C2: within one encode call, the emitted order values are pairwise
distinct and strictly increasing in pre-order (graph order), and sorting
any permutation of a node's collected child entries by order reproduces
exactly the document-order child sequence. -/
theorem claim2_order_invariant (root : XNode) (nsmap : List (Option Bytes × Bytes))
    (g : Graph)
    (hcf : commentFree root = true)
    (henc : sclToRdf ⟨root, nsmap⟩ = .ok g) :
    (ordersOf g).Pairwise (fun a b => a < b) ∧
    ∀ (cs : List XNode) (u : Bytes) (c : Nat), commentFreeL cs = true →
      ∀ l : List (Int × Obj), l.Perm (childEntries cs u c) →
        List.insertionSort (fun a b => a.1 ≤ b.1) l = childEntries cs u c := by
  constructor
  · have hg : g = nsTriples nsmap ++ emit root none 0 := by
      rw [sclToRdf] at henc
      have h2 : (processElement root none ⟨0, nsTriples nsmap⟩ >>=
          (fun r => (.ok r.1.graph : Except EncErr Graph))) = .ok g := henc
      rw [processElement_emit root none _ hcf] at h2
      have h3 : (.ok (nsTriples nsmap ++ emit root none 0) : Except EncErr Graph) =
          .ok g := h2
      exact (Except.ok.inj h3).symm
    subst hg
    rw [ordersOf_append]
    rw [ordersOf_nil_of_shape (nsTriples nsmap) (fun t ht => by
      obtain ⟨_, v, hv⟩ := nsTriples_mem nsmap t ht
      exact Or.inl ⟨v, hv⟩)]
    rw [List.nil_append, ordersOf_emit]
    exact preOrders_pairwise root 0
  · intro cs u c hcfl l hperm
    exact insertionSort_of_perm_childEntries cs u c hcfl l hperm

/-- C2 witness: an `A,B,A,B` sibling interleaving. -/
theorem claim2_order_invariant_witness :
    commentFree (.elem (S ("SCL")) [] []
      [.elem (S ("A")) [] [] [], .elem (S ("B")) [] [] [],
       .elem (S ("A")) [] [] [], .elem (S ("B")) [] [] []]) = true ∧
    ((ordersOf (nsTriples [] ++ emit (.elem (S ("SCL")) [] []
      [.elem (S ("A")) [] [] [], .elem (S ("B")) [] [] [],
       .elem (S ("A")) [] [] [], .elem (S ("B")) [] [] []]) none 0)).Pairwise
        (fun a b => a < b) ∧
      ∀ (cs : List XNode) (u : Bytes) (c : Nat), commentFreeL cs = true →
        ∀ l : List (Int × Obj), l.Perm (childEntries cs u c) →
          List.insertionSort (fun a b => a.1 ≤ b.1) l = childEntries cs u c) :=
  ⟨by decide,
    claim2_order_invariant (.elem (S ("SCL")) [] []
      [.elem (S ("A")) [] [] [], .elem (S ("B")) [] [] [],
       .elem (S ("A")) [] [] [], .elem (S ("B")) [] [] []]) [] _ (by decide) rfl⟩

/-- C4: encoding any number of sibling elements that all share tag `A`
and name `x` yields pairwise-distinct child URIs (one per sibling). -/
theorem claim4_shared_name_distinct_uris (n : Nat) :
    sclToRdf ⟨.elem (S ("SCL")) [] [] (List.replicate n
        (.elem (S ("A")) [(S ("name"), S ("x"))] [] [])), []⟩ =
      .ok (nsTriples [] ++ emit (.elem (S ("SCL")) [] [] (List.replicate n
        (.elem (S ("A")) [(S ("name"), S ("x"))] [] []))) none 0) ∧
    (objectsOf (nsTriples [] ++ emit (.elem (S ("SCL")) [] [] (List.replicate n
        (.elem (S ("A")) [(S ("name"), S ("x"))] [] []))) none 0)
      (Obj.uri (nodeUri (.elem (S ("SCL")) [] [] (List.replicate n
        (.elem (S ("A")) [(S ("name"), S ("x"))] [] []))) none 0))
      (iecNS ++ S ("has") ++ S ("A"))).Nodup ∧
    (objectsOf (nsTriples [] ++ emit (.elem (S ("SCL")) [] [] (List.replicate n
        (.elem (S ("A")) [(S ("name"), S ("x"))] [] []))) none 0)
      (Obj.uri (nodeUri (.elem (S ("SCL")) [] [] (List.replicate n
        (.elem (S ("A")) [(S ("name"), S ("x"))] [] []))) none 0))
      (iecNS ++ S ("has") ++ S ("A"))).length = n := by
  have hcf : commentFree (.elem (S ("SCL")) [] [] (List.replicate n
      (.elem (S ("A")) [(S ("name"), S ("x"))] [] []))) = true := by
    rw [show commentFree (.elem (S ("SCL")) [] [] (List.replicate n
      (.elem (S ("A")) [(S ("name"), S ("x"))] [] []))) =
      commentFreeL (List.replicate n
        (.elem (S ("A")) [(S ("name"), S ("x"))] [] [])) from rfl]
    exact replicate_commentFree n
  have hobj : objectsOf (nsTriples [] ++ emit (.elem (S ("SCL")) [] [] (List.replicate n
      (.elem (S ("A")) [(S ("name"), S ("x"))] [] []))) none 0)
      (Obj.uri (nodeUri (.elem (S ("SCL")) [] [] (List.replicate n
        (.elem (S ("A")) [(S ("name"), S ("x"))] [] []))) none 0))
      (iecNS ++ S ("has") ++ S ("A")) =
      regLinkObjs (List.replicate n (.elem (S ("A")) [(S ("name"), S ("x"))] [] []))
        (nodeUri (.elem (S ("SCL")) [] [] (List.replicate n
          (.elem (S ("A")) [(S ("name"), S ("x"))] [] []))) none 0) (0 + 2) := by
    rw [objectsOf_predFilter]
    rw [show nsTriples ([] : List (Option Bytes × Bytes)) ++
      emit (.elem (S ("SCL")) [] [] (List.replicate n
        (.elem (S ("A")) [(S ("name"), S ("x"))] [] []))) none 0 =
      emit (.elem (S ("SCL")) [] [] (List.replicate n
        (.elem (S ("A")) [(S ("name"), S ("x"))] [] []))) none 0 from rfl]
    rw [emit_own_view (S ("SCL")) [] [] (List.replicate n
      (.elem (S ("A")) [(S ("name"), S ("x"))] [] [])) none 0 (by decide)]
    rw [predFilter_append, predFilter_append, predFilter_append]
    rw [predFilter_cons_miss _ _ _ (by
      show iecOrderP ≠ iecNS ++ S ("has") ++ S ("A")
      rw [iecOrderP, List.append_assoc]
      intro he
      have h2 := iec_cancel.mp he
      revert h2
      decide)]
    rw [predFilter_cons_miss _ _ _ (by
      show rdfTypeP ≠ iecNS ++ S ("has") ++ S ("A")
      rw [List.append_assoc]
      exact fun he => iecApp_ne_rdfType _ he.symm)]
    rw [replicate_links_filter n]
    simp [attrTriples, textTriples, predFilter]
  refine ⟨?enc, ?nd, ?len⟩
  case enc =>
    rw [sclToRdf]
    show (processElement (.elem (S ("SCL")) [] [] (List.replicate n
        (.elem (S ("A")) [(S ("name"), S ("x"))] [] []))) none
        ⟨0, nsTriples []⟩ >>= (fun r => .ok r.1.graph)) = _
    rw [processElement_emit _ none _ hcf]
    rfl
  case nd =>
    rw [hobj]
    exact regLinkObjs_nodup _ _ _
  case len =>
    rw [hobj]
    exact replicate_regLinkObjs_length n _ _

/-- C4 witness at 3 siblings. -/
theorem claim4_shared_name_distinct_uris_witness :
    sclToRdf ⟨.elem (S ("SCL")) [] [] (List.replicate 3
        (.elem (S ("A")) [(S ("name"), S ("x"))] [] [])), []⟩ =
      .ok (nsTriples [] ++ emit (.elem (S ("SCL")) [] [] (List.replicate 3
        (.elem (S ("A")) [(S ("name"), S ("x"))] [] []))) none 0) ∧
    (objectsOf (nsTriples [] ++ emit (.elem (S ("SCL")) [] [] (List.replicate 3
        (.elem (S ("A")) [(S ("name"), S ("x"))] [] []))) none 0)
      (Obj.uri (nodeUri (.elem (S ("SCL")) [] [] (List.replicate 3
        (.elem (S ("A")) [(S ("name"), S ("x"))] [] []))) none 0))
      (iecNS ++ S ("has") ++ S ("A"))).Nodup ∧
    (objectsOf (nsTriples [] ++ emit (.elem (S ("SCL")) [] [] (List.replicate 3
        (.elem (S ("A")) [(S ("name"), S ("x"))] [] []))) none 0)
      (Obj.uri (nodeUri (.elem (S ("SCL")) [] [] (List.replicate 3
        (.elem (S ("A")) [(S ("name"), S ("x"))] [] []))) none 0))
      (iecNS ++ S ("has") ++ S ("A"))).length = 3 :=
  claim4_shared_name_distinct_uris 3

/-- C10 counterexample: an attribute named `type` survives the round
trip, contradicting the claim that `type`-named attributes are dropped
(only `rdf:type`, not `iec:type`, is a reserved predicate). -/
theorem claim10_type_attr_survives_counterexample :
    sclToRdf ⟨.elem (S ("SCL")) [(S ("type"), S ("T7"))] [] [], []⟩ =
      .ok (nsTriples [] ++ emit (.elem (S ("SCL")) [(S ("type"), S ("T7"))] [] []) none 0) ∧
    rdfToScl (nsTriples [] ++ emit (.elem (S ("SCL")) [(S ("type"), S ("T7"))] [] []) none 0) =
      .ok (some (.elem (S ("SCL")) [(S ("type"), S ("T7"))] [] [])) :=
  ⟨rfl, rfl⟩

/-- C10 (amended): the decoder drops exactly the plain attributes whose
name starts with `has` or equals `order`; all other attributes (including
`type`-named ones) are restored. -/
theorem claim10_attr_drop_rule (attrs : List (Bytes × Bytes)) (text : Bytes)
    (cs : List XNode) (nsmap : List (Option Bytes × Bytes))
    (hcf : commentFree (.elem (S ("SCL")) attrs text cs) = true)
    (hok : encOK (.elem (S ("SCL")) attrs text cs) = true) :
    rdfToScl (nsTriples nsmap ++ emit (.elem (S ("SCL")) attrs text cs) none 0) =
      .ok (some (.elem (S ("SCL")) (attrs.filter keepAttrB) (pyStrip text)
        (canonV2L cs))) ∧
    ∀ kv ∈ attrs, (kv ∈ attrs.filter keepAttrB ↔
      ¬((S ("has")).isPrefixOf kv.1 = true ∨ kv.1 = S ("order"))) := by
  obtain ⟨h1, h2⟩ := master_roundtrip attrs text cs nsmap hcf hok
  constructor
  · rw [h2, canonV2_elem_def, if_neg (by decide)]
  · intro kv hkv
    rw [List.mem_filter]
    constructor
    · rintro ⟨_, hkeep⟩
      rw [show keepAttrB kv =
        (!((S ("has")).isPrefixOf kv.1) && decide (kv.1 ≠ S ("order"))) from rfl] at hkeep
      rw [Bool.and_eq_true, Bool.not_eq_true', decide_eq_true_eq] at hkeep
      rintro (hc | hc)
      · rw [hkeep.1] at hc
        exact Bool.false_ne_true hc
      · exact hkeep.2 hc
    · intro hnot
      rw [not_or] at hnot
      refine ⟨hkv, ?keep⟩
      rw [show keepAttrB kv =
        (!((S ("has")).isPrefixOf kv.1) && decide (kv.1 ≠ S ("order"))) from rfl]
      rw [Bool.and_eq_true, Bool.not_eq_true', decide_eq_true_eq]
      exact ⟨Bool.eq_false_iff.mpr hnot.1, hnot.2⟩

/-- C10 witness: `hash` and `order` attributes are dropped, `width`
survives. -/
theorem claim10_attr_drop_rule_witness :
    (commentFree (.elem (S ("SCL")) [(S ("hash"), S ("1")), (S ("order"), S ("9")),
        (S ("width"), S ("w"))] [] []) = true ∧
     encOK (.elem (S ("SCL")) [(S ("hash"), S ("1")), (S ("order"), S ("9")),
        (S ("width"), S ("w"))] [] []) = true) ∧
    rdfToScl (nsTriples [] ++ emit (.elem (S ("SCL"))
        [(S ("hash"), S ("1")), (S ("order"), S ("9")), (S ("width"), S ("w"))] [] [])
        none 0) =
      .ok (some (.elem (S ("SCL")) ([(S ("hash"), S ("1")), (S ("order"), S ("9")),
        (S ("width"), S ("w"))].filter keepAttrB) (pyStrip []) (canonV2L []))) :=
  ⟨⟨by decide, by decide⟩,
    (claim10_attr_drop_rule [(S ("hash"), S ("1")), (S ("order"), S ("9")),
      (S ("width"), S ("w"))] [] [] [] (by decide) (by decide)).1⟩

end SclRdf
